import Mathlib

set_option maxHeartbeats 1000000

/-!
Verification of the map-table construction subsystem and table-cache GET path
of an LSM storage engine (`db/map_builder.cc`, `db/table_cache.cc`).

The development shallowly embeds the interval ("range with dependence")
algebra: internal keys, the inclusive-aware comparator `CompInclude`, the
two-vector partitioner `PartitionRangeWithDepend` (MERGE / DELETE), the range
loader, the map-element iterator's link-size tightening loop, the builder's
post-partition decision logic, and the map-aware point-GET of the table cache.
-/

namespace TerarkMap

/-- Internal key: a user key together with an 8-byte footer packing
`(sequence << 8) | type`.  Ordering is user key ascending, then footer
descending.  We model user keys as naturals (any linearly ordered key space
works for the code under study, which only ever compares keys). -/
structure IKey where
  uk : Nat
  ft : Nat
deriving DecidableEq, Repr

/-- 56-bit max sequence number, as in `dbformat.h`. -/
def kMaxSequenceNumber : Nat := 2 ^ 56 - 1

/-- Modelled from the spec: `kTypeDeletion` (value-type byte used by
`RangeWithDepend(const FileMetaData*)`) is not part of the sources under
study; the rocksdb lineage this repository forks defines it as 0, and the
spec's sentinel footer "(MaxSeq, TypeForSeek) -- all-ones" forces
`kValueTypeForSeek = 255`, hence `kTypeDeletion ≠ kValueTypeForSeek`. -/
def kTypeDeletion : Nat := 0

/-- Modelled from the spec: the value type used when seeking; the spec states
the sentinel footer `(MaxSeq, TypeForSeek)` is the all-ones 64-bit value,
which makes this byte 255. -/
def kValueTypeForSeek : Nat := 255

/-- `PackSequenceAndType`: footer = (seq << 8) | type. -/
def packFooter (seq ty : Nat) : Nat := seq * 256 + ty

/-- `GetInternalKeySeqno` / `ParsedInternalKey.sequence`: high 56 bits of the
footer. -/
def seqOf (k : IKey) : Nat := k.ft / 256

/-- Strict order on internal keys: user key ascending, footer descending. -/
def keyLt (a b : IKey) : Prop :=
  a.uk < b.uk ∨ (a.uk = b.uk ∧ b.ft < a.ft)

instance (a b : IKey) : Decidable (keyLt a b) :=
  inferInstanceAs (Decidable (a.uk < b.uk ∨ (a.uk = b.uk ∧ b.ft < a.ft)))

instance : IsTrans IKey keyLt :=
  ⟨fun _ _ _ h1 h2 => by unfold keyLt at *; omega⟩

/-- `InternalKeyComparator::Compare`, returning a C-style int. -/
def ikeyCmp (a b : IKey) : Int :=
  if a.uk < b.uk then -1
  else if b.uk < a.uk then 1
  else if b.ft < a.ft then -1
  else if a.ft < b.ft then 1
  else 0

/-- A link target of a map element: `{file_number, size}`. -/
structure LinkTarget where
  file_number : Nat
  size : Nat
deriving DecidableEq, Repr

/-- The central value of the partitioner (`struct RangeWithDepend`). -/
structure RangeWithDepend where
  point0 : IKey
  point1 : IKey
  include0 : Bool
  include1 : Bool
  no_records : Bool
  stable : Bool
  dependence : List LinkTarget
deriving DecidableEq, Repr

/-- `IsEmptyMapSstElement`: single link, both endpoints on the same user key,
and the upper footer's sequence is the max-sequence sentinel. -/
def IsEmptyMapSstElement (r : RangeWithDepend) : Bool :=
  r.dependence.length == 1 && r.point0.uk == r.point1.uk &&
    seqOf r.point1 == kMaxSequenceNumber

/-- `CompInclude`: tie-break of the endpoint comparison `c` by the 4-bit
bracket truth table of the source (`ab`/`bb`: 0 = left bound, 1 = right
bound; `ai`/`bi`: inclusive flags). -/
def CompInclude (c : Int) (ab ai bb bi : Bool) : Int :=
  if c ≠ 0 then c
  else
    match ab, ai, bb, bi with
    | false, true,  false, false => -1
    | false, true,  true,  false => -1
    | false, false, true,  true  => -1
    | true,  false, true,  true  => -1
    | true,  false, false, false => -1
    | false, true,  true,  true  => -1
    | false, false, false, true  => 1
    | true,  false, false, true  => 1
    | true,  true,  false, false => 1
    | true,  true,  true,  false => 1
    | false, false, true,  false => 1
    | true,  true,  false, true  => 1
    | _, _, _, _ => 0

/-- `PartitionType`. -/
inductive PartitionType where
  | kMerge
  | kDelete
deriving DecidableEq, Repr

/-- Loop state of `PartitionRangeWithDepend`.  `output` is kept reversed
(head = `output.back()` of the C++ vector) so that the back-mutations of
`put_left` / `put_right` / `put_depend` are head operations.  `source`
models the captured `source` pointer as (side, index): `false` = `&ranges_a[i]`,
`true` = `&ranges_b[i]`. -/
structure PartState where
  ai : Nat
  bi : Nat
  ab : Bool
  bb : Bool
  output : List RangeWithDepend
  source : Option (Bool × Nat)
deriving DecidableEq, Repr

/-- Placeholder used for (unreachable) out-of-bounds element accesses. -/
def dummyRange : RangeWithDepend :=
  { point0 := ⟨0, 0⟩, point1 := ⟨0, 0⟩, include0 := false, include1 := false,
    no_records := false, stable := false, dependence := [] }

/-- `put_left`: push a fresh back with its left endpoint set, and remember the
source pointer.  The C++ default-constructs the remaining fields
(indeterminate); they are always overwritten or popped before being observed,
so we give them fixed defaults. -/
def putLeft (key : IKey) (incl : Bool) (r : Option (Bool × Nat))
    (s : PartState) : PartState :=
  { s with
    output := { point0 := key, point1 := key, include0 := incl,
                include1 := false, no_records := false, stable := false,
                dependence := [] } :: s.output,
    source := r }

/-- `put_right`: close the back at `key`/`incl`; drop it when its dependence
list is empty or it collapsed to an empty interval, or when it is an empty
map element; otherwise clear `stable` unless the same input interval opened
and closes it. -/
def putRight (key : IKey) (incl : Bool) (r : Option (Bool × Nat))
    (s : PartState) : PartState :=
  match s.output with
  | [] => s
  | back :: rest =>
    if back.dependence = [] ∨
        (ikeyCmp key back.point0 = 0 ∧ (!back.include0 || !incl)) then
      { s with output := rest }
    else
      let back' := { back with point1 := key, include1 := incl }
      if IsEmptyMapSstElement back' then
        { s with output := rest }
      else if s.source = none ∨ r = none ∨ s.source ≠ r then
        { s with output := { back' with stable := false } :: rest }
      else
        { s with output := back' :: rest }

/-- A freshly opened back interval as `put_left` and `put_depend` leave it:
left endpoint set to the opening event, attribute fields as given. -/
def openAt (k : IKey) (i : Bool) (dep : List LinkTarget) (nr st : Bool) :
    RangeWithDepend :=
  { point0 := k, point1 := k, include0 := i, include1 := false,
    no_records := nr, stable := st, dependence := dep }

/-- The back interval as `put_right` rewrites it: right endpoint set to the
closing event, with the given stable flag. -/
def closeAt (op : RangeWithDepend) (key : IKey) (incl st : Bool) :
    RangeWithDepend :=
  { op with point1 := key, include1 := incl, stable := st }

/-- `put_depend`: fill dependence/no_records/stable of the back from the
covering input interval(s), according to the partition type. -/
def putDepend (type : PartitionType) (a b : Option RangeWithDepend)
    (s : PartState) : PartState :=
  match s.output with
  | [] => s
  | back :: rest =>
    match type with
    | .kMerge =>
      match a, b with
      | some a', some b' =>
        { s with output :=
            { back with stable := false,
                        dependence := a'.dependence ++ b'.dependence } :: rest }
      | some a', none =>
        { s with output :=
            { back with dependence := a'.dependence,
                        no_records := a'.no_records,
                        stable := a'.stable } :: rest }
      | none, some b' =>
        { s with output :=
            { back with dependence := b'.dependence,
                        no_records := b'.no_records,
                        stable := b'.stable } :: rest }
      | none, none => s
    | .kDelete =>
      match a, b with
      | some a', none =>
        { s with output :=
            { back with dependence := a'.dependence,
                        no_records := a'.no_records,
                        stable := a'.stable } :: rest }
      | _, _ => s

/-- The key of side `a`'s pending event (`ranges_a[ai].point[ab]`). -/
def aKeyOf (ra : List RangeWithDepend) (s : PartState) : IKey :=
  if s.ab then (ra.getD s.ai dummyRange).point1 else (ra.getD s.ai dummyRange).point0

/-- The inclusive flag of side `a`'s pending event. -/
def aIncOf (ra : List RangeWithDepend) (s : PartState) : Bool :=
  if s.ab then (ra.getD s.ai dummyRange).include1
  else (ra.getD s.ai dummyRange).include0

/-- The key of side `b`'s pending event. -/
def bKeyOf (rb : List RangeWithDepend) (s : PartState) : IKey :=
  if s.bb then (rb.getD s.bi dummyRange).point1 else (rb.getD s.bi dummyRange).point0

/-- The inclusive flag of side `b`'s pending event. -/
def bIncOf (rb : List RangeWithDepend) (s : PartState) : Bool :=
  if s.bb then (rb.getD s.bi dummyRange).include1
  else (rb.getD s.bi dummyRange).include0

/-- The comparison value `c` computed by one sweep iteration. -/
def cval (ra rb : List RangeWithDepend) (s : PartState) : Int :=
  if s.ai < ra.length ∧ s.bi < rb.length then
    CompInclude (ikeyCmp (aKeyOf ra s) (bKeyOf rb s)) s.ab (aIncOf ra s)
      s.bb (bIncOf rb s)
  else if s.ai < ra.length then -1 else 1

/-- One iteration of the partition sweep (the body of the do-while loop). -/
def partStep (ra rb : List RangeWithDepend) (type : PartitionType)
    (s : PartState) : PartState :=
  let fa := ra.getD s.ai dummyRange
  let fb := rb.getD s.bi dummyRange
  let aKey := aKeyOf ra s
  let aInc := aIncOf ra s
  let bKey := bKeyOf rb s
  let bInc := bIncOf rb s
  let c : Int := cval ra rb s
  let ac : Bool := decide (c ≤ 0)
  let bc : Bool := decide (0 ≤ c)
  let s' :=
    match s.ab, s.bb, ac, bc with
    -- out a, out b, enter a
    | false, false, true, false =>
      putDepend type (some fa) none (putLeft aKey aInc (some (false, s.ai)) s)
    -- in a, out b, leave a
    | true, false, true, false =>
      putRight aKey aInc (some (false, s.ai)) s
    -- out a, out b, enter b
    | false, false, false, true =>
      putDepend type none (some fb) (putLeft bKey bInc (some (true, s.bi)) s)
    -- out a, in b, leave b
    | false, true, false, true =>
      putRight bKey bInc (some (true, s.bi)) s
    -- in a, out b, begin b
    | true, false, false, true =>
      putDepend type (some fa) (some fb)
        (putLeft bKey bInc (some (true, s.bi))
          (putRight bKey (!bInc) none s))
    -- in a, in b, leave b
    | true, true, false, true =>
      putDepend type (some fa) none
        (putLeft bKey (!bInc) none
          (putRight bKey bInc (some (true, s.bi)) s))
    -- out a, in b, begin a
    | false, true, true, false =>
      putDepend type (some fa) (some fb)
        (putLeft aKey aInc (some (false, s.ai))
          (putRight aKey (!aInc) none s))
    -- in a, in b, leave a
    | true, true, true, false =>
      putDepend type none (some fb)
        (putLeft aKey (!aInc) none
          (putRight aKey aInc (some (false, s.ai)) s))
    -- out a, out b, enter a, enter b
    | false, false, true, true =>
      putDepend type (some fa) (some fb) (putLeft aKey aInc none s)
    -- in a, in b, leave a, leave b
    | true, true, true, true =>
      putRight aKey aInc none s
    -- unreachable (assert(false) in the source)
    | _, _, _, _ => s
  let abN : Nat := if s.ab then 1 else 0
  let bbN : Nat := if s.bb then 1 else 0
  let acN : Nat := if ac then 1 else 0
  let bcN : Nat := if bc then 1 else 0
  { s' with
    ai := s.ai + (abN + acN) / 2,
    bi := s.bi + (bbN + bcN) / 2,
    ab := (abN + acN) % 2 == 1,
    bb := (bbN + bcN) % 2 == 1 }

/-- The do-while loop of `PartitionRangeWithDepend`, with explicit fuel (the
sweep takes at most `2·(|a|+|b|)` iterations; the fuel passed by
`PartitionRangeWithDepend` is never exhausted). -/
def partLoop (ra rb : List RangeWithDepend) (type : PartitionType) :
    Nat → PartState → List RangeWithDepend
  | 0, s => s.output
  | fuel + 1, s =>
    let s' := partStep ra rb type s
    if s'.ai = ra.length ∧ s'.bi = rb.length then s'.output
    else partLoop ra rb type fuel s'

/-- Initial loop state. -/
def partInit : PartState :=
  { ai := 0, bi := 0, ab := false, bb := false, output := [], source := none }

/-- `PartitionRangeWithDepend`: partition two sorted non-overlapping range
vectors (the result list is in the C++ vector's order). -/
def PartitionRangeWithDepend (ra rb : List RangeWithDepend)
    (type : PartitionType) : List RangeWithDepend :=
  (partLoop ra rb type (2 * (ra.length + rb.length) + 1) partInit).reverse

/-! ### Cuts: positions between internal keys

A cut `⟨k, false⟩` sits just before key `k`; `⟨k, true⟩` sits just after it.
Every interval endpoint (key, bracket) determines a cut, and interval
membership is expressed through cuts. -/

/-- A position in the gap structure of the key space. -/
structure Cut where
  k : IKey
  after : Bool
deriving DecidableEq, Repr

/-- The point `x` lies at or after the cut `c`. -/
def cutLE (c : Cut) (x : IKey) : Prop :=
  if c.after then keyLt c.k x else ¬ keyLt x c.k

instance (c : Cut) (x : IKey) : Decidable (cutLE c x) :=
  inferInstanceAs (Decidable (if c.after then keyLt c.k x else ¬ keyLt x c.k))

/-- Order on cuts. -/
def cutLe (c d : Cut) : Prop :=
  keyLt c.k d.k ∨ (c.k = d.k ∧ (c.after → d.after))

instance (c d : Cut) : Decidable (cutLe c d) :=
  inferInstanceAs (Decidable (keyLt c.k d.k ∨ (c.k = d.k ∧ (c.after → d.after))))

/-- Strict order on cuts. -/
def cutLt (c d : Cut) : Prop :=
  keyLt c.k d.k ∨ (c.k = d.k ∧ c.after = false ∧ d.after = true)

instance (c d : Cut) : Decidable (cutLt c d) :=
  inferInstanceAs
    (Decidable (keyLt c.k d.k ∨ (c.k = d.k ∧ c.after = false ∧ d.after = true)))

/-- The cut of an interval's left endpoint: `[` sits before the key, `(`
after it. -/
def lcut (r : RangeWithDepend) : Cut := ⟨r.point0, !r.include0⟩

/-- The cut of an interval's right endpoint: `]` sits after the key, `)`
before it. -/
def rcut (r : RangeWithDepend) : Cut := ⟨r.point1, r.include1⟩

/-- Pointwise membership of `x` in the interval `r`. -/
def rmem (r : RangeWithDepend) (x : IKey) : Prop :=
  cutLE (lcut r) x ∧ ¬ cutLE (rcut r) x

instance (r : RangeWithDepend) (x : IKey) : Decidable (rmem r x) :=
  inferInstanceAs (Decidable (cutLE (lcut r) x ∧ ¬ cutLE (rcut r) x))

/-- Pointwise coverage of a vector of intervals. -/
def covers (l : List RangeWithDepend) (x : IKey) : Prop :=
  ∃ r ∈ l, rmem r x

instance (l : List RangeWithDepend) (x : IKey) : Decidable (covers l x) :=
  inferInstanceAs (Decidable (∃ r ∈ l, rmem r x))

/-! ### File metadata, map elements and the range loader -/

/-- `purpose` property of a table. -/
inductive TablePurpose where
  | kEssenceSst
  | kMapSst
deriving DecidableEq, Repr

/-- A decoded `MapSstElement`. -/
structure MapSstElement where
  smallest_key : IKey
  largest_key : IKey
  include_smallest : Bool
  include_largest : Bool
  no_smallest : Bool
  no_records : Bool
  link : List LinkTarget
deriving DecidableEq, Repr

/-- The slice of `FileMetaData` used by this subsystem.  For a map table,
`map_elements` is the decoded content its iterator yields; `inline_reader`
models `fd.table_reader != nullptr`. -/
structure FileMetaData where
  file_number : Nat
  smallest : IKey
  largest : IKey
  purpose : TablePurpose
  map_elements : List MapSstElement
  inline_reader : Bool
deriving DecidableEq, Repr

def dummyFile : FileMetaData :=
  { file_number := 0, smallest := ⟨0, 0⟩, largest := ⟨0, 0⟩,
    purpose := .kEssenceSst, map_elements := [], inline_reader := false }

/-- `RangeWithDepend(const FileMetaData*)`: the single range a data table
contributes.  When the largest key's sequence is the max sentinel the upper
endpoint is re-packed as `(user_key, kMaxSequenceNumber, kTypeDeletion)`;
otherwise the largest internal key is taken unchanged. -/
def RangeWithDepend.ofFile (f : FileMetaData) : RangeWithDepend :=
  { point0 := f.smallest,
    point1 :=
      if seqOf f.largest = kMaxSequenceNumber then
        ⟨f.largest.uk, packFooter kMaxSequenceNumber kTypeDeletion⟩
      else f.largest,
    include0 := true, include1 := true, no_records := false, stable := false,
    dependence := [⟨f.file_number, 0⟩] }

/-- `RangeWithDepend(const MapSstElement&)`: a range decoded from a map
table entry is stable. -/
def RangeWithDepend.ofElement (e : MapSstElement) : RangeWithDepend :=
  { point0 := e.smallest_key, point1 := e.largest_key,
    include0 := e.include_smallest, include1 := e.include_largest,
    no_records := e.no_records, stable := true, dependence := e.link }

/-- `LoadRangeWithDepend`: each map-table input contributes its decoded
elements, each data-table input one range.  (Iterator I/O errors and the
bound builder are outside the modelled fragment.) -/
def LoadRangeWithDepend (files : List FileMetaData) : List RangeWithDepend :=
  files.flatMap fun f =>
    if f.purpose = .kMapSst then f.map_elements.map RangeWithDepend.ofElement
    else [RangeWithDepend.ofFile f]

/-! ### Map builder: post-partition decision logic -/

/-- `IsPrefaceRange` (map_builder.cc:58): the range reproduces a data file's
own bounds.  Note the source compares the full 8-byte footer of
`f->largest` against `kMaxSequenceNumber`. -/
def IsPrefaceRange (start limit : IKey) (include_start include_limit : Bool)
    (f : FileMetaData) : Bool :=
  f.purpose == .kEssenceSst && include_start && start == f.smallest &&
  limit.uk == f.largest.uk &&
  (if f.largest.ft = kMaxSequenceNumber then limit.ft == kMaxSequenceNumber
   else include_limit && limit.ft == f.largest.ft)

/-- The `build_map_sst` check of `MapBuilder::Build` (lines 726-741): some
surviving range has fan-out or is not a preface range of its sole
dependency. -/
def needBuildMapSst (metaOf : Nat → Option FileMetaData)
    (ranges : List RangeWithDepend) : Bool :=
  ranges.any fun r =>
    decide (r.dependence.length > 1) ||
    (match metaOf (r.dependence.headD ⟨0, 0⟩).file_number with
     | none => true
     | some f =>
       !IsPrefaceRange r.point0 r.point1 r.include0 r.include1 f)

/-- Which of the four exits of `MapBuilder::Build` (after partitioning) is
taken. -/
inductive BuildOutcome where
  | emptyDrop
  | passThrough
  | stableSkip
  | writeMap
deriving DecidableEq, Repr

/-- The post-partition control flow of `MapBuilder::Build` (lines 711-788):
empty survivor; pass-through of preface files; the all-stable single-map
short-circuit; or writing a new map table via `WriteOutputFile` (which
allocates a fresh file number). -/
def MapBuilderDecision (inputs : List (List FileMetaData)) (output_level : Int)
    (metaOf : Nat → Option FileMetaData) (ranges : List RangeWithDepend)
    (input_range_count : Nat) : BuildOutcome :=
  if ranges.isEmpty then .emptyDrop
  else if (output_level ≠ 0 ∨ ranges.length = 1) ∧
      needBuildMapSst metaOf ranges = false then .passThrough
  else if inputs.length = 1 ∧ (inputs.headD []).length = 1 ∧
      ((inputs.headD []).headD dummyFile).purpose = .kMapSst ∧
      ranges.length = input_range_count ∧
      (∀ r ∈ ranges, r.stable = true) then .stableSkip
  else .writeMap

/-! ### Map element iterator: link-size tightening

`MapSstElementIterator::PrepareNext` (lines 256-306), the `stable == false`
branch: for each link target, seek its iterator into the element's window and
set the link size from approximate offsets.  A reader is modelled as its
strictly ascending key list plus an offset function. -/

/-- Index the iterator lands on after `Seek(t)`: the first key `≥ t`
(equals `keys.length` when invalid). -/
def seekIdx (keys : List IKey) (t : IKey) : Nat :=
  (keys.takeWhile fun k => decide (keyLt k t)).length

/-- Number of keys `≤ t`; `SeekForPrev(t)` lands on index `seekPrevLen - 1`
and is invalid when this is 0. -/
def seekPrevLen (keys : List IKey) (t : IKey) : Nat :=
  (keys.takeWhile fun k => !decide (keyLt t k)).length

/-- The body of the per-link loop: returns the updated link and whether the
tightened sub-range was found non-empty (`no_records` is cleared).  Paths
that run the iterator off the file leave the link unchanged, mirroring the
`continue` statements of the source. -/
def tightenLink (keys : List IKey) (off : IKey → Nat) (start limit : IKey)
    (include_start include_limit : Bool) (lk : LinkTarget) :
    LinkTarget × Bool :=
  let n := keys.length
  let i0 := seekIdx keys start
  if i0 < n then
    let i1 := if !include_start && (keys.getD i0 ⟨0, 0⟩ == start) then i0 + 1
              else i0
    if i1 < n then
      let temp_start := keys.getD i1 ⟨0, 0⟩
      let jlen := seekPrevLen keys limit
      if jlen = 0 then (lk, false)
      else
        let j0 := jlen - 1
        let j1 : Option Nat :=
          if !include_limit && (keys.getD j0 ⟨0, 0⟩ == limit) then
            (if j0 = 0 then none else some (j0 - 1))
          else some j0
        match j1 with
        | none => (lk, false)
        | some j =>
          let temp_end := keys.getD j ⟨0, 0⟩
          if decide (¬ keyLt temp_end temp_start) then
            ({ lk with size := (off temp_end + 2 ^ 64 - off temp_start) % 2 ^ 64 },
             true)
          else ({ lk with size := 0 }, false)
    else (lk, false)
  else (lk, false)

/-- The link loop of the `stable == false` branch: updated links plus the
resulting `no_records` flag (initialized `true`, cleared by any non-empty
link). -/
def prepareLinks (tbl : Nat → List IKey × (IKey → Nat)) (start limit : IKey)
    (include_start include_limit : Bool) :
    List LinkTarget → List LinkTarget × Bool
  | [] => ([], true)
  | lk :: rest =>
    let t := tbl lk.file_number
    let r := tightenLink t.1 t.2 start limit include_start include_limit lk
    let rec' := prepareLinks tbl start limit include_start include_limit rest
    (r.1 :: rec'.1, rec'.2 && !r.2)

/-- Semantic tightened window of an element on one file: the keys of the file
inside the element's interval. -/
def inWindow (start limit : IKey) (include_start include_limit : Bool)
    (k : IKey) : Prop :=
  cutLE ⟨start, !include_start⟩ k ∧ ¬ cutLE ⟨limit, include_limit⟩ k

instance (start limit : IKey) (i0 i1 : Bool) (k : IKey) :
    Decidable (inWindow start limit i0 i1 k) :=
  inferInstanceAs
    (Decidable (cutLE ⟨start, !i0⟩ k ∧ ¬ cutLE ⟨limit, i1⟩ k))

/-! ### Table cache: FindTable and map-aware GET -/

/-- Status values relevant to the modelled GET path. -/
inductive GStatus where
  | ok
  | corruption (msg : String)
  | incomplete (msg : String)
deriving DecidableEq, Repr

def GStatus.isOk : GStatus → Bool
  | .ok => true
  | _ => false

def GStatus.isIncomplete : GStatus → Bool
  | .incomplete _ => true
  | _ => false

/-- The slice of `GetContext` the GET path manipulates. -/
structure GetContext where
  min_seq_type : Nat
  finished : Bool
  key_may_exist : Bool
deriving DecidableEq, Repr

/-- The slice of `ReadOptions` used: `read_tier == kBlockCacheTier`. -/
structure ReadOptions where
  block_cache_tier : Bool
deriving DecidableEq, Repr

/-- Environment of the table cache: which file numbers currently have a
cached reader, and the behavior of `TableReader::Get` on data tables
(abstract; it may consume and update the get context). -/
structure TCEnv where
  cached : List Nat
  dataGet : Nat → IKey → GetContext → GStatus × GetContext

/-- `TableCache::FindTable`, status only: a cached entry hits; otherwise a
`no_io` lookup returns `Incomplete` and an I/O open succeeds (I/O failures
are outside the modelled fragment). -/
def FindTable (env : TCEnv) (file_number : Nat) (no_io : Bool) : GStatus :=
  if env.cached.contains file_number then .ok
  else if no_io then .incomplete "Table not found in table_cache, no_io is set"
  else .ok

/-- Dependence-map lookup (`dependence_map.find`). -/
def depFind (dm : List (Nat × FileMetaData)) (n : Nat) : Option FileMetaData :=
  (dm.find? fun p => p.1 == n).map Prod.snd

/-- The link loop of `get_from_map` (lines 495-514): look each link target up
in the dependence map and recursively GET; stop on error or when the context
is finished.  Returns (status, context, completed-all-links?). -/
def linksLoop (G : FileMetaData → IKey → GetContext → GStatus × GetContext)
    (dm : List (Nat × FileMetaData)) (find_k : IKey) :
    List LinkTarget → GetContext → GStatus × GetContext × Bool
  | [], ctx => (.ok, ctx, true)
  | lk :: rest, ctx =>
    match depFind dm lk.file_number with
    | none => (.corruption "Map sst depend files missing", ctx, false)
    | some f =>
      let r := G f find_k ctx
      if !r.1.isOk || r.2.finished then (r.1, r.2, false)
      else linksLoop G dm find_k rest r.2

/-- `get_from_map` for one map element (lines 420-518).  Returns
(status, context, continue-scan?).  `G` is the recursive `TableCache::Get`.

Modelled from the spec: the element is already decoded (the manual varint
decode of the source cannot fail on structured data); `kNoSmallest` elements
are rejected as in the source. -/
def getFromMap (G : FileMetaData → IKey → GetContext → GStatus × GetContext)
    (dm : List (Nat × FileMetaData)) (k : IKey) (e : MapSstElement)
    (ctx : GetContext) : GStatus × GetContext × Bool :=
  if e.no_smallest then (.corruption "Map sst invalid link_value", ctx, false)
  else
    let smallest := e.smallest_key
    -- include_smallest ? Compare(smallest,k) > 0 : Compare(smallest,k) ≥ 0
    let out_of_smallest : Bool :=
      if e.include_smallest then decide (keyLt k smallest)
      else !decide (keyLt smallest k)
    let find_k? : Option IKey :=
      if out_of_smallest then
        if smallest.uk ≠ k.uk then none
        else if e.include_smallest then some smallest
        else if smallest.ft = 0 then none
        else some ⟨smallest.uk, smallest.ft - 1⟩
      else some k
    match find_k? with
    | none => (.ok, ctx, false)
    | some find_k =>
      let is_largest_user_key : Bool := e.largest_key.uk == k.uk
      let min_seq_type_backup := ctx.min_seq_type
      if is_largest_user_key && e.largest_key.ft == 2 ^ 64 - 1 &&
          !e.include_largest then
        (.ok, ctx, true)
      else
        let ceiling :=
          max min_seq_type_backup
            (e.largest_key.ft + (if e.include_largest then 0 else 1))
        let ctx1 :=
          if is_largest_user_key then { ctx with min_seq_type := ceiling }
          else ctx
        let r := linksLoop G dm find_k e.link ctx1
        if r.2.2 then
          (.ok, { r.2.1 with min_seq_type := min_seq_type_backup },
           is_largest_user_key)
        else (r.1, r.2.1, false)

/-- The `RangeScan` driver over the map entries that can cover `k`.
Modelled from the spec: the reader's `RangeScan(&k, …)` visits entries
(keyed by each element's largest key) in ascending order starting at the
first entry with largest key `≥ k`, until the callback returns false. -/
def mapScan (G : FileMetaData → IKey → GetContext → GStatus × GetContext)
    (dm : List (Nat × FileMetaData)) (k : IKey) :
    List MapSstElement → GetContext → GStatus × GetContext
  | [], ctx => (.ok, ctx)
  | e :: rest, ctx =>
    let r := getFromMap G dm k e ctx
    if r.2.2 then mapScan G dm k rest r.2.1 else (r.1, r.2.1)

/-- `TableCache::Get` (lines 354-531), with explicit recursion depth.  Row
cache, statistics and tombstone bookkeeping are out of the modelled slice;
the modelled state is the status, the get context, and the cache interaction
of `FindTable`. -/
def TableCacheGet (env : TCEnv) :
    Nat → ReadOptions → FileMetaData → List (Nat × FileMetaData) → IKey →
    GetContext → GStatus × GetContext
  | 0, _, _, _, _, ctx => (.ok, ctx)
  | fuel + 1, opts, fm, dm, k, ctx =>
    let s := if fm.inline_reader then GStatus.ok
             else FindTable env fm.file_number opts.block_cache_tier
    if s.isOk then
      if fm.purpose ≠ .kMapSst then env.dataGet fm.file_number k ctx
      else if dm.isEmpty then
        (.corruption "Composite sst depend files missing", ctx)
      else
        mapScan (fun f fk c => TableCacheGet env fuel opts f dm fk c) dm k
          (fm.map_elements.filter fun e => !decide (keyLt e.largest_key k)) ctx
    else if opts.block_cache_tier && s.isIncomplete then
      (.ok, { ctx with key_may_exist := true })
    else (s, ctx)

/-! ### Well-formedness of interval vectors and the sweep invariant -/

/-- The interval is non-empty as a set of internal keys. -/
def validRange (r : RangeWithDepend) : Prop := cutLt (lcut r) (rcut r)

instance (r : RangeWithDepend) : Decidable (validRange r) :=
  inferInstanceAs (Decidable (cutLt (lcut r) (rcut r)))

/-- A sorted, pairwise non-overlapping vector of non-empty intervals: the
hypothesis of the partitioner (touching endpoints with complementary
inclusivity are allowed). -/
def WFRanges (l : List RangeWithDepend) : Prop :=
  (∀ r ∈ l, validRange r) ∧ l.Chain' fun r r' => cutLe (rcut r) (lcut r')

/-- A kernel-computable decision procedure for the non-overlap chain. -/
def chainDec : ∀ l : List RangeWithDepend,
    Decidable (l.Chain' fun r r' => cutLe (rcut r) (lcut r'))
  | [] => isTrue List.chain'_nil
  | [r] => isTrue (List.chain'_singleton r)
  | a :: b :: t =>
    if h : cutLe (rcut a) (lcut b) then
      match chainDec (b :: t) with
      | isTrue ht => isTrue (List.chain'_cons.mpr ⟨h, ht⟩)
      | isFalse hf => isFalse (fun hc => hf (List.chain'_cons.mp hc).2)
    else isFalse (fun hc => h (List.chain'_cons.mp hc).1)

instance (l : List RangeWithDepend) : Decidable (WFRanges l) :=
  @instDecidableAnd _ _
    (inferInstanceAs (Decidable (∀ r ∈ l, validRange r))) (chainDec l)

/-- All dependence lists of a vector are non-empty. -/
def DepsNE (l : List RangeWithDepend) : Prop := ∀ r ∈ l, r.dependence ≠ []

instance (l : List RangeWithDepend) : Decidable (DepsNE l) :=
  inferInstanceAs (Decidable (∀ r ∈ l, r.dependence ≠ []))

/-- No endpoint of the vector carries the max-sequence sentinel (this is what
rules out `IsEmptyMapSstElement` drops in the partitioner's output). -/
def NoSentinel (l : List RangeWithDepend) : Prop :=
  ∀ r ∈ l, seqOf r.point0 ≠ kMaxSequenceNumber ∧
    seqOf r.point1 ≠ kMaxSequenceNumber

instance (l : List RangeWithDepend) : Decidable (NoSentinel l) :=
  inferInstanceAs (Decidable (∀ r ∈ l, seqOf r.point0 ≠ kMaxSequenceNumber ∧
    seqOf r.point1 ≠ kMaxSequenceNumber))

/-- The pending event cut of side `a` (meaningful when `s.ai < ra.length`):
left cut of the next interval when outside, right cut of the current one when
inside. -/
def aev (ra : List RangeWithDepend) (s : PartState) : Cut :=
  if s.ab then rcut (ra.getD s.ai dummyRange) else lcut (ra.getD s.ai dummyRange)

/-- The pending event cut of side `b`. -/
def bev (rb : List RangeWithDepend) (s : PartState) : Cut :=
  if s.bb then rcut (rb.getD s.bi dummyRange) else lcut (rb.getD s.bi dummyRange)

/-- `x` lies strictly before the sweep frontier (the earlier of the two
pending event cuts). -/
def settled (ra rb : List RangeWithDepend) (s : PartState) (x : IKey) : Prop :=
  (s.ai < ra.length → ¬ cutLE (aev ra s) x) ∧
  (s.bi < rb.length → ¬ cutLE (bev rb s) x)

/-- Chain property of the reversed output list (head = most recent): valid
intervals, consecutive pairs non-overlapping. -/
def chainRev (l : List RangeWithDepend) : Prop :=
  (∀ r ∈ l, validRange r) ∧ l.Chain' fun nw old => cutLe (rcut old) (lcut nw)

/-- Pointwise coverage target of the partitioner. -/
def ptarget (type : PartitionType) (ra rb : List RangeWithDepend)
    (x : IKey) : Prop :=
  match type with
  | .kMerge => covers ra x ∨ covers rb x
  | .kDelete => covers ra x ∧ ¬ covers rb x

instance (type : PartitionType) (ra rb : List RangeWithDepend) (x : IKey) :
    Decidable (ptarget type ra rb x) :=
  match type with
  | .kMerge => inferInstanceAs (Decidable (covers ra x ∨ covers rb x))
  | .kDelete => inferInstanceAs (Decidable (covers ra x ∧ ¬ covers rb x))

/-- Coverage accumulated by the sweep so far: the closed output plus, when an
interval is open (`ab ∨ bb`), everything from its left cut on (provided it
will be kept, i.e. its dependence is non-empty). -/
def covState (s : PartState) (x : IKey) : Prop :=
  if s.ab || s.bb then
    match s.output with
    | op :: rest => covers rest x ∨ (op.dependence ≠ [] ∧ cutLE (lcut op) x)
    | [] => False
  else covers s.output x

/-- `o` is contained in `r` at cut granularity. -/
def subCut (o r : RangeWithDepend) : Prop :=
  cutLe (lcut r) (lcut o) ∧ cutLe (rcut o) (rcut r)

/-- `o` and `r` are disjoint at cut granularity. -/
def disjCut (o r : RangeWithDepend) : Prop :=
  cutLe (rcut o) (lcut r) ∨ cutLe (rcut r) (lcut o)

instance (o r : RangeWithDepend) : Decidable (subCut o r) :=
  inferInstanceAs (Decidable (cutLe (lcut r) (lcut o) ∧ cutLe (rcut o) (rcut r)))

instance (o r : RangeWithDepend) : Decidable (disjCut o r) :=
  inferInstanceAs
    (Decidable (cutLe (rcut o) (lcut r) ∨ cutLe (rcut r) (lcut o)))

/-- Attribution of a MERGE output interval: either it lies inside an
`a`-interval and a `b`-interval and carries the concatenated links with
`stable = false`; or it lies inside an interval of one side, is disjoint from
every interval of the other side, carries that side's links and `no_records`,
and is `stable` only if it reproduces that input interval verbatim. -/
def AttrOK (ra rb : List RangeWithDepend) (type : PartitionType)
    (o : RangeWithDepend) : Prop :=
  match type with
  | .kDelete => True
  | .kMerge =>
    (∃ i < ra.length, ∃ j < rb.length,
      subCut o (ra.getD i dummyRange) ∧ subCut o (rb.getD j dummyRange) ∧
      o.dependence = (ra.getD i dummyRange).dependence ++
        (rb.getD j dummyRange).dependence ∧ o.stable = false) ∨
    (∃ i < ra.length,
      subCut o (ra.getD i dummyRange) ∧
      (∀ j < rb.length, disjCut o (rb.getD j dummyRange)) ∧
      o.dependence = (ra.getD i dummyRange).dependence ∧
      o.no_records = (ra.getD i dummyRange).no_records ∧
      (o.stable = true → o = ra.getD i dummyRange)) ∨
    (∃ j < rb.length,
      subCut o (rb.getD j dummyRange) ∧
      (∀ i < ra.length, disjCut o (ra.getD i dummyRange)) ∧
      o.dependence = (rb.getD j dummyRange).dependence ∧
      o.no_records = (rb.getD j dummyRange).no_records ∧
      (o.stable = true → o = rb.getD j dummyRange))

/-- Fields of the open interval set by `put_depend`, per region and mode. -/
def DependOK (ra rb : List RangeWithDepend) (type : PartitionType)
    (s : PartState) (op : RangeWithDepend) : Prop :=
  match type with
  | .kMerge =>
    (s.ab = true → s.bb = true →
      op.dependence = (ra.getD s.ai dummyRange).dependence ++
        (rb.getD s.bi dummyRange).dependence ∧ op.stable = false) ∧
    (s.ab = true → s.bb = false →
      op.dependence = (ra.getD s.ai dummyRange).dependence ∧
      op.no_records = (ra.getD s.ai dummyRange).no_records ∧
      op.stable = (ra.getD s.ai dummyRange).stable) ∧
    (s.ab = false → s.bb = true →
      op.dependence = (rb.getD s.bi dummyRange).dependence ∧
      op.no_records = (rb.getD s.bi dummyRange).no_records ∧
      op.stable = (rb.getD s.bi dummyRange).stable)
  | .kDelete =>
    (s.ab = true → s.bb = false →
      op.dependence = (ra.getD s.ai dummyRange).dependence ∧
      op.no_records = (ra.getD s.ai dummyRange).no_records ∧
      op.stable = (ra.getD s.ai dummyRange).stable) ∧
    (s.bb = true → op.dependence = [])

/-- Source-pointer tracking: when `source` names an input interval, that
interval is the current one of its side and the open interval starts exactly
at its left endpoint. -/
def SourceOK (ra rb : List RangeWithDepend) (s : PartState)
    (op : RangeWithDepend) : Prop :=
  (∀ i, s.source = some (false, i) →
    i = s.ai ∧ s.ab = true ∧
    op.point0 = (ra.getD s.ai dummyRange).point0 ∧
    op.include0 = (ra.getD s.ai dummyRange).include0) ∧
  (∀ j, s.source = some (true, j) →
    j = s.bi ∧ s.bb = true ∧
    op.point0 = (rb.getD s.bi dummyRange).point0 ∧
    op.include0 = (rb.getD s.bi dummyRange).include0)

/-- Everything the invariant asserts about the open interval. -/
def OpenOK (ra rb : List RangeWithDepend) (type : PartitionType)
    (s : PartState) (op : RangeWithDepend) (rest : List RangeWithDepend) :
    Prop :=
  chainRev rest ∧
  (∀ r ∈ rest, cutLe (rcut r) (lcut op)) ∧
  (s.ai < ra.length → cutLe (lcut op) (aev ra s)) ∧
  (s.bi < rb.length → cutLe (lcut op) (bev rb s)) ∧
  (s.ab = false → 0 < s.ai →
    cutLe (rcut (ra.getD (s.ai - 1) dummyRange)) (lcut op)) ∧
  (s.bb = false → 0 < s.bi →
    cutLe (rcut (rb.getD (s.bi - 1) dummyRange)) (lcut op)) ∧
  (s.ab = true → cutLe (lcut (ra.getD s.ai dummyRange)) (lcut op)) ∧
  (s.bb = true → cutLe (lcut (rb.getD s.bi dummyRange)) (lcut op)) ∧
  DependOK ra rb type s op ∧
  SourceOK ra rb s op

/-- The closed portion of the output. -/
def closedPart (s : PartState) : List RangeWithDepend :=
  if s.ab || s.bb then s.output.tail else s.output

/-- The sweep invariant of `PartitionRangeWithDepend`. -/
structure PInv (ra rb : List RangeWithDepend) (type : PartitionType)
    (s : PartState) : Prop where
  haiLe : s.ai ≤ ra.length
  hbiLe : s.bi ≤ rb.length
  habLt : s.ab = true → s.ai < ra.length
  hbbLt : s.bb = true → s.bi < rb.length
  hinA : s.ab = true → s.bi < rb.length →
    cutLe (lcut (ra.getD s.ai dummyRange)) (bev rb s)
  hinB : s.bb = true → s.ai < ra.length →
    cutLe (lcut (rb.getD s.bi dummyRange)) (aev ra s)
  hhistA : s.ab = false → 0 < s.ai → s.bi < rb.length →
    cutLe (rcut (ra.getD (s.ai - 1) dummyRange)) (bev rb s)
  hhistB : s.bb = false → 0 < s.bi → s.ai < ra.length →
    cutLe (rcut (rb.getD (s.bi - 1) dummyRange)) (aev ra s)
  hopen : (s.ab || s.bb) = true →
    ∃ op rest, s.output = op :: rest ∧ OpenOK ra rb type s op rest
  hclosed : (s.ab || s.bb) = false →
    chainRev s.output ∧
    (∀ r, s.output.head? = some r →
      (s.ai < ra.length → cutLe (rcut r) (aev ra s)) ∧
      (s.bi < rb.length → cutLe (rcut r) (bev rb s)))
  hattr : ∀ o ∈ closedPart s, AttrOK ra rb type o
  hcov : NoSentinel ra → NoSentinel rb → DepsNE ra →
    (type = .kMerge → DepsNE rb) →
    ∀ x, settled ra rb s x → (covState s x ↔ ptarget type ra rb x)

/-- Loop measure: number of unprocessed endpoint events. -/
def pmeasure (ra rb : List RangeWithDepend) (s : PartState) : Nat :=
  (2 * (ra.length - s.ai) - (if s.ab then 1 else 0)) +
  (2 * (rb.length - s.bi) - (if s.bb then 1 else 0))

/-- Inclusive-aware non-overlap of two successive intervals, phrased as the
spec does (complementary touching endpoints allowed). -/
def nonOverlapIncl (r r' : RangeWithDepend) : Prop :=
  ikeyCmp r.point1 r'.point0 < 0 ∨
    (ikeyCmp r.point1 r'.point0 = 0 ∧ ¬(r.include1 = true ∧ r'.include0 = true))

instance (r r' : RangeWithDepend) : Decidable (nonOverlapIncl r r') :=
  inferInstanceAs (Decidable (ikeyCmp r.point1 r'.point0 < 0 ∨
    (ikeyCmp r.point1 r'.point0 = 0 ∧
      ¬(r.include1 = true ∧ r'.include0 = true))))

/-! ## Theorems

### Order kit for internal keys and cuts -/

theorem keyLt_irrefl (a : IKey) : ¬ keyLt a a := by
  unfold keyLt; omega

theorem keyLt_asymm {a b : IKey} (h : keyLt a b) : ¬ keyLt b a := by
  unfold keyLt at *; omega

theorem keyLt_trans {a b c : IKey} (h1 : keyLt a b) (h2 : keyLt b c) :
    keyLt a c := by
  unfold keyLt at *; omega

theorem keyLt_trichotomy (a b : IKey) : keyLt a b ∨ a = b ∨ keyLt b a := by
  by_cases h1 : a.uk < b.uk
  · exact Or.inl (Or.inl h1)
  · by_cases h2 : b.uk < a.uk
    · exact Or.inr (Or.inr (Or.inl h2))
    · have he : a.uk = b.uk := Nat.le_antisymm (Nat.not_lt.mp h2)
        (Nat.not_lt.mp h1)
      by_cases h3 : b.ft < a.ft
      · exact Or.inl (Or.inr ⟨he, h3⟩)
      · by_cases h4 : a.ft < b.ft
        · exact Or.inr (Or.inr (Or.inr ⟨he.symm, h4⟩))
        · have hf : a.ft = b.ft := Nat.le_antisymm (Nat.not_lt.mp h3)
            (Nat.not_lt.mp h4)
          cases a; cases b
          exact Or.inr (Or.inl (by simp_all))

theorem keyLt_of_not_of_ne {a b : IKey} (h : ¬ keyLt a b) (hne : a ≠ b) :
    keyLt b a := by
  rcases keyLt_trichotomy a b with h1 | h1 | h1
  · exact absurd h1 h
  · exact absurd h1 hne
  · exact h1

theorem ikeyCmp_self (a : IKey) : ikeyCmp a a = 0 := by
  unfold ikeyCmp; omega

theorem ikeyCmp_neg_iff {a b : IKey} : ikeyCmp a b < 0 ↔ keyLt a b := by
  unfold ikeyCmp keyLt
  split_ifs <;> simp <;> omega

theorem ikeyCmp_zero_iff {a b : IKey} : ikeyCmp a b = 0 ↔ a = b := by
  rcases a with ⟨au, af⟩; rcases b with ⟨bu, bf⟩
  unfold ikeyCmp
  simp only [IKey.mk.injEq]
  split_ifs <;> simp <;> omega

theorem ikeyCmp_pos_iff {a b : IKey} : 0 < ikeyCmp a b ↔ keyLt b a := by
  unfold ikeyCmp keyLt
  split_ifs <;> simp <;> omega

theorem ikeyCmp_le_zero_iff {a b : IKey} : ikeyCmp a b ≤ 0 ↔ ¬ keyLt b a := by
  unfold ikeyCmp keyLt
  split_ifs <;> simp <;> omega

theorem ikeyCmp_eq_neg_one {a b : IKey} (h : keyLt a b) : ikeyCmp a b = -1 := by
  unfold ikeyCmp; unfold keyLt at h; split_ifs <;> omega

theorem ikeyCmp_eq_one {a b : IKey} (h : keyLt b a) : ikeyCmp a b = 1 := by
  unfold ikeyCmp; unfold keyLt at h; split_ifs <;> omega

theorem ikeyCmp_of_uk_lt {a b : IKey} (h : a.uk < b.uk) : ikeyCmp a b = -1 :=
  ikeyCmp_eq_neg_one (Or.inl h)

theorem ikeyCmp_of_uk_gt {a b : IKey} (h : b.uk < a.uk) : ikeyCmp a b = 1 :=
  ikeyCmp_eq_one (Or.inl h)

theorem keyLt_of_le_of_lt {a b c : IKey} (h1 : ¬ keyLt b a)
    (h2 : keyLt b c) : keyLt a c := by
  rcases keyLt_trichotomy a b with h | h | h
  · exact keyLt_trans h h2
  · exact h ▸ h2
  · exact absurd h h1

theorem keyLt_of_lt_of_le {a b c : IKey} (h1 : keyLt a b)
    (h2 : ¬ keyLt c b) : keyLt a c := by
  rcases keyLt_trichotomy b c with h | h | h
  · exact keyLt_trans h1 h
  · exact h ▸ h1
  · exact absurd h h2

theorem keyLe_trans {a b c : IKey} (h1 : ¬ keyLt b a) (h2 : ¬ keyLt c b) :
    ¬ keyLt c a := fun h => h2 (keyLt_of_lt_of_le h h1)

theorem cutLe_refl (c : Cut) : cutLe c c := Or.inr ⟨rfl, fun h => h⟩

theorem cutLe_trans {c d e : Cut} (h1 : cutLe c d) (h2 : cutLe d e) :
    cutLe c e := by
  rcases h1 with h1 | ⟨h1, h1'⟩ <;> rcases h2 with h2 | ⟨h2, h2'⟩
  · exact Or.inl (keyLt_trans h1 h2)
  · exact Or.inl (h2 ▸ h1)
  · exact Or.inl (h1 ▸ h2)
  · exact Or.inr ⟨h1.trans h2, fun h => h2' (h1' h)⟩

theorem cutLt_iff_not_cutLe {c d : Cut} : cutLt c d ↔ ¬ cutLe d c := by
  obtain ⟨ck, ca⟩ := c
  obtain ⟨dk, da⟩ := d
  rcases keyLt_trichotomy ck dk with h | h | h
  · have h1 : ¬ keyLt dk ck := keyLt_asymm h
    have h2 : dk ≠ ck := fun he => keyLt_irrefl _ (he ▸ h)
    simp [cutLt, cutLe, h, h1, h2]
  · subst h
    have h0 : ¬ keyLt ck ck := keyLt_irrefl ck
    simp only [cutLt, cutLe, h0, false_or, true_and, not_or, not_and]
    cases ca <;> cases da <;> simp
  · have h1 : ¬ keyLt ck dk := keyLt_asymm h
    have h2 : ck ≠ dk := fun he => keyLt_irrefl _ (he ▸ h)
    simp [cutLt, cutLe, h, h1, h2]

theorem cutLe_of_cutLt {c d : Cut} (h : cutLt c d) : cutLe c d := by
  rcases h with h | ⟨h, _, h1⟩
  · exact Or.inl h
  · exact Or.inr ⟨h, fun _ => h1⟩

theorem cutLe_total (c d : Cut) : cutLe c d ∨ cutLe d c := by
  by_cases h : cutLe d c
  · exact Or.inr h
  · exact Or.inl (cutLe_of_cutLt (cutLt_iff_not_cutLe.mpr h))

theorem cutLt_of_cutLt_of_cutLe {c d e : Cut} (h1 : cutLt c d)
    (h2 : cutLe d e) : cutLt c e := by
  rw [cutLt_iff_not_cutLe] at h1 ⊢
  exact fun h => h1 (cutLe_trans h2 h)

theorem cutLt_of_cutLe_of_cutLt {c d e : Cut} (h1 : cutLe c d)
    (h2 : cutLt d e) : cutLt c e := by
  rw [cutLt_iff_not_cutLe] at h2 ⊢
  exact fun h => h2 (cutLe_trans h h1)

theorem cutLE_mono {c d : Cut} {x : IKey} (h : cutLe c d) (hx : cutLE d x) :
    cutLE c x := by
  obtain ⟨ck, ca⟩ := c
  obtain ⟨dk, da⟩ := d
  rcases h with h | ⟨h, hi⟩
  · simp only at h
    cases ca <;> cases da <;>
      simp only [cutLE, if_true, if_false] at hx ⊢
    · exact fun h' => hx (keyLt_trans h' h)
    · exact fun h' => keyLt_asymm (keyLt_trans h hx) h'
    · exact keyLt_of_lt_of_le h hx
    · exact keyLt_trans h hx
  · simp only at h hi
    subst h
    cases ca
    · cases da <;> simp only [cutLE, if_true, if_false] at hx ⊢
      · exact hx
      · exact fun h' => keyLt_asymm hx h'
    · have hda : da = true := hi rfl
      subst hda
      simpa only [cutLE, if_true] using hx

theorem not_cutLE_mono {c d : Cut} {x : IKey} (h : cutLe c d)
    (hx : ¬ cutLE c x) : ¬ cutLE d x := fun h' => hx (cutLE_mono h h')

theorem cutLE_of_keyLe {c : Cut} {x y : IKey} (h : cutLE c x)
    (hxy : ¬ keyLt y x) : cutLE c y := by
  obtain ⟨ck, ca⟩ := c
  cases ca <;> simp only [cutLE, if_true, if_false] at h ⊢
  · exact keyLe_trans h hxy
  · exact keyLt_of_lt_of_le h hxy

/-! ### C4: touching boundaries with complementary inclusivity are not fused -/

/-- **C4**: for MERGE inputs `A = [a,m]` and `B = (m,z]` — adjacent intervals
sharing endpoint `m` with complementary inclusivity — the partitioner emits
exactly two output intervals, `[a,m]` with A's links and `(m,z]` with B's
links, and does not fuse them into one interval. -/
theorem C4_touching_not_fused (ka km kz : IKey) (nra nrb sta stb : Bool)
    (da db : List LinkTarget) (hda : da ≠ []) (hdb : db ≠ [])
    (h1 : ka.uk < km.uk) (h2 : km.uk < kz.uk) :
    PartitionRangeWithDepend
      [{ point0 := ka, point1 := km, include0 := true, include1 := true,
         no_records := nra, stable := sta, dependence := da }]
      [{ point0 := km, point1 := kz, include0 := false, include1 := true,
         no_records := nrb, stable := stb, dependence := db }] .kMerge =
      [{ point0 := ka, point1 := km, include0 := true, include1 := true,
         no_records := nra, stable := false, dependence := da },
       { point0 := km, point1 := kz, include0 := false, include1 := true,
         no_records := nrb, stable := false, dependence := db }] := by
  have e1 : ikeyCmp ka km = -1 := ikeyCmp_of_uk_lt h1
  have e2 : ikeyCmp km kz = -1 := ikeyCmp_of_uk_lt h2
  have e3 : ikeyCmp km ka = 1 := ikeyCmp_of_uk_gt h1
  have e4 : ikeyCmp kz km = 1 := ikeyCmp_of_uk_gt h2
  have e5 : ikeyCmp km km = 0 := ikeyCmp_self km
  have u1 : (ka.uk == km.uk) = false := by
    simp only [beq_eq_false_iff_ne, ne_eq]
    omega
  have u2 : (km.uk == kz.uk) = false := by
    simp only [beq_eq_false_iff_ne, ne_eq]
    omega
  simp [PartitionRangeWithDepend, partInit, partLoop, partStep, putLeft,
    putRight, putDepend, CompInclude, IsEmptyMapSstElement, aKeyOf, aIncOf,
    bKeyOf, bIncOf, cval, e1, e2, e3, e4, e5, u1, u2, hda, hdb]

theorem C4_witness :
    ((⟨0, 1⟩ : IKey).uk < (⟨1, 1⟩ : IKey).uk ∧
     (⟨1, 1⟩ : IKey).uk < (⟨2, 1⟩ : IKey).uk) ∧
    PartitionRangeWithDepend
      [{ point0 := ⟨0, 1⟩, point1 := ⟨1, 1⟩, include0 := true,
         include1 := true, no_records := false, stable := false,
         dependence := [⟨1, 0⟩] }]
      [{ point0 := ⟨1, 1⟩, point1 := ⟨2, 1⟩, include0 := false,
         include1 := true, no_records := false, stable := false,
         dependence := [⟨2, 0⟩] }] .kMerge =
      [{ point0 := ⟨0, 1⟩, point1 := ⟨1, 1⟩, include0 := true,
         include1 := true, no_records := false, stable := false,
         dependence := [⟨1, 0⟩] },
       { point0 := ⟨1, 1⟩, point1 := ⟨2, 1⟩, include0 := false,
         include1 := true, no_records := false, stable := false,
         dependence := [⟨2, 0⟩] }] :=
  ⟨by decide,
   C4_touching_not_fused ⟨0, 1⟩ ⟨1, 1⟩ ⟨2, 1⟩ false false false false
     [⟨1, 0⟩] [⟨2, 0⟩] (by decide) (by decide) (by decide) (by decide)⟩

/-! ### C5: the range a data table contributes to the loader -/

/-- **C5 (counterexample)**: for a data file whose largest internal key's
footer is the all-ones max-sequence sentinel `(MaxSeq, TypeForSeek)`, the
loaded range's upper endpoint footer is *not* left as-is: the code re-packs
it as `(MaxSeq, kTypeDeletion)`. -/
theorem C5_counterexample :
    (LoadRangeWithDepend
      [{ file_number := 9, smallest := ⟨0, packFooter 3 1⟩,
         largest := ⟨1, packFooter kMaxSequenceNumber kValueTypeForSeek⟩,
         purpose := .kEssenceSst, map_elements := [],
         inline_reader := false }]).map (fun r => r.point1) =
      [⟨1, packFooter kMaxSequenceNumber kTypeDeletion⟩] ∧
    packFooter kMaxSequenceNumber kValueTypeForSeek = 2 ^ 64 - 1 ∧
    (⟨1, packFooter kMaxSequenceNumber kTypeDeletion⟩ : IKey) ≠
      ⟨1, packFooter kMaxSequenceNumber kValueTypeForSeek⟩ := by
  refine ⟨?_, by decide, by decide⟩
  simp [LoadRangeWithDepend, RangeWithDepend.ofFile]
  decide

/-- **C5 (amended)**: every data-table input contributes exactly one range
spanning `[smallest, largest]` with both endpoints inclusive, a single link
target `{file, size = 0}`, `no_records = false`, `stable = false`; when the
largest key's 56-bit sequence number equals `kMaxSequenceNumber` the upper
endpoint is re-packed as `(user key, kMaxSequenceNumber, kTypeDeletion)`,
otherwise the exact internal key (footer included) is preserved. -/
theorem C5_amended (pre post : List FileMetaData) (f : FileMetaData)
    (h : f.purpose = .kEssenceSst) :
    LoadRangeWithDepend (pre ++ f :: post) =
      LoadRangeWithDepend pre ++
        RangeWithDepend.ofFile f :: LoadRangeWithDepend post ∧
    (RangeWithDepend.ofFile f).point0 = f.smallest ∧
    (RangeWithDepend.ofFile f).include0 = true ∧
    (RangeWithDepend.ofFile f).include1 = true ∧
    (RangeWithDepend.ofFile f).no_records = false ∧
    (RangeWithDepend.ofFile f).stable = false ∧
    (RangeWithDepend.ofFile f).dependence = [⟨f.file_number, 0⟩] ∧
    (RangeWithDepend.ofFile f).point1 =
      (if seqOf f.largest = kMaxSequenceNumber then
        ⟨f.largest.uk, packFooter kMaxSequenceNumber kTypeDeletion⟩
      else f.largest) := by
  refine ⟨?_, rfl, rfl, rfl, rfl, rfl, rfl, rfl⟩
  have hne : (f.purpose = TablePurpose.kMapSst) = False := by
    simp [h]
  simp [LoadRangeWithDepend, hne]

theorem C5_amended_witness :
    (FileMetaData.purpose
        { file_number := 4, smallest := ⟨0, 7⟩, largest := ⟨2, 5⟩,
          purpose := .kEssenceSst, map_elements := [],
          inline_reader := false } = .kEssenceSst) ∧
    LoadRangeWithDepend
        [{ file_number := 4, smallest := ⟨0, 7⟩, largest := ⟨2, 5⟩,
           purpose := .kEssenceSst, map_elements := [],
           inline_reader := false }] =
      [] ++ RangeWithDepend.ofFile
        { file_number := 4, smallest := ⟨0, 7⟩, largest := ⟨2, 5⟩,
          purpose := .kEssenceSst, map_elements := [],
          inline_reader := false } :: LoadRangeWithDepend [] :=
  ⟨by decide,
   (C5_amended [] []
     { file_number := 4, smallest := ⟨0, 7⟩, largest := ⟨2, 5⟩,
       purpose := .kEssenceSst, map_elements := [], inline_reader := false }
     (by decide)).1⟩

/-! ### C7: the all-stable single-map-input short circuit -/

/-- **C7**: when the build's only input is a single map table, the surviving
vector's length equals the number of loaded input ranges, and every
surviving interval is stable, the post-partition decision of
`MapBuilder::Build` never reaches `WriteOutputFile` (which is what allocates
a fresh file number and writes the new map table). -/
theorem C7_stable_short_circuit (f : FileMetaData) (output_level : Int)
    (metaOf : Nat → Option FileMetaData) (ranges : List RangeWithDepend)
    (h1 : f.purpose = .kMapSst) (h3 : ∀ r ∈ ranges, r.stable = true) :
    MapBuilderDecision [[f]] output_level metaOf ranges ranges.length ≠
      .writeMap := by
  unfold MapBuilderDecision
  split_ifs with hA hB hC
  · exact fun h => BuildOutcome.noConfusion h
  · exact fun h => BuildOutcome.noConfusion h
  · exact fun h => BuildOutcome.noConfusion h
  · exact absurd ⟨rfl, rfl, by simpa using h1, rfl, h3⟩ hC

theorem C7_witness :
    (FileMetaData.purpose
        { file_number := 3, smallest := ⟨0, 1⟩, largest := ⟨1, 1⟩,
          purpose := .kMapSst,
          map_elements :=
            [{ smallest_key := ⟨0, 1⟩, largest_key := ⟨1, 1⟩,
               include_smallest := true, include_largest := true,
               no_smallest := false, no_records := false,
               link := [⟨7, 0⟩] }],
          inline_reader := false } = .kMapSst) ∧
    MapBuilderDecision
        [[{ file_number := 3, smallest := ⟨0, 1⟩, largest := ⟨1, 1⟩,
            purpose := .kMapSst,
            map_elements :=
              [{ smallest_key := ⟨0, 1⟩, largest_key := ⟨1, 1⟩,
                 include_smallest := true, include_largest := true,
                 no_smallest := false, no_records := false,
                 link := [⟨7, 0⟩] }],
            inline_reader := false }]] 2 (fun _ => none)
        [{ point0 := ⟨0, 1⟩, point1 := ⟨1, 1⟩, include0 := true,
           include1 := true, no_records := false, stable := true,
           dependence := [⟨7, 0⟩] }] 1 ≠ .writeMap :=
  ⟨by decide,
   C7_stable_short_circuit
     { file_number := 3, smallest := ⟨0, 1⟩, largest := ⟨1, 1⟩,
       purpose := .kMapSst,
       map_elements :=
         [{ smallest_key := ⟨0, 1⟩, largest_key := ⟨1, 1⟩,
            include_smallest := true, include_largest := true,
            no_smallest := false, no_records := false, link := [⟨7, 0⟩] }],
       inline_reader := false } 2 (fun _ => none)
     [{ point0 := ⟨0, 1⟩, point1 := ⟨1, 1⟩, include0 := true,
        include1 := true, no_records := false, stable := true,
        dependence := [⟨7, 0⟩] }] (by decide) (by decide)⟩

/-! ### C10: block-cache-only miss is converted, never propagated -/

/-- **C10**: when `TableCache::Get` runs with `read_tier = kBlockCacheTier`
and the reader is neither inlined in the file descriptor nor present in the
cache, it marks the key as possibly existing and returns OK; the
`Incomplete` status of `FindTable` is never propagated to the caller. -/
theorem C10_no_incomplete (env : TCEnv) (opts : ReadOptions)
    (fm : FileMetaData) (dm : List (Nat × FileMetaData)) (k : IKey)
    (ctx : GetContext) (fuel : Nat) (h1 : opts.block_cache_tier = true)
    (h2 : fm.inline_reader = false)
    (h3 : env.cached.contains fm.file_number = false) :
    TableCacheGet env (fuel + 1) opts fm dm k ctx =
      (.ok, { ctx with key_may_exist := true }) := by
  have h3m : fm.file_number ∉ env.cached := by simpa using h3
  unfold TableCacheGet FindTable
  simp [h1, h2, h3m, GStatus.isOk, GStatus.isIncomplete]

theorem C10_witness :
    ((⟨true⟩ : ReadOptions).block_cache_tier = true ∧
     ([] : List Nat).contains 5 = false) ∧
    TableCacheGet ⟨[], fun _ _ c => (.ok, c)⟩ 1 ⟨true⟩
        { file_number := 5, smallest := ⟨0, 1⟩, largest := ⟨1, 1⟩,
          purpose := .kEssenceSst, map_elements := [],
          inline_reader := false } [] ⟨0, 0⟩ ⟨0, false, false⟩ =
      (.ok, ⟨0, false, true⟩) :=
  ⟨⟨rfl, rfl⟩,
   C10_no_incomplete ⟨[], fun _ _ c => (.ok, c)⟩ ⟨true⟩
     { file_number := 5, smallest := ⟨0, 1⟩, largest := ⟨1, 1⟩,
       purpose := .kEssenceSst, map_elements := [], inline_reader := false }
     [] ⟨0, 0⟩ ⟨0, false, false⟩ 0 rfl rfl rfl⟩

/-! ### C8: corruption on missing dependence information -/

/-- **C8 (counterexample)**: a map element may name a link-target file number
absent from the dependence map, yet GET returns OK rather than Corruption:
an earlier link of the same element finishes the search, so the missing link
is never consulted.  Here element links are `[file 1, file 9]`, the
dependence map lacks file 9, file 1's lookup finishes, and the overall
status is OK. -/
theorem C8_counterexample :
    depFind [(1, { file_number := 1, smallest := ⟨5, 3⟩, largest := ⟨5, 1⟩,
                   purpose := .kEssenceSst, map_elements := [],
                   inline_reader := true })] 9 = none ∧
    TableCacheGet ⟨[], fun _ _ c => (.ok, { c with finished := true })⟩ 2
        ⟨false⟩
        { file_number := 2, smallest := ⟨5, 10⟩, largest := ⟨5, 2⟩,
          purpose := .kMapSst,
          map_elements :=
            [{ smallest_key := ⟨5, 10⟩, largest_key := ⟨5, 2⟩,
               include_smallest := true, include_largest := true,
               no_smallest := false, no_records := false,
               link := [⟨1, 0⟩, ⟨9, 0⟩] }],
          inline_reader := true }
        [(1, { file_number := 1, smallest := ⟨5, 3⟩, largest := ⟨5, 1⟩,
               purpose := .kEssenceSst, map_elements := [],
               inline_reader := true })] ⟨5, 5⟩ ⟨0, false, false⟩ =
      (.ok, ⟨2, true, false⟩) := by
  decide

/-- **C8 (amended)**: map-aware GET fails with Corruption when dependence
information is missing *and consulted*: a GET on a map table with an empty
dependence map returns Corruption, and the link loop returns
Corruption("Map sst depend files missing") as soon as it reaches a link
target absent from the dependence map (links earlier in the element that
finish the search or fail preempt this). -/
theorem C8_missing_dependence :
    (∀ (env : TCEnv) (fuel : Nat) (opts : ReadOptions) (fm : FileMetaData)
        (dm : List (Nat × FileMetaData)) (k : IKey) (ctx : GetContext),
        fm.purpose = .kMapSst → fm.inline_reader = true → dm = [] →
        TableCacheGet env (fuel + 1) opts fm dm k ctx =
          (.corruption "Composite sst depend files missing", ctx)) ∧
    (∀ (G : FileMetaData → IKey → GetContext → GStatus × GetContext)
        (dm : List (Nat × FileMetaData)) (fk : IKey) (lk : LinkTarget)
        (rest : List LinkTarget) (ctx : GetContext),
        depFind dm lk.file_number = none →
        linksLoop G dm fk (lk :: rest) ctx =
          (.corruption "Map sst depend files missing", ctx, false)) := by
  constructor
  · intro env fuel opts fm dm k ctx h1 h2 h3
    subst h3
    unfold TableCacheGet
    simp [h1, h2, GStatus.isOk]
  · intro G dm fk lk rest ctx hmiss
    unfold linksLoop
    simp [hmiss]

theorem C8_witness :
    TableCacheGet ⟨[], fun _ _ c => (.ok, c)⟩ 1 ⟨false⟩
        { file_number := 2, smallest := ⟨5, 10⟩, largest := ⟨5, 2⟩,
          purpose := .kMapSst, map_elements := [], inline_reader := true }
        [] ⟨5, 5⟩ ⟨0, false, false⟩ =
      (.corruption "Composite sst depend files missing", ⟨0, false, false⟩) ∧
    linksLoop (fun _ _ c => (.ok, c)) [] ⟨5, 5⟩ [⟨9, 0⟩] ⟨0, false, false⟩ =
      (.corruption "Map sst depend files missing", ⟨0, false, false⟩,
       false) :=
  ⟨C8_missing_dependence.1 ⟨[], fun _ _ c => (.ok, c)⟩ 0 ⟨false⟩
     { file_number := 2, smallest := ⟨5, 10⟩, largest := ⟨5, 2⟩,
       purpose := .kMapSst, map_elements := [], inline_reader := true }
     [] ⟨5, 5⟩ ⟨0, false, false⟩ rfl rfl rfl,
   C8_missing_dependence.2 (fun _ _ c => (.ok, c)) [] ⟨5, 5⟩ ⟨9, 0⟩ []
     ⟨0, false, false⟩ rfl⟩

/-! ### C9: the sequence/type ceiling across a map element -/

/-- **C9 (counterexample)**: the ceiling is *not* restored when a link's
recursive lookup finishes the search: the element caps the ceiling at 2
(from its largest key `⟨5,2⟩` sharing the query's user key), the data file's
lookup finishes, and the context emerges with min_seq_type = 2 instead of
the saved 0. -/
theorem C9_counterexample :
    TableCacheGet ⟨[], fun _ _ c => (.ok, { c with finished := true })⟩ 2
        ⟨false⟩
        { file_number := 2, smallest := ⟨5, 10⟩, largest := ⟨5, 2⟩,
          purpose := .kMapSst,
          map_elements :=
            [{ smallest_key := ⟨5, 10⟩, largest_key := ⟨5, 2⟩,
               include_smallest := true, include_largest := true,
               no_smallest := false, no_records := false,
               link := [⟨1, 0⟩] }],
          inline_reader := true }
        [(1, { file_number := 1, smallest := ⟨5, 3⟩, largest := ⟨5, 1⟩,
               purpose := .kEssenceSst, map_elements := [],
               inline_reader := true })] ⟨5, 5⟩ ⟨0, false, false⟩ =
      (.ok, ⟨2, true, false⟩) ∧ (2 : Nat) ≠ 0 := by
  decide

/-- **C9 (amended)**: for every map element whose processing lets the range
scan continue (its link loop ran to completion without an error and without
finishing the search), the get context's min_sequence_and_type ceiling is
restored to the value saved before the element's recursive lookups; when the
search finishes or fails inside the element, the code deliberately skips the
restore. -/
theorem C9_ceiling_restored
    (G : FileMetaData → IKey → GetContext → GStatus × GetContext)
    (dm : List (Nat × FileMetaData)) (k : IKey) (e : MapSstElement)
    (ctx : GetContext) (h : (getFromMap G dm k e ctx).2.2 = true) :
    (getFromMap G dm k e ctx).2.1.min_seq_type = ctx.min_seq_type := by
  by_cases h1 : e.no_smallest = true <;>
  by_cases h2 : e.include_smallest = true <;>
  by_cases hks : keyLt k e.smallest_key <;>
  by_cases hsk : keyLt e.smallest_key k <;>
  by_cases huk : e.smallest_key.uk = k.uk <;>
  by_cases hz : e.smallest_key.ft = 0 <;>
  first
    | exact absurd hsk (keyLt_asymm hks)
    | ((try simp [getFromMap, h1, h2, hks, hsk, huk, hz] at h ⊢) <;>
       (repeat' split at h) <;>
       simp_all)

/-! ### Partition sweep: infrastructure lemmas -/

theorem WF_valid {l : List RangeWithDepend} (h : WFRanges l) {i : Nat}
    (hi : i < l.length) : validRange (l.getD i dummyRange) := by
  rw [List.getD_eq_getElem _ _ hi]
  exact h.1 _ (List.getElem_mem hi)

theorem WF_step {l : List RangeWithDepend} (h : WFRanges l) {i : Nat}
    (hi : i + 1 < l.length) :
    cutLe (rcut (l.getD i dummyRange)) (lcut (l.getD (i + 1) dummyRange)) := by
  rw [List.getD_eq_getElem _ _ (Nat.lt_of_succ_lt hi),
    List.getD_eq_getElem _ _ hi]
  have h2 := List.chain'_iff_get.mp h.2 i (by omega)
  simpa using h2

theorem WF_rcut_lcut {l : List RangeWithDepend} (h : WFRanges l) {i j : Nat}
    (hij : i < j) (hj : j < l.length) :
    cutLe (rcut (l.getD i dummyRange)) (lcut (l.getD j dummyRange)) := by
  induction j with
  | zero => omega
  | succ n ih =>
    rcases Nat.lt_or_ge i n with h1 | h1
    · have hn : n < l.length := by omega
      refine cutLe_trans (ih h1 hn) ?_
      exact cutLe_trans (cutLe_of_cutLt (WF_valid h hn)) (WF_step h hj)
    · have he : i = n := by omega
      subst he
      exact WF_step h hj

theorem WF_lcut_mono {l : List RangeWithDepend} (h : WFRanges l) {i j : Nat}
    (hij : i ≤ j) (hj : j < l.length) :
    cutLe (lcut (l.getD i dummyRange)) (lcut (l.getD j dummyRange)) := by
  rcases Nat.eq_or_lt_of_le hij with rfl | hlt
  · exact cutLe_refl _
  · exact cutLe_trans (cutLe_of_cutLt (WF_valid h (by omega)))
      (WF_rcut_lcut h hlt hj)

theorem WF_rcut_mono {l : List RangeWithDepend} (h : WFRanges l) {i j : Nat}
    (hij : i ≤ j) (hj : j < l.length) :
    cutLe (rcut (l.getD i dummyRange)) (rcut (l.getD j dummyRange)) := by
  rcases Nat.eq_or_lt_of_le hij with rfl | hlt
  · exact cutLe_refl _
  · exact cutLe_trans (WF_rcut_lcut h hlt hj) (cutLe_of_cutLt (WF_valid h hj))

/-- Pointwise coverage of a well-formed vector in the slab `[cstar, frontier)`
of the sweep: it is decided entirely by the inside-flag. -/
theorem covers_iff_slab {l : List RangeWithDepend} (hWF : WFRanges l)
    {i : Nat} {fl : Bool} {x : IKey} {c : Cut}
    (hlt : fl = true → i < l.length)
    (hin : fl = true → cutLe (lcut (l.getD i dummyRange)) c)
    (hhist : fl = false → 0 < i → cutLe (rcut (l.getD (i - 1) dummyRange)) c)
    (hile : i ≤ l.length)
    (hx : cutLE c x)
    (hsettle : i < l.length →
      ¬ cutLE (if fl then rcut (l.getD i dummyRange)
               else lcut (l.getD i dummyRange)) x) :
    (covers l x ↔ fl = true) := by
  constructor
  · rintro ⟨r, hr, hmem⟩
    by_contra hfl
    have hfl' : fl = false := by
      cases fl
      · rfl
      · exact absurd rfl hfl
    obtain ⟨j, hj, hje⟩ := List.mem_iff_getElem.mp hr
    rw [← List.getD_eq_getElem l dummyRange hj] at hje
    subst hje
    rcases Nat.lt_or_ge j i with hji | hji
    · have h1 : cutLe (rcut (l.getD j dummyRange))
          (rcut (l.getD (i - 1) dummyRange)) :=
        WF_rcut_mono hWF (by omega) (by omega)
      have h2 := hhist hfl' (by omega)
      exact hmem.2 (cutLE_mono (cutLe_trans h1 h2) hx)
    · have hiL : i < l.length := Nat.lt_of_le_of_lt hji hj
      have h0 := hsettle hiL
      rw [if_neg (by simp [hfl'])] at h0
      exact h0 (cutLE_mono (WF_lcut_mono hWF hji hj) hmem.1)
  · intro hfl
    have hiL := hlt hfl
    refine ⟨l.getD i dummyRange, ?_, ?_, ?_⟩
    · rw [List.getD_eq_getElem _ _ hiL]
      exact List.getElem_mem hiL
    · exact cutLE_mono (hin hfl) hx
    · have h0 := hsettle hiL
      rw [if_pos (by simp [hfl])] at h0
      exact h0

theorem not_covers_of_before_first {l : List RangeWithDepend}
    (hWF : WFRanges l) {x : IKey}
    (hx : 0 < l.length → ¬ cutLE (lcut (l.getD 0 dummyRange)) x) :
    ¬ covers l x := by
  rintro ⟨r, hr, hmem⟩
  obtain ⟨j, hj, hje⟩ := List.mem_iff_getElem.mp hr
  rw [← List.getD_eq_getElem l dummyRange hj] at hje
  subst hje
  exact hx (by omega)
    (cutLE_mono (WF_lcut_mono hWF (Nat.zero_le _) hj) hmem.1)

theorem covers_cons {o : RangeWithDepend} {t : List RangeWithDepend}
    {x : IKey} : covers (o :: t) x ↔ rmem o x ∨ covers t x := by
  constructor
  · rintro ⟨r, hr, hm⟩
    rcases List.mem_cons.mp hr with rfl | hr
    · exact Or.inl hm
    · exact Or.inr ⟨r, hr, hm⟩
  · rintro (hm | ⟨r, hr, hm⟩)
    · exact ⟨o, List.mem_cons_self o t, hm⟩
    · exact ⟨r, List.mem_cons_of_mem _ hr, hm⟩

theorem covers_nil {x : IKey} : ¬ covers [] x := by
  rintro ⟨r, hr, _⟩
  cases hr

theorem chainRev_tail_le {h : RangeWithDepend} {t : List RangeWithDepend}
    (hc : chainRev (h :: t)) : ∀ q ∈ t, cutLe (rcut q) (lcut h) := by
  induction t generalizing h with
  | nil =>
    intro q hq
    cases hq
  | cons h2 t2 ih =>
    intro q hq
    have hstep : cutLe (rcut h2) (lcut h) := (List.chain'_cons.mp hc.2).1
    rcases List.mem_cons.mp hq with rfl | hq2
    · exact hstep
    · have hc2 : chainRev (h2 :: t2) :=
        ⟨fun r hr => hc.1 r (List.mem_cons_of_mem _ hr),
         (List.chain'_cons.mp hc.2).2⟩
      refine cutLe_trans (ih hc2 q hq2) ?_
      exact cutLe_trans (cutLe_of_cutLt (hc.1 h2 (by simp))) hstep

theorem chainRev_all_le {t : List RangeWithDepend} {c : Cut}
    (hc : chainRev t) (hhd : ∀ r, t.head? = some r → cutLe (rcut r) c) :
    ∀ q ∈ t, cutLe (rcut q) c := by
  cases t with
  | nil =>
    intro q hq
    cases hq
  | cons h t2 =>
    intro q hq
    have h1 : cutLe (rcut h) c := hhd h rfl
    rcases List.mem_cons.mp hq with rfl | hq2
    · exact h1
    · refine cutLe_trans (chainRev_tail_le hc q hq2) ?_
      exact cutLe_trans (cutLe_of_cutLt (hc.1 h (by simp))) h1

theorem chainRev_cons {o : RangeWithDepend} {t : List RangeWithDepend}
    (hv : validRange o) (hc : chainRev t)
    (hle : ∀ q, t.head? = some q → cutLe (rcut q) (lcut o)) :
    chainRev (o :: t) := by
  refine ⟨?_, ?_⟩
  · rintro r hr
    rcases List.mem_cons.mp hr with rfl | hr
    · exact hv
    · exact hc.1 r hr
  · cases t with
    | nil => simp
    | cons q t2 => exact List.chain'_cons.mpr ⟨hle q rfl, hc.2⟩

theorem chainRev_nil : chainRev [] := ⟨fun r hr => absurd hr (by simp), by simp⟩

/-! ### CompInclude and the event order -/

theorem compInclude_nonpos {k1 k2 : IKey} {b1 i1 b2 i2 : Bool}
    (h : CompInclude (ikeyCmp k1 k2) b1 i1 b2 i2 ≤ 0) :
    cutLe ⟨k1, b1 == i1⟩ ⟨k2, b2 == i2⟩ := by
  rcases keyLt_trichotomy k1 k2 with hk | hk | hk
  · exact Or.inl hk
  · subst hk
    unfold CompInclude at h
    rw [ikeyCmp_self] at h
    simp only [ne_eq, not_true_eq_false, if_false, ite_false] at h
    refine Or.inr ⟨rfl, ?_⟩
    cases b1 <;> cases i1 <;> cases b2 <;> cases i2 <;> simp_all
  · unfold CompInclude at h
    rw [ikeyCmp_eq_one hk] at h
    norm_num at h

theorem compInclude_nonneg {k1 k2 : IKey} {b1 i1 b2 i2 : Bool}
    (h : 0 ≤ CompInclude (ikeyCmp k1 k2) b1 i1 b2 i2) :
    cutLe ⟨k2, b2 == i2⟩ ⟨k1, b1 == i1⟩ := by
  rcases keyLt_trichotomy k1 k2 with hk | hk | hk
  · unfold CompInclude at h
    rw [ikeyCmp_eq_neg_one hk] at h
    norm_num at h
  · subst hk
    unfold CompInclude at h
    rw [ikeyCmp_self] at h
    simp only [ne_eq, not_true_eq_false, if_false, ite_false] at h
    refine Or.inr ⟨rfl, ?_⟩
    cases b1 <;> cases i1 <;> cases b2 <;> cases i2 <;> simp_all
  · exact Or.inl hk

theorem compInclude_eq_zero {k1 k2 : IKey} {b1 i1 b2 i2 : Bool}
    (h : CompInclude (ikeyCmp k1 k2) b1 i1 b2 i2 = 0) :
    k1 = k2 ∧ b1 = b2 ∧ i1 = i2 := by
  rcases keyLt_trichotomy k1 k2 with hk | hk | hk
  · unfold CompInclude at h
    rw [ikeyCmp_eq_neg_one hk] at h
    norm_num at h
  · subst hk
    unfold CompInclude at h
    rw [ikeyCmp_self] at h
    simp only [ne_eq, not_true_eq_false, if_false, ite_false] at h
    refine ⟨rfl, ?_⟩
    cases b1 <;> cases i1 <;> cases b2 <;> cases i2 <;> simp_all
  · unfold CompInclude at h
    rw [ikeyCmp_eq_one hk] at h
    norm_num at h

theorem aev_eq (ra : List RangeWithDepend) (s : PartState) :
    aev ra s = ⟨aKeyOf ra s, s.ab == aIncOf ra s⟩ := by
  unfold aev aKeyOf aIncOf lcut rcut
  cases h : s.ab <;> simp

theorem bev_eq (rb : List RangeWithDepend) (s : PartState) :
    bev rb s = ⟨bKeyOf rb s, s.bb == bIncOf rb s⟩ := by
  unfold bev bKeyOf bIncOf lcut rcut
  cases h : s.bb <;> simp

theorem cval_nonpos_cutLe {ra rb : List RangeWithDepend} {s : PartState}
    (ha : s.ai < ra.length) (hb : s.bi < rb.length)
    (h : cval ra rb s ≤ 0) : cutLe (aev ra s) (bev rb s) := by
  rw [aev_eq, bev_eq]
  unfold cval at h
  rw [if_pos ⟨ha, hb⟩] at h
  exact compInclude_nonpos h

theorem cval_nonneg_cutLe {ra rb : List RangeWithDepend} {s : PartState}
    (ha : s.ai < ra.length) (hb : s.bi < rb.length)
    (h : 0 ≤ cval ra rb s) : cutLe (bev rb s) (aev ra s) := by
  rw [aev_eq, bev_eq]
  unfold cval at h
  rw [if_pos ⟨ha, hb⟩] at h
  exact compInclude_nonneg h

theorem cval_zero_eq {ra rb : List RangeWithDepend} {s : PartState}
    (ha : s.ai < ra.length) (hb : s.bi < rb.length)
    (h : cval ra rb s = 0) :
    aKeyOf ra s = bKeyOf rb s ∧ s.ab = s.bb ∧ aIncOf ra s = bIncOf rb s := by
  unfold cval at h
  rw [if_pos ⟨ha, hb⟩] at h
  exact compInclude_eq_zero h

theorem ai_lt_of_cval_nonpos {ra rb : List RangeWithDepend} {s : PartState}
    (h : cval ra rb s ≤ 0) : s.ai < ra.length := by
  by_contra h1
  unfold cval at h
  rw [if_neg (fun hand => h1 hand.1), if_neg h1] at h
  norm_num at h

theorem bi_lt_of_cval_nonneg {ra rb : List RangeWithDepend} {s : PartState}
    (hnd : s.ai < ra.length ∨ s.bi < rb.length)
    (h : 0 ≤ cval ra rb s) : s.bi < rb.length := by
  by_contra h1
  rcases hnd with h2 | h2
  · unfold cval at h
    rw [if_neg (fun hand => h1 hand.2), if_pos h2] at h
    norm_num at h
  · exact h1 h2

theorem cval_trichotomy (ra rb : List RangeWithDepend) (s : PartState) :
    cval ra rb s ≤ 0 ∨ 0 ≤ cval ra rb s := by
  omega

theorem C9_witness :
    (getFromMap (fun _ _ c => (.ok, c))
        [(1, { file_number := 1, smallest := ⟨5, 3⟩, largest := ⟨5, 1⟩,
               purpose := .kEssenceSst, map_elements := [],
               inline_reader := true })] ⟨5, 5⟩
        { smallest_key := ⟨5, 10⟩, largest_key := ⟨5, 2⟩,
          include_smallest := true, include_largest := true,
          no_smallest := false, no_records := false, link := [⟨1, 0⟩] }
        ⟨0, false, false⟩).2.2 = true ∧
    (getFromMap (fun _ _ c => (.ok, c))
        [(1, { file_number := 1, smallest := ⟨5, 3⟩, largest := ⟨5, 1⟩,
               purpose := .kEssenceSst, map_elements := [],
               inline_reader := true })] ⟨5, 5⟩
        { smallest_key := ⟨5, 10⟩, largest_key := ⟨5, 2⟩,
          include_smallest := true, include_largest := true,
          no_smallest := false, no_records := false, link := [⟨1, 0⟩] }
        ⟨0, false, false⟩).2.1.min_seq_type = (0 : Nat) :=
  ⟨by decide,
   C9_ceiling_restored (fun _ _ c => (.ok, c))
     [(1, { file_number := 1, smallest := ⟨5, 3⟩, largest := ⟨5, 1⟩,
            purpose := .kEssenceSst, map_elements := [],
            inline_reader := true })] ⟨5, 5⟩
     { smallest_key := ⟨5, 10⟩, largest_key := ⟨5, 2⟩,
       include_smallest := true, include_largest := true,
       no_smallest := false, no_records := false, link := [⟨1, 0⟩] }
     ⟨0, false, false⟩ (by decide)⟩

/-! ### Small helpers for the sweep preservation proof -/

theorem cutLe_antisymm {c d : Cut} (h1 : cutLe c d) (h2 : cutLe d c) :
    c = d := by
  obtain ⟨ck, ca⟩ := c
  obtain ⟨dk, da⟩ := d
  rcases h1 with h1 | ⟨h1, h1'⟩ <;> rcases h2 with h2 | ⟨h2, h2'⟩
  · exact absurd h2 (keyLt_asymm h1)
  · simp only at h2
    subst h2
    exact absurd h1 (keyLt_irrefl _)
  · simp only at h1
    subst h1
    exact absurd h2 (keyLt_irrefl _)
  · simp only at h1 h1' h2'
    subst h1
    simp only [Cut.mk.injEq, true_and]
    cases ca <;> cases da <;> simp_all

theorem not_covers_slab {l : List RangeWithDepend} (hWF : WFRanges l)
    {i : Nat} {x : IKey} {c : Cut}
    (hhist : 0 < i → cutLe (rcut (l.getD (i - 1) dummyRange)) c)
    (hile : i ≤ l.length) (hx : cutLE c x)
    (hsettle : i < l.length → ¬ cutLE (lcut (l.getD i dummyRange)) x) :
    ¬ covers l x := by
  rintro ⟨r, hr, hmem⟩
  obtain ⟨j, hj, hje⟩ := List.mem_iff_getElem.mp hr
  rw [← List.getD_eq_getElem l dummyRange hj] at hje
  subst hje
  rcases Nat.lt_or_ge j i with hji | hji
  · have h1 : cutLe (rcut (l.getD j dummyRange))
        (rcut (l.getD (i - 1) dummyRange)) :=
      WF_rcut_mono hWF (by omega) (by omega)
    exact hmem.2 (cutLE_mono (cutLe_trans h1 (hhist (by omega))) hx)
  · have hiL : i < l.length := Nat.lt_of_le_of_lt hji hj
    exact hsettle hiL (cutLE_mono (WF_lcut_mono hWF hji hj) hmem.1)

theorem covers_of_getD {l : List RangeWithDepend} {i : Nat} {x : IKey}
    (hi : i < l.length) (h1 : cutLE (lcut (l.getD i dummyRange)) x)
    (h2 : ¬ cutLE (rcut (l.getD i dummyRange)) x) : covers l x := by
  refine ⟨l.getD i dummyRange, ?_, h1, h2⟩
  rw [List.getD_eq_getElem _ _ hi]
  exact List.getElem_mem hi

theorem not_covers_of_all_rcut_le {t : List RangeWithDepend} {c : Cut}
    {x : IKey} (hall : ∀ r ∈ t, cutLe (rcut r) c) (hx : cutLE c x) :
    ¬ covers t x := by
  rintro ⟨r, hr, hmem⟩
  exact hmem.2 (cutLE_mono (hall r hr) hx)

theorem noSentinel_getD {l : List RangeWithDepend} (h : NoSentinel l)
    {i : Nat} (hi : i < l.length) :
    seqOf (l.getD i dummyRange).point0 ≠ kMaxSequenceNumber ∧
      seqOf (l.getD i dummyRange).point1 ≠ kMaxSequenceNumber := by
  rw [List.getD_eq_getElem _ _ hi]
  exact h _ (List.getElem_mem hi)

theorem depsNE_getD {l : List RangeWithDepend} (h : DepsNE l)
    {i : Nat} (hi : i < l.length) : (l.getD i dummyRange).dependence ≠ [] := by
  rw [List.getD_eq_getElem _ _ hi]
  exact h _ (List.getElem_mem hi)

theorem isEmpty_seq {r : RangeWithDepend}
    (h : IsEmptyMapSstElement r = true) :
    seqOf r.point1 = kMaxSequenceNumber := by
  unfold IsEmptyMapSstElement at h
  simp only [Bool.and_eq_true, beq_iff_eq] at h
  exact h.2

/-- The two branches of `put_right` on a non-empty output. -/
theorem putRight_cases (key : IKey) (incl : Bool) (r : Option (Bool × Nat))
    (s : PartState) (op : RangeWithDepend) (rest : List RangeWithDepend)
    (h : s.output = op :: rest) :
    (putRight key incl r s = { s with output := rest } ∧
      (op.dependence = [] ∨
        (ikeyCmp key op.point0 = 0 ∧ (!op.include0 || !incl) = true) ∨
        IsEmptyMapSstElement (closeAt op key incl op.stable) = true)) ∨
    (putRight key incl r s =
      { s with output :=
          closeAt op key incl (if s.source = none ∨ r = none ∨ s.source ≠ r
            then false else op.stable) :: rest } ∧
      op.dependence ≠ [] ∧
      ¬ (ikeyCmp key op.point0 = 0 ∧ (!op.include0 || !incl) = true) ∧
      IsEmptyMapSstElement (closeAt op key incl op.stable) = false) := by
  obtain ⟨ai, bi, ab, bb, output, source⟩ := s
  dsimp only at h ⊢
  subst h
  dsimp only [putRight, closeAt]
  by_cases h1 : op.dependence = [] ∨
      (ikeyCmp key op.point0 = 0 ∧ (!op.include0 || !incl) = true)
  · refine Or.inl ⟨?_, ?_⟩
    · rw [if_pos h1]
    · rcases h1 with h1 | h1
      · exact Or.inl h1
      · exact Or.inr (Or.inl h1)
  · rw [if_neg h1]
    by_cases h2 : IsEmptyMapSstElement
        { op with point1 := key, include1 := incl } = true
    · rw [if_pos h2]
      exact Or.inl ⟨rfl, Or.inr (Or.inr h2)⟩
    · rw [if_neg h2]
      refine Or.inr ⟨?_, fun h3 => h1 (Or.inl h3),
        fun h3 => h1 (Or.inr h3), by simpa using h2⟩
      by_cases h3 : source = none ∨ r = none ∨ source ≠ r
      · rw [if_pos h3, if_pos h3]
      · rw [if_neg h3, if_neg h3]

theorem lcut_closeAt (op : RangeWithDepend) (key : IKey) (incl st : Bool) :
    lcut (closeAt op key incl st) = lcut op := rfl

theorem rcut_closeAt (op : RangeWithDepend) (key : IKey) (incl st : Bool) :
    rcut (closeAt op key incl st) = ⟨key, incl⟩ := rfl

theorem deps_closeAt (op : RangeWithDepend) (key : IKey) (incl st : Bool) :
    (closeAt op key incl st).dependence = op.dependence := rfl

theorem stable_closeAt (op : RangeWithDepend) (key : IKey) (incl st : Bool) :
    (closeAt op key incl st).stable = st := rfl

theorem norec_closeAt (op : RangeWithDepend) (key : IKey) (incl st : Bool) :
    (closeAt op key incl st).no_records = op.no_records := rfl

/-! ### The ten reachable cases of one sweep iteration -/

theorem pstepEq1 {ra rb : List RangeWithDepend} {type : PartitionType}
    {s : PartState} (hab : s.ab = false) (hbb : s.bb = false)
    (hac : cval ra rb s ≤ 0) (hbc : ¬ (0 : Int) ≤ cval ra rb s) :
    partStep ra rb type s =
      { putDepend type (some (ra.getD s.ai dummyRange)) none
          (putLeft (aKeyOf ra s) (aIncOf ra s) (some (false, s.ai)) s) with
        ai := s.ai, bi := s.bi, ab := true, bb := false } := by
  unfold partStep
  simp [hab, hbb, hac, hbc]

theorem pstepEq2 {ra rb : List RangeWithDepend} {type : PartitionType}
    {s : PartState} (hab : s.ab = true) (hbb : s.bb = false)
    (hac : cval ra rb s ≤ 0) (hbc : ¬ (0 : Int) ≤ cval ra rb s) :
    partStep ra rb type s =
      { putRight (aKeyOf ra s) (aIncOf ra s) (some (false, s.ai)) s with
        ai := s.ai + 1, bi := s.bi, ab := false, bb := false } := by
  unfold partStep
  simp [hab, hbb, hac, hbc]

theorem pstepEq3 {ra rb : List RangeWithDepend} {type : PartitionType}
    {s : PartState} (hab : s.ab = false) (hbb : s.bb = false)
    (hac : ¬ cval ra rb s ≤ 0) (hbc : (0 : Int) ≤ cval ra rb s) :
    partStep ra rb type s =
      { putDepend type none (some (rb.getD s.bi dummyRange))
          (putLeft (bKeyOf rb s) (bIncOf rb s) (some (true, s.bi)) s) with
        ai := s.ai, bi := s.bi, ab := false, bb := true } := by
  unfold partStep
  simp [hab, hbb, hac, hbc]

theorem pstepEq4 {ra rb : List RangeWithDepend} {type : PartitionType}
    {s : PartState} (hab : s.ab = false) (hbb : s.bb = true)
    (hac : ¬ cval ra rb s ≤ 0) (hbc : (0 : Int) ≤ cval ra rb s) :
    partStep ra rb type s =
      { putRight (bKeyOf rb s) (bIncOf rb s) (some (true, s.bi)) s with
        ai := s.ai, bi := s.bi + 1, ab := false, bb := false } := by
  unfold partStep
  simp [hab, hbb, hac, hbc]

theorem pstepEq5 {ra rb : List RangeWithDepend} {type : PartitionType}
    {s : PartState} (hab : s.ab = true) (hbb : s.bb = false)
    (hac : ¬ cval ra rb s ≤ 0) (hbc : (0 : Int) ≤ cval ra rb s) :
    partStep ra rb type s =
      { putDepend type (some (ra.getD s.ai dummyRange))
          (some (rb.getD s.bi dummyRange))
          (putLeft (bKeyOf rb s) (bIncOf rb s) (some (true, s.bi))
            (putRight (bKeyOf rb s) (!bIncOf rb s) none s)) with
        ai := s.ai, bi := s.bi, ab := true, bb := true } := by
  unfold partStep
  simp [hab, hbb, hac, hbc]

theorem pstepEq6 {ra rb : List RangeWithDepend} {type : PartitionType}
    {s : PartState} (hab : s.ab = true) (hbb : s.bb = true)
    (hac : ¬ cval ra rb s ≤ 0) (hbc : (0 : Int) ≤ cval ra rb s) :
    partStep ra rb type s =
      { putDepend type (some (ra.getD s.ai dummyRange)) none
          (putLeft (bKeyOf rb s) (!bIncOf rb s) none
            (putRight (bKeyOf rb s) (bIncOf rb s) (some (true, s.bi)) s)) with
        ai := s.ai, bi := s.bi + 1, ab := true, bb := false } := by
  unfold partStep
  simp [hab, hbb, hac, hbc]

theorem pstepEq7 {ra rb : List RangeWithDepend} {type : PartitionType}
    {s : PartState} (hab : s.ab = false) (hbb : s.bb = true)
    (hac : cval ra rb s ≤ 0) (hbc : ¬ (0 : Int) ≤ cval ra rb s) :
    partStep ra rb type s =
      { putDepend type (some (ra.getD s.ai dummyRange))
          (some (rb.getD s.bi dummyRange))
          (putLeft (aKeyOf ra s) (aIncOf ra s) (some (false, s.ai))
            (putRight (aKeyOf ra s) (!aIncOf ra s) none s)) with
        ai := s.ai, bi := s.bi, ab := true, bb := true } := by
  unfold partStep
  simp [hab, hbb, hac, hbc]

theorem pstepEq8 {ra rb : List RangeWithDepend} {type : PartitionType}
    {s : PartState} (hab : s.ab = true) (hbb : s.bb = true)
    (hac : cval ra rb s ≤ 0) (hbc : ¬ (0 : Int) ≤ cval ra rb s) :
    partStep ra rb type s =
      { putDepend type none (some (rb.getD s.bi dummyRange))
          (putLeft (aKeyOf ra s) (!aIncOf ra s) none
            (putRight (aKeyOf ra s) (aIncOf ra s) (some (false, s.ai)) s)) with
        ai := s.ai + 1, bi := s.bi, ab := false, bb := true } := by
  unfold partStep
  simp [hab, hbb, hac, hbc]

theorem pstepEq9 {ra rb : List RangeWithDepend} {type : PartitionType}
    {s : PartState} (hab : s.ab = false) (hbb : s.bb = false)
    (hac : cval ra rb s ≤ 0) (hbc : (0 : Int) ≤ cval ra rb s) :
    partStep ra rb type s =
      { putDepend type (some (ra.getD s.ai dummyRange))
          (some (rb.getD s.bi dummyRange))
          (putLeft (aKeyOf ra s) (aIncOf ra s) none s) with
        ai := s.ai, bi := s.bi, ab := true, bb := true } := by
  unfold partStep
  simp [hab, hbb, hac, hbc]

theorem pstepEq10 {ra rb : List RangeWithDepend} {type : PartitionType}
    {s : PartState} (hab : s.ab = true) (hbb : s.bb = true)
    (hac : cval ra rb s ≤ 0) (hbc : (0 : Int) ≤ cval ra rb s) :
    partStep ra rb type s =
      { putRight (aKeyOf ra s) (aIncOf ra s) none s with
        ai := s.ai + 1, bi := s.bi + 1, ab := false, bb := false } := by
  unfold partStep
  simp [hab, hbb, hac, hbc]

theorem head?_mem {α : Type} {l : List α} {a : α} (h : l.head? = some a) :
    a ∈ l := by
  cases l with
  | nil => cases h
  | cons b t =>
    obtain rfl : b = a := by simpa using h
    exact List.mem_cons_self _ _

/-- A closing event that does not satisfy `put_right`'s empty-interval test
closes strictly after the open interval's left cut. -/
theorem close_valid {op : RangeWithDepend} {k : IKey} {i : Bool}
    (hle : cutLe (lcut op) ⟨k, i⟩)
    (hncol : ¬ (ikeyCmp k op.point0 = 0 ∧ (!op.include0 || !i) = true)) :
    cutLt (lcut op) ⟨k, i⟩ := by
  rw [cutLt_iff_not_cutLe]
  intro hc
  have heq := cutLe_antisymm hle hc
  refine hncol ⟨?_, ?_⟩
  · rw [ikeyCmp_zero_iff]
    have h1 : op.point0 = k := by simpa [lcut] using congrArg Cut.k heq
    exact h1.symm
  · have h2 : (!op.include0) = i := by simpa [lcut] using congrArg Cut.after heq
    cases hI : i <;> simp_all

/-- `put_right`'s empty-interval test puts the closing cut at or before the
open interval's left cut. -/
theorem collapse_cutLe {op : RangeWithDepend} {k : IKey} {i : Bool}
    (hcol : ikeyCmp k op.point0 = 0 ∧ (!op.include0 || !i) = true) :
    cutLe ⟨k, i⟩ (lcut op) := by
  obtain ⟨h1, h2⟩ := hcol
  rw [ikeyCmp_zero_iff] at h1
  refine Or.inr ⟨by simpa [lcut] using h1, ?_⟩
  intro hi
  have hI : i = true := hi
  subst hI
  simpa [lcut] using h2

/-! ### Preservation of the sweep invariant, case by case -/

theorem pstep_case1 {ra rb : List RangeWithDepend} {type : PartitionType}
    {s : PartState} (hWA : WFRanges ra) (hWB : WFRanges rb)
    (hinv : PInv ra rb type s)
    (hab : s.ab = false) (hbb : s.bb = false)
    (hac : cval ra rb s ≤ 0) (hbc : ¬ (0 : Int) ≤ cval ra rb s) :
    PInv ra rb type (partStep ra rb type s) := by
  have hai : s.ai < ra.length := ai_lt_of_cval_nonpos hac
  have hfav : validRange (ra.getD s.ai dummyRange) := WF_valid hWA hai
  have haKey : aKeyOf ra s = (ra.getD s.ai dummyRange).point0 := by
    simp [aKeyOf, hab]
  have haInc : aIncOf ra s = (ra.getD s.ai dummyRange).include0 := by
    simp [aIncOf, hab]
  have hS : partStep ra rb type s =
      { ai := s.ai, bi := s.bi, ab := true, bb := false,
        output := { ra.getD s.ai dummyRange with
          point1 := (ra.getD s.ai dummyRange).point0,
          include1 := false } :: s.output,
        source := some (false, s.ai) } := by
    rw [pstepEq1 hab hbb hac hbc]
    cases type <;> simp [putLeft, putDepend, haKey, haInc]
  -- the cut at which the new interval opens, and the b-side bound
  have hev : aev ra s = lcut (ra.getD s.ai dummyRange) := by simp [aev, hab]
  have hebB : s.bi < rb.length →
      cutLe (lcut (ra.getD s.ai dummyRange)) (lcut (rb.getD s.bi dummyRange)) := by
    intro hbi
    have h2 := cval_nonpos_cutLe hai hbi hac
    simpa [aev, bev, hab, hbb] using h2
  have hcl := hinv.hclosed (by simp [hab, hbb])
  have hrest : ∀ r ∈ s.output, cutLe (rcut r) (lcut (ra.getD s.ai dummyRange)) := by
    refine chainRev_all_le hcl.1 ?_
    intro r hr
    have h2 := (hcl.2 r hr).1 hai
    simpa [aev, hab] using h2
  rw [hS]
  refine PInv.mk hinv.haiLe hinv.hbiLe (fun _ => hai) (fun h => nomatch h)
    ?_ (fun h => nomatch h) (fun h => nomatch h) ?_ ?_ ?_ ?_ ?_
  · -- hinA
    intro _ hbi
    have h2 := hebB hbi
    simpa [bev, lcut] using h2
  · -- hhistB
    intro _ h1 _
    have h2 := hinv.hhistB hbb h1 hai
    rw [hev] at h2
    have h3 := cutLe_trans h2 (cutLe_of_cutLt hfav)
    simpa [aev] using h3
  · -- hopen
    intro _
    refine ⟨_, _, rfl, ?_⟩
    refine ⟨hcl.1, ?_, ?_, ?_, ?_, ?_, ?_, ?_, ?_, ?_⟩
    · -- rest below the open interval
      intro r hr
      simpa [lcut] using hrest r hr
    · -- lcut op ≤ a-event
      intro _
      have h2 := cutLe_of_cutLt hfav
      simpa [aev, lcut] using h2
    · -- lcut op ≤ b-event
      intro hbi
      have h2 := hebB hbi
      simpa [bev, lcut] using h2
    · -- a-history vacuous: a is open
      intro h
      exact nomatch h
    · -- history of b below the open cut
      intro _ h1
      have h2 := hinv.hhistB hbb h1 hai
      rw [hev] at h2
      simpa [lcut] using h2
    · -- the open interval starts at its source interval's left endpoint
      intro _
      exact cutLe_refl _
    · -- b-history bound vacuous: b-side flag is false
      intro h
      exact nomatch h
    · -- DependOK
      cases type
      · refine ⟨?_, ?_, ?_⟩
        · exact fun _ h => nomatch h
        · exact fun _ _ => ⟨rfl, rfl, rfl⟩
        · exact fun h _ => nomatch h
      · refine ⟨?_, ?_⟩
        · exact fun _ _ => ⟨rfl, rfl, rfl⟩
        · exact fun h => nomatch h
    · -- SourceOK
      refine ⟨?_, ?_⟩
      · intro i hi
        simp only [Option.some.injEq, Prod.mk.injEq, true_and] at hi
        subst hi
        exact ⟨rfl, rfl, rfl, rfl⟩
      · intro j hj
        simp at hj
  · -- hclosed (vacuous: an interval is open)
    intro h
    simp at h
  · -- hattr
    intro o ho
    refine hinv.hattr o ?_
    simpa [closedPart, hab, hbb] using ho
  · -- hcov
    intro hNSa hNSb hDa hDb x hst
    have hstA : ¬ cutLE (rcut (ra.getD s.ai dummyRange)) x := by
      have h2 := hst.1 hai
      simpa [aev] using h2
    have hstB : s.bi < rb.length →
        ¬ cutLE (lcut (rb.getD s.bi dummyRange)) x := by
      intro hbi
      have h2 := hst.2 hbi
      simpa [bev] using h2
    have hdep : (ra.getD s.ai dummyRange).dependence ≠ [] := depsNE_getD hDa hai
    by_cases hreg : cutLE (lcut (ra.getD s.ai dummyRange)) x
    · -- the new slab `[lcut fa, frontier)`
      have hcova : covState
          { ai := s.ai, bi := s.bi, ab := true, bb := false,
            output := { ra.getD s.ai dummyRange with
              point1 := (ra.getD s.ai dummyRange).point0,
              include1 := false } :: s.output,
            source := some (false, s.ai) } x := by
        simp only [covState, covers_cons]
        exact Or.inr ⟨hdep, hreg⟩
      have hcra : covers ra x := covers_of_getD hai hreg hstA
      cases type
      · exact iff_of_true hcova (Or.inl hcra)
      · refine iff_of_true hcova ⟨hcra, ?_⟩
        refine not_covers_slab hWB (i := s.bi) ?_ hinv.hbiLe hreg hstB
        intro h1
        have h2 := hinv.hhistB hbb h1 hai
        rwa [hev] at h2
    · -- below the opening cut nothing changed
      have hsetOld : settled ra rb s x :=
        ⟨fun _ => by simpa [aev, hab] using hreg,
         fun hbi => by simpa [bev, hbb] using hstB hbi⟩
      have hold := hinv.hcov hNSa hNSb hDa hDb x hsetOld
      simp only [covState, hab, hbb, Bool.or_self] at hold
      simp only [covState, covers_cons]
      rw [← hold]
      constructor
      · rintro (h | ⟨_, h2⟩)
        · exact h
        · exact absurd h2 hreg
      · exact fun h => Or.inl h

theorem pstep_case2 {ra rb : List RangeWithDepend} {type : PartitionType}
    {s : PartState} (hWA : WFRanges ra) (hWB : WFRanges rb)
    (hinv : PInv ra rb type s)
    (hab : s.ab = true) (hbb : s.bb = false)
    (hac : cval ra rb s ≤ 0) (hbc : ¬ (0 : Int) ≤ cval ra rb s) :
    PInv ra rb type (partStep ra rb type s) := by
  have hai : s.ai < ra.length := hinv.habLt hab
  have haKey : aKeyOf ra s = (ra.getD s.ai dummyRange).point1 := by
    simp [aKeyOf, hab]
  have haInc : aIncOf ra s = (ra.getD s.ai dummyRange).include1 := by
    simp [aIncOf, hab]
  have hrc : (⟨aKeyOf ra s, aIncOf ra s⟩ : Cut) =
      rcut (ra.getD s.ai dummyRange) := by
    simp [rcut, haKey, haInc]
  obtain ⟨op, rest, hout, hOK⟩ := hinv.hopen (by simp [hab])
  obtain ⟨hOK1, hOK2, hOK3, hOK4, hOK5, hOK6, hOK7, hOK8, hOK9, hOK10⟩ := hOK
  have hev : aev ra s = rcut (ra.getD s.ai dummyRange) := by simp [aev, hab]
  have hlev : cutLe (lcut op) (rcut (ra.getD s.ai dummyRange)) := by
    have h2 := hOK3 hai
    rwa [hev] at h2
  have hebB : s.bi < rb.length →
      cutLe (rcut (ra.getD s.ai dummyRange)) (lcut (rb.getD s.bi dummyRange)) := by
    intro hbi
    have h2 := cval_nonpos_cutLe hai hbi hac
    simpa [aev, bev, hab, hbb] using h2
  rw [pstepEq2 hab hbb hac hbc]
  rcases putRight_cases (aKeyOf ra s) (aIncOf ra s) (some (false, s.ai)) s op
      rest hout with ⟨hpr, hdrop⟩ | ⟨hpr, hne, hncol, hnemp⟩
  · -- the closing interval is dropped
    rw [hpr]
    refine PInv.mk ?_ hinv.hbiLe (fun h => nomatch h) (fun h => nomatch h)
      (fun h => nomatch h) (fun h => nomatch h) ?_ ?_ (fun h => nomatch h)
      ?_ ?_ ?_
    · show s.ai + 1 ≤ ra.length
      omega
    · -- hhistA
      intro _ _ hbi
      have h2 := hebB hbi
      simpa [bev, hbb] using h2
    · -- hhistB
      intro _ h1 hai1
      have h2 := hinv.hhistB hbb h1 hai
      rw [hev] at h2
      have h3 := cutLe_trans h2 (WF_step hWA hai1)
      simpa [aev] using h3
    · -- hclosed
      intro _
      refine ⟨hOK1, ?_⟩
      intro r hr
      have hrcs : cutLe (rcut r) (rcut (ra.getD s.ai dummyRange)) :=
        cutLe_trans (hOK2 r (head?_mem hr)) hlev
      constructor
      · intro hai1
        have h3 := cutLe_trans hrcs (WF_step hWA hai1)
        simpa [aev] using h3
      · intro hbi
        have h3 := cutLe_trans hrcs (hebB hbi)
        simpa [bev] using h3
    · -- hattr
      intro o ho
      refine hinv.hattr o ?_
      have ho2 : o ∈ rest := by simpa [closedPart] using ho
      simp only [closedPart, hout, hab, Bool.true_or, if_true, List.tail_cons]
      exact ho2
    · -- hcov
      intro hNSa hNSb hDa hDb x hst
      have hstA' : s.ai + 1 < ra.length →
          ¬ cutLE (lcut (ra.getD (s.ai + 1) dummyRange)) x := by
        intro h
        have h2 := hst.1 h
        simpa [aev] using h2
      have hstB' : s.bi < rb.length →
          ¬ cutLE (lcut (rb.getD s.bi dummyRange)) x := by
        intro h
        have h2 := hst.2 h
        simpa [bev] using h2
      rcases hdrop with hd | hd | hd
      · -- empty dependence contradicts DepsNE through DependOK
        exfalso
        cases type
        · have h9 := hOK9
          simp only [DependOK] at h9
          have he := (h9.2.1 hab hbb).1
          exact depsNE_getD hDa hai (by rw [← he]; exact hd)
        · have h9 := hOK9
          simp only [DependOK] at h9
          have he := (h9.1 hab hbb).1
          exact depsNE_getD hDa hai (by rw [← he]; exact hd)
      · -- empty-interval collapse: the open cut equals the closing cut
        have hcle := collapse_cutLe hd
        rw [hrc] at hcle
        have heq : lcut op = rcut (ra.getD s.ai dummyRange) :=
          cutLe_antisymm hlev hcle
        by_cases hreg : cutLE (rcut (ra.getD s.ai dummyRange)) x
        · have hnra : ¬ covers ra x :=
            not_covers_slab hWA (i := s.ai + 1)
              (c := rcut (ra.getD s.ai dummyRange))
              (fun _ => by
                simp only [Nat.add_sub_cancel]
                exact cutLe_refl _)
              (by omega) hreg hstA'
          have hnrb : ¬ covers rb x :=
            not_covers_slab hWB (i := s.bi)
              (c := rcut (ra.getD s.ai dummyRange))
              (fun h1 => by
                have h2 := hinv.hhistB hbb h1 hai
                rwa [hev] at h2)
              hinv.hbiLe hreg hstB'
          have hcrest : ¬ covers rest x :=
            not_covers_of_all_rcut_le
              (fun r hr => heq ▸ hOK2 r hr) hreg
          refine iff_of_false ?_ ?_
          · simpa [covState] using hcrest
          · cases type
            · rintro (h | h)
              · exact hnra h
              · exact hnrb h
            · rintro ⟨h, _⟩
              exact hnra h
        · have hsetOld : settled ra rb s x :=
            ⟨fun _ => by simpa [aev, hab] using hreg,
             fun hbi => by simpa [bev, hbb] using hstB' hbi⟩
          have hold := hinv.hcov hNSa hNSb hDa hDb x hsetOld
          simp only [covState, hout, hab, hbb, Bool.true_or, if_true] at hold
          have hlx : ¬ cutLE (lcut op) x := by
            rw [heq]
            exact hreg
          simp only [covState]
          rw [← hold]
          constructor
          · exact fun h => Or.inl h
          · rintro (h | ⟨_, h2⟩)
            · exact h
            · exact absurd h2 hlx
      · -- sentinel-footer drop contradicts NoSentinel
        exfalso
        have hseq := isEmpty_seq hd
        have h2 : seqOf (ra.getD s.ai dummyRange).point1 =
            kMaxSequenceNumber := by
          simpa [haKey] using hseq
        exact (noSentinel_getD hNSa hai).2 h2
  · -- the closing interval is kept
    rw [hpr]
    generalize hstK : (if s.source = none ∨ some (false, s.ai) = none ∨
      s.source ≠ some (false, s.ai) then false else op.stable) = stK
    have hvop : validRange (closeAt op (aKeyOf ra s) (aIncOf ra s) stK) := by
      have h2 : cutLt (lcut op) (⟨aKeyOf ra s, aIncOf ra s⟩ : Cut) :=
        close_valid (by rw [hrc]; exact hlev) hncol
      rw [validRange, lcut_closeAt, rcut_closeAt]
      exact h2
    have hrcc : rcut (closeAt op (aKeyOf ra s) (aIncOf ra s) stK) =
        rcut (ra.getD s.ai dummyRange) := by
      rw [rcut_closeAt, hrc]
    refine PInv.mk ?_ hinv.hbiLe (fun h => nomatch h) (fun h => nomatch h)
      (fun h => nomatch h) (fun h => nomatch h) ?_ ?_ (fun h => nomatch h)
      ?_ ?_ ?_
    · show s.ai + 1 ≤ ra.length
      omega
    · -- hhistA
      intro _ _ hbi
      have h2 := hebB hbi
      simpa [bev, hbb] using h2
    · -- hhistB
      intro _ h1 hai1
      have h2 := hinv.hhistB hbb h1 hai
      rw [hev] at h2
      have h3 := cutLe_trans h2 (WF_step hWA hai1)
      simpa [aev] using h3
    · -- hclosed
      intro _
      constructor
      · exact chainRev_cons hvop hOK1 (fun q hq => hOK2 q (head?_mem hq))
      · intro r hr
        have hre : closeAt op (aKeyOf ra s) (aIncOf ra s) stK = r := by
          simpa using hr
        subst hre
        constructor
        · intro hai1
          have h2 := WF_step hWA hai1
          rw [← hrcc] at h2
          simpa [aev] using h2
        · intro hbi
          have h2 := hebB hbi
          rw [← hrcc] at h2
          simpa [bev] using h2
    · -- hattr
      intro o ho
      have ho2 : o ∈ (closeAt op (aKeyOf ra s) (aIncOf ra s) stK :: rest) := by
        simpa [closedPart] using ho
      rcases List.mem_cons.mp ho2 with rfl | hmem
      · -- attribution of the freshly closed interval
        cases type
        · have h9 := hOK9
          simp only [DependOK] at h9
          obtain ⟨e1, e2, e3⟩ := h9.2.1 hab hbb
          refine Or.inr (Or.inl ⟨s.ai, hai, ⟨?_, ?_⟩, ?_, ?_, ?_, ?_⟩)
          · rw [lcut_closeAt]
            exact hOK7 hab
          · rw [hrcc]
            exact cutLe_refl _
          · -- disjoint from every b-interval
            intro j hj
            rcases Nat.lt_or_ge j s.bi with hji | hji
            · refine Or.inr ?_
              have hble := hinv.hbiLe
              have h2 : cutLe (rcut (rb.getD j dummyRange))
                  (rcut (rb.getD (s.bi - 1) dummyRange)) :=
                WF_rcut_mono hWB (by omega) (by omega)
              rw [lcut_closeAt]
              exact cutLe_trans h2 (hOK6 hbb (by omega))
            · refine Or.inl ?_
              have hbi : s.bi < rb.length := Nat.lt_of_le_of_lt hji hj
              rw [hrcc]
              exact cutLe_trans (hebB hbi) (WF_lcut_mono hWB hji hj)
          · rw [deps_closeAt]
            exact e1
          · rw [norec_closeAt]
            exact e2
          · -- stable only when the interval is reproduced verbatim
            intro hstab
            rw [stable_closeAt] at hstab
            subst hstab
            by_cases hc : s.source = none ∨ some (false, s.ai) = none ∨
                s.source ≠ some (false, s.ai)
            · rw [if_pos hc] at hstK
              exact absurd hstK.symm (by simp)
            · rw [if_neg hc] at hstK
              push_neg at hc
              obtain ⟨_, _, hsrc⟩ := hc
              obtain ⟨_, _, hp0, hi0⟩ := hOK10.1 s.ai hsrc
              have hgoal : closeAt op (aKeyOf ra s) (aIncOf ra s) true =
                  RangeWithDepend.mk (ra.getD s.ai dummyRange).point0
                    (ra.getD s.ai dummyRange).point1
                    (ra.getD s.ai dummyRange).include0
                    (ra.getD s.ai dummyRange).include1
                    (ra.getD s.ai dummyRange).no_records
                    (ra.getD s.ai dummyRange).stable
                    (ra.getD s.ai dummyRange).dependence := by
                rw [closeAt]
                simp only [RangeWithDepend.mk.injEq]
                refine ⟨hp0, haKey, hi0, haInc, e2, ?_, e1⟩
                rw [← e3, ← hstK]
              exact hgoal
        · trivial
      · refine hinv.hattr o ?_
        simp only [closedPart, hout, hab, Bool.true_or, if_true,
          List.tail_cons]
        exact hmem
    · -- hcov
      intro hNSa hNSb hDa hDb x hst
      have hstA2 : s.ai + 1 < ra.length →
          ¬ cutLE (lcut (ra.getD (s.ai + 1) dummyRange)) x := by
        intro h
        have h2 := hst.1 h
        simpa [aev] using h2
      have hstB2 : s.bi < rb.length →
          ¬ cutLE (lcut (rb.getD s.bi dummyRange)) x := by
        intro h
        have h2 := hst.2 h
        simpa [bev] using h2
      by_cases hreg : cutLE (rcut (ra.getD s.ai dummyRange)) x
      · have hnra : ¬ covers ra x :=
          not_covers_slab hWA (i := s.ai + 1)
            (c := rcut (ra.getD s.ai dummyRange))
            (fun _ => by
              simp only [Nat.add_sub_cancel]
              exact cutLe_refl _)
            (by omega) hreg hstA2
        have hnrb : ¬ covers rb x :=
          not_covers_slab hWB (i := s.bi)
            (c := rcut (ra.getD s.ai dummyRange))
            (fun h1 => by
              have h2 := hinv.hhistB hbb h1 hai
              rwa [hev] at h2)
            hinv.hbiLe hreg hstB2
        have hcrest : ¬ covers rest x :=
          not_covers_of_all_rcut_le
            (fun r hr => cutLe_trans (hOK2 r hr) hlev) hreg
        refine iff_of_false ?_ ?_
        · simp only [covState, covers_cons]
          rintro (h | h)
          · refine h.2 ?_
            rw [hrcc]
            exact hreg
          · exact hcrest h
        · cases type
          · rintro (h | h)
            · exact hnra h
            · exact hnrb h
          · rintro ⟨h, _⟩
            exact hnra h
      · have hsetOld : settled ra rb s x :=
          ⟨fun _ => by simpa [aev, hab] using hreg,
           fun hbi => by simpa [bev, hbb] using hstB2 hbi⟩
        have hold := hinv.hcov hNSa hNSb hDa hDb x hsetOld
        simp only [covState, hout, hab, hbb, Bool.true_or, if_true] at hold
        simp only [covState, covers_cons]
        rw [← hold]
        constructor
        · rintro (h | h)
          · refine Or.inr ⟨hne, ?_⟩
            have h2 := h.1
            rwa [lcut_closeAt] at h2
          · exact Or.inl h
        · rintro (h | ⟨_, h2⟩)
          · exact Or.inr h
          · refine Or.inl ⟨?_, ?_⟩
            · rw [lcut_closeAt]
              exact h2
            · intro hcx
              rw [hrcc] at hcx
              exact hreg hcx

theorem pstep_case3 {ra rb : List RangeWithDepend} {type : PartitionType}
    {s : PartState} (hWA : WFRanges ra) (hWB : WFRanges rb)
    (hinv : PInv ra rb type s)
    (hnd : ¬ (s.ai = ra.length ∧ s.bi = rb.length))
    (hab : s.ab = false) (hbb : s.bb = false)
    (hac : ¬ cval ra rb s ≤ 0) (hbc : (0 : Int) ≤ cval ra rb s) :
    PInv ra rb type (partStep ra rb type s) := by
  have hbi : s.bi < rb.length := by
    by_cases h : s.bi < rb.length
    · exact h
    · exfalso
      by_cases h2 : s.ai < ra.length
      · have he : cval ra rb s = -1 := by
          unfold cval
          rw [if_neg (fun hand => h hand.2), if_pos h2]
        rw [he] at hac
        exact hac (by norm_num)
      · have h3 := hinv.haiLe
        have h4 := hinv.hbiLe
        exact hnd ⟨by omega, by omega⟩
  have hfbv : validRange (rb.getD s.bi dummyRange) := WF_valid hWB hbi
  have hbKey : bKeyOf rb s = (rb.getD s.bi dummyRange).point0 := by
    simp [bKeyOf, hbb]
  have hbInc : bIncOf rb s = (rb.getD s.bi dummyRange).include0 := by
    simp [bIncOf, hbb]
  obtain ⟨dep, nr, st, hS, hTM, hTD⟩ : ∃ dep nr st,
      partStep ra rb type s =
        { ai := s.ai, bi := s.bi, ab := false, bb := true,
          output := openAt (rb.getD s.bi dummyRange).point0
            (rb.getD s.bi dummyRange).include0 dep nr st :: s.output,
          source := some (true, s.bi) } ∧
      (type = .kMerge → dep = (rb.getD s.bi dummyRange).dependence ∧
        nr = (rb.getD s.bi dummyRange).no_records ∧
        st = (rb.getD s.bi dummyRange).stable) ∧
      (type = .kDelete → dep = [] ∧ nr = false ∧ st = false) := by
    cases type
    · refine ⟨(rb.getD s.bi dummyRange).dependence,
        (rb.getD s.bi dummyRange).no_records,
        (rb.getD s.bi dummyRange).stable, ?_, ?_, ?_⟩
      · rw [pstepEq3 hab hbb hac hbc]
        simp [putLeft, putDepend, openAt, hbKey, hbInc]
      · exact fun _ => ⟨rfl, rfl, rfl⟩
      · intro h
        exact absurd h (by simp)
    · refine ⟨[], false, false, ?_, ?_, ?_⟩
      · rw [pstepEq3 hab hbb hac hbc]
        simp [putLeft, putDepend, openAt, hbKey, hbInc]
      · intro h
        exact absurd h (by simp)
      · exact fun _ => ⟨rfl, rfl, rfl⟩
  have hev : bev rb s = lcut (rb.getD s.bi dummyRange) := by simp [bev, hbb]
  have heaA : s.ai < ra.length →
      cutLe (lcut (rb.getD s.bi dummyRange)) (lcut (ra.getD s.ai dummyRange)) := by
    intro hai2
    have h2 := cval_nonneg_cutLe hai2 hbi hbc
    simpa [aev, bev, hab, hbb] using h2
  have hcl := hinv.hclosed (by simp [hab, hbb])
  have hrest : ∀ r ∈ s.output,
      cutLe (rcut r) (lcut (rb.getD s.bi dummyRange)) := by
    refine chainRev_all_le hcl.1 ?_
    intro r hr
    have h2 := (hcl.2 r hr).2 hbi
    simpa [bev, hbb] using h2
  rw [hS]
  refine PInv.mk hinv.haiLe hinv.hbiLe (fun h => nomatch h) (fun _ => hbi)
    (fun h => nomatch h) ?_ ?_ (fun h => nomatch h) ?_ ?_ ?_ ?_
  · -- hinB
    intro _ hai2
    have h2 := heaA hai2
    simpa [aev, lcut] using h2
  · -- hhistA
    intro _ h1 _
    have h2 := hinv.hhistA hab h1 hbi
    rw [hev] at h2
    have h3 := cutLe_trans h2 (cutLe_of_cutLt hfbv)
    simpa [bev] using h3
  · -- hopen
    intro _
    refine ⟨_, _, rfl, ?_⟩
    refine ⟨hcl.1, ?_, ?_, ?_, ?_, ?_, ?_, ?_, ?_, ?_⟩
    · intro r hr
      simpa [lcut] using hrest r hr
    · intro hai2
      have h2 := heaA hai2
      simpa [aev, lcut] using h2
    · intro _
      have h2 := cutLe_of_cutLt hfbv
      simpa [bev, lcut] using h2
    · intro _ h1
      have h2 := hinv.hhistA hab h1 hbi
      rw [hev] at h2
      simpa [lcut] using h2
    · intro h
      exact nomatch h
    · intro h
      exact nomatch h
    · intro _
      exact cutLe_refl _
    · -- DependOK
      cases type
      · obtain ⟨e1, e2, e3⟩ := hTM rfl
        subst e1
        subst e2
        subst e3
        refine ⟨?_, ?_, ?_⟩
        · exact fun h _ => nomatch h
        · exact fun h _ => nomatch h
        · exact fun _ _ => ⟨rfl, rfl, rfl⟩
      · obtain ⟨e1, e2, e3⟩ := hTD rfl
        subst e1
        subst e2
        subst e3
        refine ⟨?_, ?_⟩
        · exact fun h _ => nomatch h
        · exact fun _ => rfl
    · -- SourceOK
      refine ⟨?_, ?_⟩
      · intro i hi
        simp at hi
      · intro j hj
        simp only [Option.some.injEq, Prod.mk.injEq, true_and] at hj
        subst hj
        exact ⟨rfl, rfl, rfl, rfl⟩
  · -- hclosed (vacuous)
    intro h
    simp at h
  · -- hattr
    intro o ho
    refine hinv.hattr o ?_
    simpa [closedPart, hab, hbb] using ho
  · -- hcov
    intro hNSa hNSb hDa hDb x hst
    have hstB : ¬ cutLE (rcut (rb.getD s.bi dummyRange)) x := by
      have h2 := hst.2 hbi
      simpa [bev] using h2
    have hstA : s.ai < ra.length →
        ¬ cutLE (lcut (ra.getD s.ai dummyRange)) x := by
      intro hai2
      have h2 := hst.1 hai2
      simpa [aev] using h2
    by_cases hreg : cutLE (lcut (rb.getD s.bi dummyRange)) x
    · have hcrb : covers rb x := covers_of_getD hbi hreg hstB
      cases type
      · obtain ⟨e1, _, _⟩ := hTM rfl
        have hdep : dep ≠ [] := by
          rw [e1]
          exact depsNE_getD (hDb rfl) hbi
        refine iff_of_true ?_ (Or.inr hcrb)
        simp only [covState, covers_cons]
        exact Or.inr ⟨hdep, hreg⟩
      · obtain ⟨e1, _, _⟩ := hTD rfl
        refine iff_of_false ?_ ?_
        · simp only [covState]
          rintro (h | ⟨h1, _⟩)
          · exact not_covers_of_all_rcut_le hrest hreg h
          · exact h1 e1
        · rintro ⟨_, h2⟩
          exact h2 hcrb
    · have hsetOld : settled ra rb s x :=
        ⟨fun hai2 => by simpa [aev, hab] using hstA hai2,
         fun _ => by simpa [bev, hbb] using hreg⟩
      have hold := hinv.hcov hNSa hNSb hDa hDb x hsetOld
      simp only [covState, hab, hbb, Bool.or_self] at hold
      simp only [covState, covers_cons]
      rw [← hold]
      constructor
      · rintro (h | ⟨_, h2⟩)
        · exact h
        · exact absurd h2 hreg
      · exact fun h => Or.inl h

theorem pstep_case4 {ra rb : List RangeWithDepend} {type : PartitionType}
    {s : PartState} (hWA : WFRanges ra) (hWB : WFRanges rb)
    (hinv : PInv ra rb type s)
    (hab : s.ab = false) (hbb : s.bb = true)
    (hac : ¬ cval ra rb s ≤ 0) (hbc : (0 : Int) ≤ cval ra rb s) :
    PInv ra rb type (partStep ra rb type s) := by
  have hbi : s.bi < rb.length := hinv.hbbLt hbb
  have hbKey : bKeyOf rb s = (rb.getD s.bi dummyRange).point1 := by
    simp [bKeyOf, hbb]
  have hbInc : bIncOf rb s = (rb.getD s.bi dummyRange).include1 := by
    simp [bIncOf, hbb]
  have hrc : (⟨bKeyOf rb s, bIncOf rb s⟩ : Cut) =
      rcut (rb.getD s.bi dummyRange) := by
    simp [rcut, hbKey, hbInc]
  obtain ⟨op, rest, hout, hOK⟩ := hinv.hopen (by simp [hbb])
  obtain ⟨hOK1, hOK2, hOK3, hOK4, hOK5, hOK6, hOK7, hOK8, hOK9, hOK10⟩ := hOK
  have hev : bev rb s = rcut (rb.getD s.bi dummyRange) := by simp [bev, hbb]
  have hlev : cutLe (lcut op) (rcut (rb.getD s.bi dummyRange)) := by
    have h2 := hOK4 hbi
    rwa [hev] at h2
  have heaA : s.ai < ra.length →
      cutLe (rcut (rb.getD s.bi dummyRange)) (lcut (ra.getD s.ai dummyRange)) := by
    intro hai2
    have h2 := cval_nonneg_cutLe hai2 hbi hbc
    simpa [aev, bev, hab, hbb] using h2
  rw [pstepEq4 hab hbb hac hbc]
  rcases putRight_cases (bKeyOf rb s) (bIncOf rb s) (some (true, s.bi)) s op
      rest hout with ⟨hpr, hdrop⟩ | ⟨hpr, hne, hncol, hnemp⟩
  · -- the closing interval is dropped
    rw [hpr]
    refine PInv.mk hinv.haiLe ?_ (fun h => nomatch h) (fun h => nomatch h)
      (fun h => nomatch h) (fun h => nomatch h) ?_ ?_ (fun h => nomatch h)
      ?_ ?_ ?_
    · show s.bi + 1 ≤ rb.length
      omega
    · -- hhistA
      intro _ h1 hbi1
      have h2 := hinv.hhistA hab h1 hbi
      rw [hev] at h2
      have h3 := cutLe_trans h2 (WF_step hWB hbi1)
      simpa [bev] using h3
    · -- hhistB
      intro _ _ hai1
      have h2 := heaA hai1
      simpa [aev, hab, Nat.add_sub_cancel] using h2
    · -- hclosed
      intro _
      refine ⟨hOK1, ?_⟩
      intro r hr
      have hrcs : cutLe (rcut r) (rcut (rb.getD s.bi dummyRange)) :=
        cutLe_trans (hOK2 r (head?_mem hr)) hlev
      constructor
      · intro hai1
        have h3 := cutLe_trans hrcs (heaA hai1)
        simpa [aev] using h3
      · intro hbi1
        have h3 := cutLe_trans hrcs (WF_step hWB hbi1)
        simpa [bev] using h3
    · -- hattr
      intro o ho
      refine hinv.hattr o ?_
      have ho2 : o ∈ rest := by simpa [closedPart] using ho
      simp only [closedPart, hout, hbb, Bool.or_true, if_true, List.tail_cons]
      exact ho2
    · -- hcov
      intro hNSa hNSb hDa hDb x hst
      have hstA2 : s.ai < ra.length →
          ¬ cutLE (lcut (ra.getD s.ai dummyRange)) x := by
        intro h
        have h2 := hst.1 h
        simpa [aev] using h2
      have hstB2 : s.bi + 1 < rb.length →
          ¬ cutLE (lcut (rb.getD (s.bi + 1) dummyRange)) x := by
        intro h
        have h2 := hst.2 h
        simpa [bev] using h2
      have hnra : cutLE (rcut (rb.getD s.bi dummyRange)) x → ¬ covers ra x := by
        intro hreg
        refine not_covers_slab hWA (i := s.ai)
          (c := rcut (rb.getD s.bi dummyRange)) ?_ hinv.haiLe hreg hstA2
        intro h1
        have h2 := hinv.hhistA hab h1 hbi
        rwa [hev] at h2
      have hnrb : cutLE (rcut (rb.getD s.bi dummyRange)) x → ¬ covers rb x := by
        intro hreg
        refine not_covers_slab hWB (i := s.bi + 1)
          (c := rcut (rb.getD s.bi dummyRange)) ?_ (by omega) hreg hstB2
        intro _
        simp only [Nat.add_sub_cancel]
        exact cutLe_refl _
      have hcrest : cutLE (rcut (rb.getD s.bi dummyRange)) x →
          ¬ covers rest x := fun hreg =>
        not_covers_of_all_rcut_le
          (fun r hr => cutLe_trans (hOK2 r hr) hlev) hreg
      rcases hdrop with hd | hd | hd
      · -- empty dependence
        cases type
        · -- MERGE: contradicts DepsNE via DependOK
          exfalso
          have h9 := hOK9
          simp only [DependOK] at h9
          have he := (h9.2.2 hab hbb).1
          exact depsNE_getD (hDb rfl) hbi (by rw [← he]; exact hd)
        · -- DELETE: a b-covered open interval is legitimately dropped
          have h9 := hOK9
          simp only [DependOK] at h9
          by_cases hreg : cutLE (rcut (rb.getD s.bi dummyRange)) x
          · refine iff_of_false ?_ ?_
            · simpa [covState] using hcrest hreg
            · rintro ⟨h, _⟩
              exact hnra hreg h
          · have hsetOld : settled ra rb s x :=
              ⟨fun hai2 => by simpa [aev, hab] using hstA2 hai2,
               fun _ => by simpa [bev, hbb] using hreg⟩
            have hold := hinv.hcov hNSa hNSb hDa hDb x hsetOld
            simp only [covState, hout, hab, hbb, Bool.or_true,
              if_true] at hold
            simp only [covState]
            rw [← hold]
            constructor
            · exact fun h => Or.inl h
            · rintro (h | ⟨hne2, _⟩)
              · exact h
              · exact absurd (h9.2 hbb) hne2
      · -- empty-interval collapse
        have hcle := collapse_cutLe hd
        rw [hrc] at hcle
        have heq : lcut op = rcut (rb.getD s.bi dummyRange) :=
          cutLe_antisymm hlev hcle
        by_cases hreg : cutLE (rcut (rb.getD s.bi dummyRange)) x
        · refine iff_of_false ?_ ?_
          · simpa [covState] using hcrest hreg
          · cases type
            · rintro (h | h)
              · exact hnra hreg h
              · exact hnrb hreg h
            · rintro ⟨h, _⟩
              exact hnra hreg h
        · have hsetOld : settled ra rb s x :=
            ⟨fun hai2 => by simpa [aev, hab] using hstA2 hai2,
             fun _ => by simpa [bev, hbb] using hreg⟩
          have hold := hinv.hcov hNSa hNSb hDa hDb x hsetOld
          simp only [covState, hout, hab, hbb, Bool.or_true, if_true] at hold
          have hlx : ¬ cutLE (lcut op) x := by
            rw [heq]
            exact hreg
          simp only [covState]
          rw [← hold]
          constructor
          · exact fun h => Or.inl h
          · rintro (h | ⟨_, h2⟩)
            · exact h
            · exact absurd h2 hlx
      · -- sentinel-footer drop contradicts NoSentinel
        exfalso
        have hseq := isEmpty_seq hd
        have h2 : seqOf (rb.getD s.bi dummyRange).point1 =
            kMaxSequenceNumber := by
          simpa [hbKey] using hseq
        exact (noSentinel_getD hNSb hbi).2 h2
  · -- the closing interval is kept
    rw [hpr]
    generalize hstK : (if s.source = none ∨ some (true, s.bi) = none ∨
      s.source ≠ some (true, s.bi) then false else op.stable) = stK
    have hvop : validRange (closeAt op (bKeyOf rb s) (bIncOf rb s) stK) := by
      have h2 : cutLt (lcut op) (⟨bKeyOf rb s, bIncOf rb s⟩ : Cut) :=
        close_valid (by rw [hrc]; exact hlev) hncol
      rw [validRange, lcut_closeAt, rcut_closeAt]
      exact h2
    have hrcc : rcut (closeAt op (bKeyOf rb s) (bIncOf rb s) stK) =
        rcut (rb.getD s.bi dummyRange) := by
      rw [rcut_closeAt, hrc]
    refine PInv.mk hinv.haiLe ?_ (fun h => nomatch h) (fun h => nomatch h)
      (fun h => nomatch h) (fun h => nomatch h) ?_ ?_ (fun h => nomatch h)
      ?_ ?_ ?_
    · show s.bi + 1 ≤ rb.length
      omega
    · -- hhistA
      intro _ h1 hbi1
      have h2 := hinv.hhistA hab h1 hbi
      rw [hev] at h2
      have h3 := cutLe_trans h2 (WF_step hWB hbi1)
      simpa [bev] using h3
    · -- hhistB
      intro _ _ hai1
      have h2 := heaA hai1
      simpa [aev, hab, Nat.add_sub_cancel] using h2
    · -- hclosed
      intro _
      constructor
      · exact chainRev_cons hvop hOK1 (fun q hq => hOK2 q (head?_mem hq))
      · intro r hr
        have hre : closeAt op (bKeyOf rb s) (bIncOf rb s) stK = r := by
          simpa using hr
        subst hre
        constructor
        · intro hai1
          have h2 := heaA hai1
          rw [← hrcc] at h2
          simpa [aev] using h2
        · intro hbi1
          have h2 := WF_step hWB hbi1
          rw [← hrcc] at h2
          simpa [bev] using h2
    · -- hattr
      intro o ho
      have ho2 : o ∈ (closeAt op (bKeyOf rb s) (bIncOf rb s) stK :: rest) := by
        simpa [closedPart] using ho
      rcases List.mem_cons.mp ho2 with rfl | hmem
      · cases type
        · have h9 := hOK9
          simp only [DependOK] at h9
          obtain ⟨e1, e2, e3⟩ := h9.2.2 hab hbb
          refine Or.inr (Or.inr ⟨s.bi, hbi, ⟨?_, ?_⟩, ?_, ?_, ?_, ?_⟩)
          · rw [lcut_closeAt]
            exact hOK8 hbb
          · rw [hrcc]
            exact cutLe_refl _
          · -- disjoint from every a-interval
            intro i hi2
            rcases Nat.lt_or_ge i s.ai with hia | hia
            · refine Or.inr ?_
              have hale := hinv.haiLe
              have h2 : cutLe (rcut (ra.getD i dummyRange))
                  (rcut (ra.getD (s.ai - 1) dummyRange)) :=
                WF_rcut_mono hWA (by omega) (by omega)
              rw [lcut_closeAt]
              exact cutLe_trans h2 (hOK5 hab (by omega))
            · refine Or.inl ?_
              have hai2 : s.ai < ra.length := Nat.lt_of_le_of_lt hia hi2
              rw [hrcc]
              exact cutLe_trans (heaA hai2) (WF_lcut_mono hWA hia hi2)
          · rw [deps_closeAt]
            exact e1
          · rw [norec_closeAt]
            exact e2
          · intro hstab
            rw [stable_closeAt] at hstab
            subst hstab
            by_cases hc : s.source = none ∨ some (true, s.bi) = none ∨
                s.source ≠ some (true, s.bi)
            · rw [if_pos hc] at hstK
              exact absurd hstK.symm (by simp)
            · rw [if_neg hc] at hstK
              push_neg at hc
              obtain ⟨_, _, hsrc⟩ := hc
              obtain ⟨_, _, hp0, hi0⟩ := hOK10.2 s.bi hsrc
              have hgoal : closeAt op (bKeyOf rb s) (bIncOf rb s) true =
                  RangeWithDepend.mk (rb.getD s.bi dummyRange).point0
                    (rb.getD s.bi dummyRange).point1
                    (rb.getD s.bi dummyRange).include0
                    (rb.getD s.bi dummyRange).include1
                    (rb.getD s.bi dummyRange).no_records
                    (rb.getD s.bi dummyRange).stable
                    (rb.getD s.bi dummyRange).dependence := by
                rw [closeAt]
                simp only [RangeWithDepend.mk.injEq]
                refine ⟨hp0, hbKey, hi0, hbInc, e2, ?_, e1⟩
                rw [← e3, ← hstK]
              exact hgoal
        · trivial
      · refine hinv.hattr o ?_
        simp only [closedPart, hout, hbb, Bool.or_true, if_true,
          List.tail_cons]
        exact hmem
    · -- hcov
      intro hNSa hNSb hDa hDb x hst
      have hstA2 : s.ai < ra.length →
          ¬ cutLE (lcut (ra.getD s.ai dummyRange)) x := by
        intro h
        have h2 := hst.1 h
        simpa [aev] using h2
      have hstB2 : s.bi + 1 < rb.length →
          ¬ cutLE (lcut (rb.getD (s.bi + 1) dummyRange)) x := by
        intro h
        have h2 := hst.2 h
        simpa [bev] using h2
      have hnra : cutLE (rcut (rb.getD s.bi dummyRange)) x → ¬ covers ra x := by
        intro hreg
        refine not_covers_slab hWA (i := s.ai)
          (c := rcut (rb.getD s.bi dummyRange)) ?_ hinv.haiLe hreg hstA2
        intro h1
        have h2 := hinv.hhistA hab h1 hbi
        rwa [hev] at h2
      have hnrb : cutLE (rcut (rb.getD s.bi dummyRange)) x → ¬ covers rb x := by
        intro hreg
        refine not_covers_slab hWB (i := s.bi + 1)
          (c := rcut (rb.getD s.bi dummyRange)) ?_ (by omega) hreg hstB2
        intro _
        simp only [Nat.add_sub_cancel]
        exact cutLe_refl _
      have hcrest : cutLE (rcut (rb.getD s.bi dummyRange)) x →
          ¬ covers rest x := fun hreg =>
        not_covers_of_all_rcut_le
          (fun r hr => cutLe_trans (hOK2 r hr) hlev) hreg
      by_cases hreg : cutLE (rcut (rb.getD s.bi dummyRange)) x
      · refine iff_of_false ?_ ?_
        · simp only [covState, covers_cons]
          rintro (h | h)
          · refine h.2 ?_
            rw [hrcc]
            exact hreg
          · exact hcrest hreg h
        · cases type
          · rintro (h | h)
            · exact hnra hreg h
            · exact hnrb hreg h
          · rintro ⟨h, _⟩
            exact hnra hreg h
      · have hsetOld : settled ra rb s x :=
          ⟨fun hai2 => by simpa [aev, hab] using hstA2 hai2,
           fun _ => by simpa [bev, hbb] using hreg⟩
        have hold := hinv.hcov hNSa hNSb hDa hDb x hsetOld
        simp only [covState, hout, hab, hbb, Bool.or_true, if_true] at hold
        simp only [covState, covers_cons]
        rw [← hold]
        constructor
        · rintro (h | h)
          · refine Or.inr ⟨hne, ?_⟩
            have h2 := h.1
            rwa [lcut_closeAt] at h2
          · exact Or.inl h
        · rintro (h | ⟨_, h2⟩)
          · exact Or.inr h
          · refine Or.inl ⟨?_, ?_⟩
            · rw [lcut_closeAt]
              exact h2
            · intro hcx
              rw [hrcc] at hcx
              exact hreg hcx

theorem pstep_case5 {ra rb : List RangeWithDepend} {type : PartitionType}
    {s : PartState} (hWA : WFRanges ra) (hWB : WFRanges rb)
    (hinv : PInv ra rb type s)
    (hab : s.ab = true) (hbb : s.bb = false)
    (hac : ¬ cval ra rb s ≤ 0) (hbc : (0 : Int) ≤ cval ra rb s) :
    PInv ra rb type (partStep ra rb type s) := by
  have hai : s.ai < ra.length := hinv.habLt hab
  have hbi : s.bi < rb.length := bi_lt_of_cval_nonneg (Or.inl hai) hbc
  have hfav : validRange (ra.getD s.ai dummyRange) := WF_valid hWA hai
  have hfbv : validRange (rb.getD s.bi dummyRange) := WF_valid hWB hbi
  have hbKey : bKeyOf rb s = (rb.getD s.bi dummyRange).point0 := by
    simp [bKeyOf, hbb]
  have hbInc : bIncOf rb s = (rb.getD s.bi dummyRange).include0 := by
    simp [bIncOf, hbb]
  have hrc : (⟨bKeyOf rb s, !bIncOf rb s⟩ : Cut) =
      lcut (rb.getD s.bi dummyRange) := by
    simp [lcut, hbKey, hbInc]
  obtain ⟨op, rest, hout, hOK⟩ := hinv.hopen (by simp [hab])
  obtain ⟨hOK1, hOK2, hOK3, hOK4, hOK5, hOK6, hOK7, hOK8, hOK9, hOK10⟩ := hOK
  have hevA : aev ra s = rcut (ra.getD s.ai dummyRange) := by simp [aev, hab]
  have hevB : bev rb s = lcut (rb.getD s.bi dummyRange) := by simp [bev, hbb]
  have hlev : cutLe (lcut op) (lcut (rb.getD s.bi dummyRange)) := by
    have h2 := hOK4 hbi
    rwa [hevB] at h2
  have hba : cutLe (lcut (rb.getD s.bi dummyRange))
      (rcut (ra.getD s.ai dummyRange)) := by
    have h2 := cval_nonneg_cutLe hai hbi hbc
    rwa [hevA, hevB] at h2
  have hlfa : cutLe (lcut (ra.getD s.ai dummyRange)) (lcut op) := hOK7 hab
  rw [pstepEq5 hab hbb hac hbc]
  rcases putRight_cases (bKeyOf rb s) (!bIncOf rb s) none s op
      rest hout with ⟨hpr, hdrop⟩ | ⟨hpr, hne, hncol, hnemp⟩
  · -- the previously open interval is dropped at the b-boundary
    obtain ⟨dep, nr, st, hS, hTM, hTD⟩ : ∃ dep nr st,
        ({ putDepend type (some (ra.getD s.ai dummyRange))
            (some (rb.getD s.bi dummyRange))
            (putLeft (bKeyOf rb s) (bIncOf rb s) (some (true, s.bi))
              (putRight (bKeyOf rb s) (!bIncOf rb s) none s)) with
          ai := s.ai, bi := s.bi, ab := true, bb := true } : PartState) =
        { ai := s.ai, bi := s.bi, ab := true, bb := true,
          output := openAt (rb.getD s.bi dummyRange).point0
              (rb.getD s.bi dummyRange).include0 dep nr st :: rest,
          source := some (true, s.bi) } ∧
        (type = .kMerge → dep = (ra.getD s.ai dummyRange).dependence ++
          (rb.getD s.bi dummyRange).dependence ∧ nr = false ∧ st = false) ∧
        (type = .kDelete → dep = [] ∧ nr = false ∧ st = false) := by
      cases type
      · refine ⟨(ra.getD s.ai dummyRange).dependence ++
          (rb.getD s.bi dummyRange).dependence, false, false, ?_, ?_, ?_⟩
        · rw [hpr]
          simp [putLeft, putDepend, openAt, hbKey, hbInc]
        · exact fun _ => ⟨rfl, rfl, rfl⟩
        · intro h
          exact absurd h (by simp)
      · refine ⟨[], false, false, ?_, ?_, ?_⟩
        · rw [hpr]
          simp [putLeft, putDepend, openAt, hbKey, hbInc]
        · intro h
          exact absurd h (by simp)
        · exact fun _ => ⟨rfl, rfl, rfl⟩
    rw [hS]
    refine PInv.mk hinv.haiLe hinv.hbiLe (fun _ => hai) (fun _ => hbi)
      ?_ ?_ (fun h => nomatch h) (fun h => nomatch h) ?_ ?_ ?_ ?_
    · -- hinA
      intro _ _
      have h2 := cutLe_trans hlfa (cutLe_trans hlev (cutLe_of_cutLt hfbv))
      simpa [bev] using h2
    · -- hinB
      intro _ _
      simpa [aev] using hba
    · -- hopen
      intro _
      refine ⟨_, _, rfl, ?_⟩
      refine ⟨hOK1, ?_, ?_, ?_, ?_, ?_, ?_, ?_, ?_, ?_⟩
      · intro r hr
        have h2 := cutLe_trans (hOK2 r hr) hlev
        simpa [lcut] using h2
      · intro _
        simpa [aev, lcut] using hba
      · intro _
        have h2 := cutLe_of_cutLt hfbv
        simpa [bev, lcut] using h2
      · intro h
        exact nomatch h
      · intro h
        exact nomatch h
      · intro _
        have h2 := cutLe_trans hlfa hlev
        simpa [lcut] using h2
      · intro _
        exact cutLe_refl _
      · -- DependOK
        cases type
        · refine ⟨?_, ?_, ?_⟩
          · exact fun _ _ => ⟨(hTM rfl).1, (hTM rfl).2.2⟩
          · exact fun _ h => nomatch h
          · exact fun h _ => nomatch h
        · refine ⟨?_, ?_⟩
          · exact fun _ h => nomatch h
          · exact fun _ => (hTD rfl).1
      · -- SourceOK
        refine ⟨?_, ?_⟩
        · intro i hi
          simp at hi
        · intro j hj
          simp only [Option.some.injEq, Prod.mk.injEq, true_and] at hj
          subst hj
          exact ⟨rfl, rfl, rfl, rfl⟩
    · -- hclosed (vacuous)
      intro h
      simp at h
    · -- hattr
      intro o ho
      refine hinv.hattr o ?_
      have ho2 : o ∈ rest := by simpa [closedPart] using ho
      simp only [closedPart, hout, hab, Bool.true_or, if_true, List.tail_cons]
      exact ho2
    · -- hcov
      intro hNSa hNSb hDa hDb x hst
      have hstA2 : ¬ cutLE (rcut (ra.getD s.ai dummyRange)) x := by
        have h2 := hst.1 hai
        simpa [aev] using h2
      have hstB2 : ¬ cutLE (rcut (rb.getD s.bi dummyRange)) x := by
        have h2 := hst.2 hbi
        simpa [bev] using h2
      by_cases hreg : cutLE (lcut (rb.getD s.bi dummyRange)) x
      · have hcra : covers ra x :=
          covers_of_getD hai
            (cutLE_mono (cutLe_trans hlfa hlev) hreg) hstA2
        have hcrb : covers rb x := covers_of_getD hbi hreg hstB2
        cases type
        · have hdep : dep ≠ [] := by
            rw [(hTM rfl).1]
            intro hc
            exact depsNE_getD hDa hai (List.append_eq_nil.mp hc).1
          refine iff_of_true ?_ (Or.inl hcra)
          simp only [covState, covers_cons]
          exact Or.inr ⟨hdep, hreg⟩
        · refine iff_of_false ?_ ?_
          · simp only [covState]
            rintro (h | ⟨h1, _⟩)
            · refine not_covers_of_all_rcut_le
                (fun r hr => cutLe_trans (hOK2 r hr) hlev) hreg h
            · exact h1 (hTD rfl).1
          · rintro ⟨_, h2⟩
            exact h2 hcrb
      · have hsetOld : settled ra rb s x :=
          ⟨fun _ => by simpa [aev, hab] using hstA2,
           fun _ => by simpa [bev, hbb] using hreg⟩
        have hold := hinv.hcov hNSa hNSb hDa hDb x hsetOld
        simp only [covState, hout, hab, hbb, Bool.true_or, if_true] at hold
        simp only [covState, covers_cons]
        rw [← hold]
        rcases hdrop with hd | hd | hd
        · -- dropped due to empty dependence: cannot happen (a covers here)
          exfalso
          cases type
          · have h9 := hOK9
            simp only [DependOK] at h9
            exact depsNE_getD hDa hai
              (by rw [← (h9.2.1 hab hbb).1]; exact hd)
          · have h9 := hOK9
            simp only [DependOK] at h9
            exact depsNE_getD hDa hai
              (by rw [← (h9.1 hab hbb).1]; exact hd)
        · -- collapse: the open interval began exactly at the b-boundary
          have hcle := collapse_cutLe hd
          rw [hrc] at hcle
          have heq : lcut op = lcut (rb.getD s.bi dummyRange) :=
            cutLe_antisymm hlev hcle
          constructor
          · rintro (h | ⟨_, h2⟩)
            · exact Or.inl h
            · exact absurd h2 hreg
          · rintro (h | ⟨_, h2⟩)
            · exact Or.inl h
            · exact absurd h2 (by rw [heq]; exact hreg)
        · -- sentinel drop: contradicts NoSentinel
          exfalso
          have hseq := isEmpty_seq hd
          have h2 : seqOf (rb.getD s.bi dummyRange).point0 =
              kMaxSequenceNumber := by
            simpa [hbKey] using hseq
          exact (noSentinel_getD hNSb hbi).1 h2
  · -- the previously open interval is kept, closed at the b-boundary
    have hstf : (if s.source = none ∨ (none : Option (Bool × Nat)) = none ∨
        s.source ≠ (none : Option (Bool × Nat)) then false
        else op.stable) = false := by simp
    rw [hstf] at hpr
    obtain ⟨dep, nr, st, hS, hTM, hTD⟩ : ∃ dep nr st,
        ({ putDepend type (some (ra.getD s.ai dummyRange))
            (some (rb.getD s.bi dummyRange))
            (putLeft (bKeyOf rb s) (bIncOf rb s) (some (true, s.bi))
              (putRight (bKeyOf rb s) (!bIncOf rb s) none s)) with
          ai := s.ai, bi := s.bi, ab := true, bb := true } : PartState) =
        { ai := s.ai, bi := s.bi, ab := true, bb := true,
          output := openAt (rb.getD s.bi dummyRange).point0
              (rb.getD s.bi dummyRange).include0 dep nr st ::
            closeAt op (bKeyOf rb s) (!bIncOf rb s) false :: rest,
          source := some (true, s.bi) } ∧
        (type = .kMerge → dep = (ra.getD s.ai dummyRange).dependence ++
          (rb.getD s.bi dummyRange).dependence ∧ nr = false ∧ st = false) ∧
        (type = .kDelete → dep = [] ∧ nr = false ∧ st = false) := by
      cases type
      · refine ⟨(ra.getD s.ai dummyRange).dependence ++
          (rb.getD s.bi dummyRange).dependence, false, false, ?_, ?_, ?_⟩
        · rw [hpr]
          simp [putLeft, putDepend, openAt, hbKey, hbInc]
        · exact fun _ => ⟨rfl, rfl, rfl⟩
        · intro h
          exact absurd h (by simp)
      · refine ⟨[], false, false, ?_, ?_, ?_⟩
        · rw [hpr]
          simp [putLeft, putDepend, openAt, hbKey, hbInc]
        · intro h
          exact absurd h (by simp)
        · exact fun _ => ⟨rfl, rfl, rfl⟩
    rw [hS]
    have hvop : validRange (closeAt op (bKeyOf rb s) (!bIncOf rb s) false) := by
      have h2 : cutLt (lcut op) (⟨bKeyOf rb s, !bIncOf rb s⟩ : Cut) :=
        close_valid (by rw [hrc]; exact hlev) hncol
      rw [validRange, lcut_closeAt, rcut_closeAt]
      exact h2
    have hrcc : rcut (closeAt op (bKeyOf rb s) (!bIncOf rb s) false) =
        lcut (rb.getD s.bi dummyRange) := by
      rw [rcut_closeAt, hrc]
    refine PInv.mk hinv.haiLe hinv.hbiLe (fun _ => hai) (fun _ => hbi)
      ?_ ?_ (fun h => nomatch h) (fun h => nomatch h) ?_ ?_ ?_ ?_
    · -- hinA
      intro _ _
      have h2 := cutLe_trans hlfa (cutLe_trans hlev (cutLe_of_cutLt hfbv))
      simpa [bev] using h2
    · -- hinB
      intro _ _
      simpa [aev] using hba
    · -- hopen
      intro _
      refine ⟨_, _, rfl, ?_⟩
      refine ⟨?_, ?_, ?_, ?_, ?_, ?_, ?_, ?_, ?_, ?_⟩
      · exact chainRev_cons hvop hOK1 (fun q hq => hOK2 q (head?_mem hq))
      · intro r hr
        rcases List.mem_cons.mp hr with rfl | hr2
        · rw [hrcc]
          exact cutLe_refl _
        · have h2 := cutLe_trans (hOK2 r hr2) hlev
          simpa [lcut] using h2
      · intro _
        simpa [aev, lcut] using hba
      · intro _
        have h2 := cutLe_of_cutLt hfbv
        simpa [bev, lcut] using h2
      · intro h
        exact nomatch h
      · intro h
        exact nomatch h
      · intro _
        have h2 := cutLe_trans hlfa hlev
        simpa [lcut] using h2
      · intro _
        exact cutLe_refl _
      · -- DependOK
        cases type
        · refine ⟨?_, ?_, ?_⟩
          · exact fun _ _ => ⟨(hTM rfl).1, (hTM rfl).2.2⟩
          · exact fun _ h => nomatch h
          · exact fun h _ => nomatch h
        · refine ⟨?_, ?_⟩
          · exact fun _ h => nomatch h
          · exact fun _ => (hTD rfl).1
      · -- SourceOK
        refine ⟨?_, ?_⟩
        · intro i hi
          simp at hi
        · intro j hj
          simp only [Option.some.injEq, Prod.mk.injEq, true_and] at hj
          subst hj
          exact ⟨rfl, rfl, rfl, rfl⟩
    · -- hclosed (vacuous)
      intro h
      simp at h
    · -- hattr
      intro o ho
      have ho2 : o ∈ (closeAt op (bKeyOf rb s) (!bIncOf rb s) false :: rest) := by
        simpa [closedPart] using ho
      rcases List.mem_cons.mp ho2 with rfl | hmem
      · cases type
        · have h9 := hOK9
          simp only [DependOK] at h9
          obtain ⟨e1, e2, e3⟩ := h9.2.1 hab hbb
          refine Or.inr (Or.inl ⟨s.ai, hai, ⟨?_, ?_⟩, ?_, ?_, ?_, ?_⟩)
          · rw [lcut_closeAt]
            exact hlfa
          · rw [hrcc]
            exact hba
          · intro j hj
            rcases Nat.lt_or_ge j s.bi with hji | hji
            · refine Or.inr ?_
              have hble := hinv.hbiLe
              have h2 : cutLe (rcut (rb.getD j dummyRange))
                  (rcut (rb.getD (s.bi - 1) dummyRange)) :=
                WF_rcut_mono hWB (by omega) (by omega)
              rw [lcut_closeAt]
              exact cutLe_trans h2 (hOK6 hbb (by omega))
            · refine Or.inl ?_
              rw [hrcc]
              exact WF_lcut_mono hWB hji hj
          · rw [deps_closeAt]
            exact e1
          · rw [norec_closeAt]
            exact e2
          · intro hstab
            rw [stable_closeAt] at hstab
            exact absurd hstab (by simp)
        · trivial
      · refine hinv.hattr o ?_
        simp only [closedPart, hout, hab, Bool.true_or, if_true,
          List.tail_cons]
        exact hmem
    · -- hcov
      intro hNSa hNSb hDa hDb x hst
      have hstA2 : ¬ cutLE (rcut (ra.getD s.ai dummyRange)) x := by
        have h2 := hst.1 hai
        simpa [aev] using h2
      have hstB2 : ¬ cutLE (rcut (rb.getD s.bi dummyRange)) x := by
        have h2 := hst.2 hbi
        simpa [bev] using h2
      by_cases hreg : cutLE (lcut (rb.getD s.bi dummyRange)) x
      · have hcra : covers ra x :=
          covers_of_getD hai
            (cutLE_mono (cutLe_trans hlfa hlev) hreg) hstA2
        have hcrb : covers rb x := covers_of_getD hbi hreg hstB2
        cases type
        · have hdep : dep ≠ [] := by
            rw [(hTM rfl).1]
            intro hc
            exact depsNE_getD hDa hai (List.append_eq_nil.mp hc).1
          refine iff_of_true ?_ (Or.inl hcra)
          simp only [covState, covers_cons]
          exact Or.inr ⟨hdep, hreg⟩
        · refine iff_of_false ?_ ?_
          · simp only [covState, covers_cons]
            rintro ((h | h) | ⟨h1, _⟩)
            · refine h.2 ?_
              rw [hrcc]
              exact hreg
            · exact not_covers_of_all_rcut_le
                (fun r hr => cutLe_trans (hOK2 r hr) hlev) hreg h
            · exact h1 (hTD rfl).1
          · rintro ⟨_, h2⟩
            exact h2 hcrb
      · have hsetOld : settled ra rb s x :=
          ⟨fun _ => by simpa [aev, hab] using hstA2,
           fun _ => by simpa [bev, hbb] using hreg⟩
        have hold := hinv.hcov hNSa hNSb hDa hDb x hsetOld
        simp only [covState, hout, hab, hbb, Bool.true_or, if_true] at hold
        simp only [covState, covers_cons]
        rw [← hold]
        constructor
        · rintro ((h | h) | ⟨_, h2⟩)
          · refine Or.inr ⟨hne, ?_⟩
            have h2 := h.1
            rwa [lcut_closeAt] at h2
          · exact Or.inl h
          · exact absurd h2 hreg
        · rintro (h | ⟨hne2, h2⟩)
          · exact Or.inl (Or.inr h)
          · refine Or.inl (Or.inl ⟨?_, ?_⟩)
            · rw [lcut_closeAt]
              exact h2
            · intro hcx
              rw [hrcc] at hcx
              exact hreg hcx

theorem pstep_case6 {ra rb : List RangeWithDepend} {type : PartitionType}
    {s : PartState} (hWA : WFRanges ra) (hWB : WFRanges rb)
    (hinv : PInv ra rb type s)
    (hab : s.ab = true) (hbb : s.bb = true)
    (hac : ¬ cval ra rb s ≤ 0) (hbc : (0 : Int) ≤ cval ra rb s) :
    PInv ra rb type (partStep ra rb type s) := by
  have hai : s.ai < ra.length := hinv.habLt hab
  have hbi : s.bi < rb.length := hinv.hbbLt hbb
  have hbKey : bKeyOf rb s = (rb.getD s.bi dummyRange).point1 := by
    simp [bKeyOf, hbb]
  have hbInc : bIncOf rb s = (rb.getD s.bi dummyRange).include1 := by
    simp [bIncOf, hbb]
  have hrc : (⟨bKeyOf rb s, bIncOf rb s⟩ : Cut) =
      rcut (rb.getD s.bi dummyRange) := by
    simp [rcut, hbKey, hbInc]
  obtain ⟨op, rest, hout, hOK⟩ := hinv.hopen (by simp [hab])
  obtain ⟨hOK1, hOK2, hOK3, hOK4, hOK5, hOK6, hOK7, hOK8, hOK9, hOK10⟩ := hOK
  have hevA : aev ra s = rcut (ra.getD s.ai dummyRange) := by simp [aev, hab]
  have hevB : bev rb s = rcut (rb.getD s.bi dummyRange) := by simp [bev, hbb]
  have hlev : cutLe (lcut op) (rcut (rb.getD s.bi dummyRange)) := by
    have h2 := hOK4 hbi
    rwa [hevB] at h2
  have hba : cutLe (rcut (rb.getD s.bi dummyRange))
      (rcut (ra.getD s.ai dummyRange)) := by
    have h2 := cval_nonneg_cutLe hai hbi hbc
    rwa [hevA, hevB] at h2
  have hlfa : cutLe (lcut (ra.getD s.ai dummyRange)) (lcut op) := hOK7 hab
  have hlO : lcut (openAt (rb.getD s.bi dummyRange).point1
      (!(rb.getD s.bi dummyRange).include1)
      (ra.getD s.ai dummyRange).dependence
      (ra.getD s.ai dummyRange).no_records
      (ra.getD s.ai dummyRange).stable) =
      rcut (rb.getD s.bi dummyRange) := by
    simp [lcut, openAt, rcut]
  rw [pstepEq6 hab hbb hac hbc]
  rcases putRight_cases (bKeyOf rb s) (bIncOf rb s) (some (true, s.bi)) s op
      rest hout with ⟨hpr, hdrop⟩ | ⟨hpr, hne, hncol, hnemp⟩
  · -- the closing interval is dropped at the b-boundary
    have hS : ({ putDepend type (some (ra.getD s.ai dummyRange)) none
        (putLeft (bKeyOf rb s) (!bIncOf rb s) none
          (putRight (bKeyOf rb s) (bIncOf rb s) (some (true, s.bi)) s)) with
        ai := s.ai, bi := s.bi + 1, ab := true, bb := false } : PartState) =
        { ai := s.ai, bi := s.bi + 1, ab := true, bb := false,
          output := openAt (rb.getD s.bi dummyRange).point1
              (!(rb.getD s.bi dummyRange).include1)
              (ra.getD s.ai dummyRange).dependence
              (ra.getD s.ai dummyRange).no_records
              (ra.getD s.ai dummyRange).stable :: rest,
          source := none } := by
      cases type <;>
        (rw [hpr]; simp [putLeft, putDepend, openAt, hbKey, hbInc])
    rw [hS]
    refine PInv.mk hinv.haiLe ?_ (fun _ => hai) (fun h => nomatch h)
      ?_ (fun h => nomatch h) (fun h => nomatch h) ?_ ?_ ?_ ?_ ?_
    · show s.bi + 1 ≤ rb.length
      omega
    · -- hinA
      intro _ hbi1
      have h2 := cutLe_trans hlfa (cutLe_trans hlev (WF_step hWB hbi1))
      simpa [bev] using h2
    · -- hhistB
      intro _ _ _
      simpa [aev, Nat.add_sub_cancel] using hba
    · -- hopen
      intro _
      refine ⟨_, _, rfl, ?_⟩
      refine ⟨hOK1, ?_, ?_, ?_, ?_, ?_, ?_, ?_, ?_, ?_⟩
      · intro r hr
        rw [hlO]
        exact cutLe_trans (hOK2 r hr) hlev
      · intro _
        rw [hlO]
        simpa [aev] using hba
      · intro hbi1
        rw [hlO]
        simpa [bev] using WF_step hWB hbi1
      · intro h
        exact nomatch h
      · intro _ _
        simp only [Nat.add_sub_cancel, hlO]
        exact cutLe_refl _
      · intro _
        rw [hlO]
        exact cutLe_trans hlfa hlev
      · intro h
        exact nomatch h
      · -- DependOK
        cases type
        · refine ⟨?_, ?_, ?_⟩
          · exact fun _ h => nomatch h
          · exact fun _ _ => ⟨rfl, rfl, rfl⟩
          · exact fun h _ => nomatch h
        · refine ⟨?_, ?_⟩
          · exact fun _ _ => ⟨rfl, rfl, rfl⟩
          · exact fun h => nomatch h
      · -- SourceOK
        refine ⟨?_, ?_⟩
        · intro i hi
          simp at hi
        · intro j hj
          simp at hj
    · -- hclosed (vacuous)
      intro h
      simp at h
    · -- hattr
      intro o ho
      refine hinv.hattr o ?_
      have ho2 : o ∈ rest := by simpa [closedPart] using ho
      simp only [closedPart, hout, hab, Bool.true_or, if_true, List.tail_cons]
      exact ho2
    · -- hcov
      intro hNSa hNSb hDa hDb x hst
      have hstA2 : ¬ cutLE (rcut (ra.getD s.ai dummyRange)) x := by
        have h2 := hst.1 hai
        simpa [aev] using h2
      have hstB2 : s.bi + 1 < rb.length →
          ¬ cutLE (lcut (rb.getD (s.bi + 1) dummyRange)) x := by
        intro h
        have h2 := hst.2 h
        simpa [bev] using h2
      by_cases hreg : cutLE (rcut (rb.getD s.bi dummyRange)) x
      · have hregO : cutLE (lcut (openAt (rb.getD s.bi dummyRange).point1
            (!(rb.getD s.bi dummyRange).include1)
            (ra.getD s.ai dummyRange).dependence
            (ra.getD s.ai dummyRange).no_records
            (ra.getD s.ai dummyRange).stable)) x := by
          rw [hlO]
          exact hreg
        have hcra : covers ra x :=
          covers_of_getD hai
            (cutLE_mono (cutLe_trans hlfa hlev) hreg) hstA2
        have hdepO : (ra.getD s.ai dummyRange).dependence ≠ [] :=
          depsNE_getD hDa hai
        cases type
        · refine iff_of_true ?_ (Or.inl hcra)
          simp only [covState]
          exact Or.inr ⟨hdepO, hregO⟩
        · have hnrb : ¬ covers rb x :=
            not_covers_slab hWB (i := s.bi + 1)
              (c := rcut (rb.getD s.bi dummyRange))
              (fun _ => by
                simp only [Nat.add_sub_cancel]
                exact cutLe_refl _)
              (by omega) hreg hstB2
          refine iff_of_true ?_ ⟨hcra, hnrb⟩
          simp only [covState]
          exact Or.inr ⟨hdepO, hregO⟩
      · have hsetOld : settled ra rb s x :=
          ⟨fun _ => by simpa [aev, hab] using hstA2,
           fun _ => by simpa [bev, hbb] using hreg⟩
        have hold := hinv.hcov hNSa hNSb hDa hDb x hsetOld
        simp only [covState, hout, hab, hbb, Bool.true_or, if_true] at hold
        simp only [covState]
        rw [← hold]
        rcases hdrop with hd | hd | hd
        · -- dropped for empty dependence
          cases type
          · exfalso
            have h9 := hOK9
            simp only [DependOK] at h9
            have he := (h9.1 hab hbb).1
            rw [he] at hd
            exact depsNE_getD hDa hai (List.append_eq_nil.mp hd).1
          · have h9 := hOK9
            simp only [DependOK] at h9
            constructor
            · rintro (h | ⟨_, h2⟩)
              · exact Or.inl h
              · exact absurd (by rw [← hlO]; exact h2) hreg
            · rintro (h | ⟨hne2, _⟩)
              · exact Or.inl h
              · exact absurd (h9.2 hbb) hne2
        · -- collapse
          have hcle := collapse_cutLe hd
          rw [hrc] at hcle
          have heq : lcut op = rcut (rb.getD s.bi dummyRange) :=
            cutLe_antisymm hlev hcle
          constructor
          · rintro (h | ⟨_, h2⟩)
            · exact Or.inl h
            · exact absurd (by rw [← hlO]; exact h2) hreg
          · rintro (h | ⟨_, h2⟩)
            · exact Or.inl h
            · exact absurd h2 (by rw [heq]; exact hreg)
        · -- sentinel drop
          exfalso
          have hseq := isEmpty_seq hd
          have h2 : seqOf (rb.getD s.bi dummyRange).point1 =
              kMaxSequenceNumber := by
            simpa [hbKey] using hseq
          exact (noSentinel_getD hNSb hbi).2 h2
  · -- the closing interval is kept
    rw [hpr]
    generalize hstK : (if s.source = none ∨ some (true, s.bi) = none ∨
      s.source ≠ some (true, s.bi) then false else op.stable) = stK
    have hS : ({ putDepend type (some (ra.getD s.ai dummyRange)) none
        (putLeft (bKeyOf rb s) (!bIncOf rb s) none
          { s with output := closeAt op (bKeyOf rb s) (bIncOf rb s) stK ::
            rest }) with
        ai := s.ai, bi := s.bi + 1, ab := true, bb := false } : PartState) =
        { ai := s.ai, bi := s.bi + 1, ab := true, bb := false,
          output := openAt (rb.getD s.bi dummyRange).point1
              (!(rb.getD s.bi dummyRange).include1)
              (ra.getD s.ai dummyRange).dependence
              (ra.getD s.ai dummyRange).no_records
              (ra.getD s.ai dummyRange).stable ::
            closeAt op (bKeyOf rb s) (bIncOf rb s) stK :: rest,
          source := none } := by
      cases type <;> simp [putLeft, putDepend, openAt, hbKey, hbInc]
    rw [hS]
    have hvop : validRange (closeAt op (bKeyOf rb s) (bIncOf rb s) stK) := by
      have h2 : cutLt (lcut op) (⟨bKeyOf rb s, bIncOf rb s⟩ : Cut) :=
        close_valid (by rw [hrc]; exact hlev) hncol
      rw [validRange, lcut_closeAt, rcut_closeAt]
      exact h2
    have hrcc : rcut (closeAt op (bKeyOf rb s) (bIncOf rb s) stK) =
        rcut (rb.getD s.bi dummyRange) := by
      rw [rcut_closeAt, hrc]
    refine PInv.mk hinv.haiLe ?_ (fun _ => hai) (fun h => nomatch h)
      ?_ (fun h => nomatch h) (fun h => nomatch h) ?_ ?_ ?_ ?_ ?_
    · show s.bi + 1 ≤ rb.length
      omega
    · -- hinA
      intro _ hbi1
      have h2 := cutLe_trans hlfa (cutLe_trans hlev (WF_step hWB hbi1))
      simpa [bev] using h2
    · -- hhistB
      intro _ _ _
      simpa [aev, Nat.add_sub_cancel] using hba
    · -- hopen
      intro _
      refine ⟨_, _, rfl, ?_⟩
      refine ⟨?_, ?_, ?_, ?_, ?_, ?_, ?_, ?_, ?_, ?_⟩
      · exact chainRev_cons hvop hOK1 (fun q hq => hOK2 q (head?_mem hq))
      · intro r hr
        rw [hlO]
        rcases List.mem_cons.mp hr with rfl | hr2
        · rw [hrcc]
          exact cutLe_refl _
        · exact cutLe_trans (hOK2 r hr2) hlev
      · intro _
        rw [hlO]
        simpa [aev] using hba
      · intro hbi1
        rw [hlO]
        simpa [bev] using WF_step hWB hbi1
      · intro h
        exact nomatch h
      · intro _ _
        simp only [Nat.add_sub_cancel, hlO]
        exact cutLe_refl _
      · intro _
        rw [hlO]
        exact cutLe_trans hlfa hlev
      · intro h
        exact nomatch h
      · -- DependOK
        cases type
        · refine ⟨?_, ?_, ?_⟩
          · exact fun _ h => nomatch h
          · exact fun _ _ => ⟨rfl, rfl, rfl⟩
          · exact fun h _ => nomatch h
        · refine ⟨?_, ?_⟩
          · exact fun _ _ => ⟨rfl, rfl, rfl⟩
          · exact fun h => nomatch h
      · -- SourceOK
        refine ⟨?_, ?_⟩
        · intro i hi
          simp at hi
        · intro j hj
          simp at hj
    · -- hclosed (vacuous)
      intro h
      simp at h
    · -- hattr
      intro o ho
      have ho2 : o ∈ (closeAt op (bKeyOf rb s) (bIncOf rb s) stK :: rest) := by
        simpa [closedPart] using ho
      rcases List.mem_cons.mp ho2 with rfl | hmem
      · cases type
        · have h9 := hOK9
          simp only [DependOK] at h9
          have hstf : stK = false := by
            rw [← hstK]
            by_cases hc : s.source = none ∨ some (true, s.bi) = none ∨
                s.source ≠ some (true, s.bi)
            · rw [if_pos hc]
            · rw [if_neg hc]
              exact (h9.1 hab hbb).2
          refine Or.inl ⟨s.ai, hai, s.bi, hbi, ⟨?_, ?_⟩, ⟨?_, ?_⟩, ?_, ?_⟩
          · rw [lcut_closeAt]
            exact hlfa
          · rw [hrcc]
            exact hba
          · rw [lcut_closeAt]
            exact hOK8 hbb
          · rw [hrcc]
            exact cutLe_refl _
          · rw [deps_closeAt]
            exact (h9.1 hab hbb).1
          · rw [stable_closeAt]
            exact hstf
        · trivial
      · refine hinv.hattr o ?_
        simp only [closedPart, hout, hab, Bool.true_or, if_true,
          List.tail_cons]
        exact hmem
    · -- hcov
      intro hNSa hNSb hDa hDb x hst
      have hstA2 : ¬ cutLE (rcut (ra.getD s.ai dummyRange)) x := by
        have h2 := hst.1 hai
        simpa [aev] using h2
      have hstB2 : s.bi + 1 < rb.length →
          ¬ cutLE (lcut (rb.getD (s.bi + 1) dummyRange)) x := by
        intro h
        have h2 := hst.2 h
        simpa [bev] using h2
      by_cases hreg : cutLE (rcut (rb.getD s.bi dummyRange)) x
      · have hregO : cutLE (lcut (openAt (rb.getD s.bi dummyRange).point1
            (!(rb.getD s.bi dummyRange).include1)
            (ra.getD s.ai dummyRange).dependence
            (ra.getD s.ai dummyRange).no_records
            (ra.getD s.ai dummyRange).stable)) x := by
          rw [hlO]
          exact hreg
        have hcra : covers ra x :=
          covers_of_getD hai
            (cutLE_mono (cutLe_trans hlfa hlev) hreg) hstA2
        have hdepO : (ra.getD s.ai dummyRange).dependence ≠ [] :=
          depsNE_getD hDa hai
        cases type
        · refine iff_of_true ?_ (Or.inl hcra)
          simp only [covState]
          exact Or.inr ⟨hdepO, hregO⟩
        · have hnrb : ¬ covers rb x :=
            not_covers_slab hWB (i := s.bi + 1)
              (c := rcut (rb.getD s.bi dummyRange))
              (fun _ => by
                simp only [Nat.add_sub_cancel]
                exact cutLe_refl _)
              (by omega) hreg hstB2
          refine iff_of_true ?_ ⟨hcra, hnrb⟩
          simp only [covState]
          exact Or.inr ⟨hdepO, hregO⟩
      · have hsetOld : settled ra rb s x :=
          ⟨fun _ => by simpa [aev, hab] using hstA2,
           fun _ => by simpa [bev, hbb] using hreg⟩
        have hold := hinv.hcov hNSa hNSb hDa hDb x hsetOld
        simp only [covState, hout, hab, hbb, Bool.true_or, if_true] at hold
        simp only [covState, covers_cons]
        rw [← hold]
        constructor
        · rintro ((h | h) | ⟨_, h2⟩)
          · refine Or.inr ⟨hne, ?_⟩
            have h3 := h.1
            rwa [lcut_closeAt] at h3
          · exact Or.inl h
          · exact absurd (by rw [← hlO]; exact h2) hreg
        · rintro (h | ⟨hne2, h2⟩)
          · exact Or.inl (Or.inr h)
          · refine Or.inl (Or.inl ⟨?_, ?_⟩)
            · rw [lcut_closeAt]
              exact h2
            · intro hcx
              rw [hrcc] at hcx
              exact hreg hcx

theorem pstep_case7 {ra rb : List RangeWithDepend} {type : PartitionType}
    {s : PartState} (hWA : WFRanges ra) (hWB : WFRanges rb)
    (hinv : PInv ra rb type s)
    (hab : s.ab = false) (hbb : s.bb = true)
    (hac : cval ra rb s ≤ 0) (hbc : ¬ (0 : Int) ≤ cval ra rb s) :
    PInv ra rb type (partStep ra rb type s) := by
  have hbi : s.bi < rb.length := hinv.hbbLt hbb
  have hai : s.ai < ra.length := ai_lt_of_cval_nonpos hac
  have hfav : validRange (ra.getD s.ai dummyRange) := WF_valid hWA hai
  have haKey : aKeyOf ra s = (ra.getD s.ai dummyRange).point0 := by
    simp [aKeyOf, hab]
  have haInc : aIncOf ra s = (ra.getD s.ai dummyRange).include0 := by
    simp [aIncOf, hab]
  have hrc : (⟨aKeyOf ra s, !aIncOf ra s⟩ : Cut) =
      lcut (ra.getD s.ai dummyRange) := by
    simp [lcut, haKey, haInc]
  obtain ⟨op, rest, hout, hOK⟩ := hinv.hopen (by simp [hbb])
  obtain ⟨hOK1, hOK2, hOK3, hOK4, hOK5, hOK6, hOK7, hOK8, hOK9, hOK10⟩ := hOK
  have hevA : aev ra s = lcut (ra.getD s.ai dummyRange) := by simp [aev, hab]
  have hevB : bev rb s = rcut (rb.getD s.bi dummyRange) := by simp [bev, hbb]
  have hlev : cutLe (lcut op) (lcut (ra.getD s.ai dummyRange)) := by
    have h2 := hOK3 hai
    rwa [hevA] at h2
  have hab2 : cutLe (lcut (ra.getD s.ai dummyRange))
      (rcut (rb.getD s.bi dummyRange)) := by
    have h2 := cval_nonpos_cutLe hai hbi hac
    rwa [hevA, hevB] at h2
  have hlfb : cutLe (lcut (rb.getD s.bi dummyRange)) (lcut op) := hOK8 hbb
  rw [pstepEq7 hab hbb hac hbc]
  rcases putRight_cases (aKeyOf ra s) (!aIncOf ra s) none s op
      rest hout with ⟨hpr, hdrop⟩ | ⟨hpr, hne, hncol, hnemp⟩
  · -- the previously open interval is dropped at the a-boundary
    obtain ⟨dep, nr, st, hS, hTM, hTD⟩ : ∃ dep nr st,
        ({ putDepend type (some (ra.getD s.ai dummyRange))
            (some (rb.getD s.bi dummyRange))
            (putLeft (aKeyOf ra s) (aIncOf ra s) (some (false, s.ai))
              (putRight (aKeyOf ra s) (!aIncOf ra s) none s)) with
          ai := s.ai, bi := s.bi, ab := true, bb := true } : PartState) =
        { ai := s.ai, bi := s.bi, ab := true, bb := true,
          output := openAt (ra.getD s.ai dummyRange).point0
              (ra.getD s.ai dummyRange).include0 dep nr st :: rest,
          source := some (false, s.ai) } ∧
        (type = .kMerge → dep = (ra.getD s.ai dummyRange).dependence ++
          (rb.getD s.bi dummyRange).dependence ∧ nr = false ∧ st = false) ∧
        (type = .kDelete → dep = [] ∧ nr = false ∧ st = false) := by
      cases type
      · refine ⟨(ra.getD s.ai dummyRange).dependence ++
          (rb.getD s.bi dummyRange).dependence, false, false, ?_, ?_, ?_⟩
        · rw [hpr]
          simp [putLeft, putDepend, openAt, haKey, haInc]
        · exact fun _ => ⟨rfl, rfl, rfl⟩
        · intro h
          exact absurd h (by simp)
      · refine ⟨[], false, false, ?_, ?_, ?_⟩
        · rw [hpr]
          simp [putLeft, putDepend, openAt, haKey, haInc]
        · intro h
          exact absurd h (by simp)
        · exact fun _ => ⟨rfl, rfl, rfl⟩
    rw [hS]
    refine PInv.mk hinv.haiLe hinv.hbiLe (fun _ => hai) (fun _ => hbi)
      ?_ ?_ (fun h => nomatch h) (fun h => nomatch h) ?_ ?_ ?_ ?_
    · -- hinA
      intro _ _
      simpa [bev] using hab2
    · -- hinB
      intro _ _
      have h2 := cutLe_trans hlfb (cutLe_trans hlev (cutLe_of_cutLt hfav))
      simpa [aev] using h2
    · -- hopen
      intro _
      refine ⟨_, _, rfl, ?_⟩
      refine ⟨hOK1, ?_, ?_, ?_, ?_, ?_, ?_, ?_, ?_, ?_⟩
      · intro r hr
        have h2 := cutLe_trans (hOK2 r hr) hlev
        simpa [lcut] using h2
      · intro _
        have h2 := cutLe_of_cutLt hfav
        simpa [aev, lcut] using h2
      · intro _
        simpa [bev, lcut] using hab2
      · intro h
        exact nomatch h
      · intro h
        exact nomatch h
      · intro _
        exact cutLe_refl _
      · intro _
        have h2 := cutLe_trans hlfb hlev
        simpa [lcut] using h2
      · -- DependOK
        cases type
        · refine ⟨?_, ?_, ?_⟩
          · exact fun _ _ => ⟨(hTM rfl).1, (hTM rfl).2.2⟩
          · exact fun _ h => nomatch h
          · exact fun h _ => nomatch h
        · refine ⟨?_, ?_⟩
          · exact fun _ h => nomatch h
          · exact fun _ => (hTD rfl).1
      · -- SourceOK
        refine ⟨?_, ?_⟩
        · intro i hi
          simp only [Option.some.injEq, Prod.mk.injEq, true_and] at hi
          subst hi
          exact ⟨rfl, rfl, rfl, rfl⟩
        · intro j hj
          simp at hj
    · -- hclosed (vacuous)
      intro h
      simp at h
    · -- hattr
      intro o ho
      refine hinv.hattr o ?_
      have ho2 : o ∈ rest := by simpa [closedPart] using ho
      simp only [closedPart, hout, hbb, Bool.or_true, if_true, List.tail_cons]
      exact ho2
    · -- hcov
      intro hNSa hNSb hDa hDb x hst
      have hstA2 : ¬ cutLE (rcut (ra.getD s.ai dummyRange)) x := by
        have h2 := hst.1 hai
        simpa [aev] using h2
      have hstB2 : ¬ cutLE (rcut (rb.getD s.bi dummyRange)) x := by
        have h2 := hst.2 hbi
        simpa [bev] using h2
      by_cases hreg : cutLE (lcut (ra.getD s.ai dummyRange)) x
      · have hcra : covers ra x := covers_of_getD hai hreg hstA2
        have hcrb : covers rb x :=
          covers_of_getD hbi
            (cutLE_mono (cutLe_trans hlfb hlev) hreg) hstB2
        cases type
        · have hdep : dep ≠ [] := by
            rw [(hTM rfl).1]
            intro hc
            exact depsNE_getD hDa hai (List.append_eq_nil.mp hc).1
          refine iff_of_true ?_ (Or.inl hcra)
          simp only [covState, covers_cons]
          exact Or.inr ⟨hdep, hreg⟩
        · refine iff_of_false ?_ ?_
          · simp only [covState]
            rintro (h | ⟨h1, _⟩)
            · refine not_covers_of_all_rcut_le
                (fun r hr => cutLe_trans (hOK2 r hr) hlev) hreg h
            · exact h1 (hTD rfl).1
          · rintro ⟨_, h2⟩
            exact h2 hcrb
      · have hsetOld : settled ra rb s x :=
          ⟨fun _ => by simpa [aev, hab] using hreg,
           fun _ => by simpa [bev, hbb] using hstB2⟩
        have hold := hinv.hcov hNSa hNSb hDa hDb x hsetOld
        simp only [covState, hout, hab, hbb, Bool.or_true, if_true] at hold
        simp only [covState, covers_cons]
        rw [← hold]
        rcases hdrop with hd | hd | hd
        · -- dropped due to empty dependence
          cases type
          · exfalso
            have h9 := hOK9
            simp only [DependOK] at h9
            exact depsNE_getD (hDb rfl) hbi
              (by rw [← (h9.2.2 hab hbb).1]; exact hd)
          · have h9 := hOK9
            simp only [DependOK] at h9
            constructor
            · rintro (h | ⟨_, h2⟩)
              · exact Or.inl h
              · exact absurd h2 hreg
            · rintro (h | ⟨hne2, _⟩)
              · exact Or.inl h
              · exact absurd (h9.2 hbb) hne2
        · -- collapse
          have hcle := collapse_cutLe hd
          rw [hrc] at hcle
          have heq : lcut op = lcut (ra.getD s.ai dummyRange) :=
            cutLe_antisymm hlev hcle
          constructor
          · rintro (h | ⟨_, h2⟩)
            · exact Or.inl h
            · exact absurd h2 hreg
          · rintro (h | ⟨_, h2⟩)
            · exact Or.inl h
            · exact absurd h2 (by rw [heq]; exact hreg)
        · -- sentinel drop
          exfalso
          have hseq := isEmpty_seq hd
          have h2 : seqOf (ra.getD s.ai dummyRange).point0 =
              kMaxSequenceNumber := by
            simpa [haKey] using hseq
          exact (noSentinel_getD hNSa hai).1 h2
  · -- the previously open interval is kept, closed at the a-boundary
    have hstf : (if s.source = none ∨ (none : Option (Bool × Nat)) = none ∨
        s.source ≠ (none : Option (Bool × Nat)) then false
        else op.stable) = false := by simp
    rw [hstf] at hpr
    obtain ⟨dep, nr, st, hS, hTM, hTD⟩ : ∃ dep nr st,
        ({ putDepend type (some (ra.getD s.ai dummyRange))
            (some (rb.getD s.bi dummyRange))
            (putLeft (aKeyOf ra s) (aIncOf ra s) (some (false, s.ai))
              (putRight (aKeyOf ra s) (!aIncOf ra s) none s)) with
          ai := s.ai, bi := s.bi, ab := true, bb := true } : PartState) =
        { ai := s.ai, bi := s.bi, ab := true, bb := true,
          output := openAt (ra.getD s.ai dummyRange).point0
              (ra.getD s.ai dummyRange).include0 dep nr st ::
            closeAt op (aKeyOf ra s) (!aIncOf ra s) false :: rest,
          source := some (false, s.ai) } ∧
        (type = .kMerge → dep = (ra.getD s.ai dummyRange).dependence ++
          (rb.getD s.bi dummyRange).dependence ∧ nr = false ∧ st = false) ∧
        (type = .kDelete → dep = [] ∧ nr = false ∧ st = false) := by
      cases type
      · refine ⟨(ra.getD s.ai dummyRange).dependence ++
          (rb.getD s.bi dummyRange).dependence, false, false, ?_, ?_, ?_⟩
        · rw [hpr]
          simp [putLeft, putDepend, openAt, haKey, haInc]
        · exact fun _ => ⟨rfl, rfl, rfl⟩
        · intro h
          exact absurd h (by simp)
      · refine ⟨[], false, false, ?_, ?_, ?_⟩
        · rw [hpr]
          simp [putLeft, putDepend, openAt, haKey, haInc]
        · intro h
          exact absurd h (by simp)
        · exact fun _ => ⟨rfl, rfl, rfl⟩
    rw [hS]
    have hvop : validRange (closeAt op (aKeyOf ra s) (!aIncOf ra s) false) := by
      have h2 : cutLt (lcut op) (⟨aKeyOf ra s, !aIncOf ra s⟩ : Cut) :=
        close_valid (by rw [hrc]; exact hlev) hncol
      rw [validRange, lcut_closeAt, rcut_closeAt]
      exact h2
    have hrcc : rcut (closeAt op (aKeyOf ra s) (!aIncOf ra s) false) =
        lcut (ra.getD s.ai dummyRange) := by
      rw [rcut_closeAt, hrc]
    refine PInv.mk hinv.haiLe hinv.hbiLe (fun _ => hai) (fun _ => hbi)
      ?_ ?_ (fun h => nomatch h) (fun h => nomatch h) ?_ ?_ ?_ ?_
    · -- hinA
      intro _ _
      simpa [bev] using hab2
    · -- hinB
      intro _ _
      have h2 := cutLe_trans hlfb (cutLe_trans hlev (cutLe_of_cutLt hfav))
      simpa [aev] using h2
    · -- hopen
      intro _
      refine ⟨_, _, rfl, ?_⟩
      refine ⟨?_, ?_, ?_, ?_, ?_, ?_, ?_, ?_, ?_, ?_⟩
      · exact chainRev_cons hvop hOK1 (fun q hq => hOK2 q (head?_mem hq))
      · intro r hr
        rcases List.mem_cons.mp hr with rfl | hr2
        · rw [hrcc]
          exact cutLe_refl _
        · have h2 := cutLe_trans (hOK2 r hr2) hlev
          simpa [lcut] using h2
      · intro _
        have h2 := cutLe_of_cutLt hfav
        simpa [aev, lcut] using h2
      · intro _
        simpa [bev, lcut] using hab2
      · intro h
        exact nomatch h
      · intro h
        exact nomatch h
      · intro _
        exact cutLe_refl _
      · intro _
        have h2 := cutLe_trans hlfb hlev
        simpa [lcut] using h2
      · -- DependOK
        cases type
        · refine ⟨?_, ?_, ?_⟩
          · exact fun _ _ => ⟨(hTM rfl).1, (hTM rfl).2.2⟩
          · exact fun _ h => nomatch h
          · exact fun h _ => nomatch h
        · refine ⟨?_, ?_⟩
          · exact fun _ h => nomatch h
          · exact fun _ => (hTD rfl).1
      · -- SourceOK
        refine ⟨?_, ?_⟩
        · intro i hi
          simp only [Option.some.injEq, Prod.mk.injEq, true_and] at hi
          subst hi
          exact ⟨rfl, rfl, rfl, rfl⟩
        · intro j hj
          simp at hj
    · -- hclosed (vacuous)
      intro h
      simp at h
    · -- hattr
      intro o ho
      have ho2 : o ∈ (closeAt op (aKeyOf ra s) (!aIncOf ra s) false :: rest) := by
        simpa [closedPart] using ho
      rcases List.mem_cons.mp ho2 with rfl | hmem
      · cases type
        · have h9 := hOK9
          simp only [DependOK] at h9
          obtain ⟨e1, e2, e3⟩ := h9.2.2 hab hbb
          refine Or.inr (Or.inr ⟨s.bi, hbi, ⟨?_, ?_⟩, ?_, ?_, ?_, ?_⟩)
          · rw [lcut_closeAt]
            exact hlfb
          · rw [hrcc]
            exact hab2
          · intro i hi2
            rcases Nat.lt_or_ge i s.ai with hia | hia
            · refine Or.inr ?_
              have hale := hinv.haiLe
              have h2 : cutLe (rcut (ra.getD i dummyRange))
                  (rcut (ra.getD (s.ai - 1) dummyRange)) :=
                WF_rcut_mono hWA (by omega) (by omega)
              rw [lcut_closeAt]
              exact cutLe_trans h2 (hOK5 hab (by omega))
            · refine Or.inl ?_
              rw [hrcc]
              exact WF_lcut_mono hWA hia hi2
          · rw [deps_closeAt]
            exact e1
          · rw [norec_closeAt]
            exact e2
          · intro hstab
            rw [stable_closeAt] at hstab
            exact absurd hstab (by simp)
        · trivial
      · refine hinv.hattr o ?_
        simp only [closedPart, hout, hbb, Bool.or_true, if_true,
          List.tail_cons]
        exact hmem
    · -- hcov
      intro hNSa hNSb hDa hDb x hst
      have hstA2 : ¬ cutLE (rcut (ra.getD s.ai dummyRange)) x := by
        have h2 := hst.1 hai
        simpa [aev] using h2
      have hstB2 : ¬ cutLE (rcut (rb.getD s.bi dummyRange)) x := by
        have h2 := hst.2 hbi
        simpa [bev] using h2
      by_cases hreg : cutLE (lcut (ra.getD s.ai dummyRange)) x
      · have hcra : covers ra x := covers_of_getD hai hreg hstA2
        have hcrb : covers rb x :=
          covers_of_getD hbi
            (cutLE_mono (cutLe_trans hlfb hlev) hreg) hstB2
        cases type
        · have hdep : dep ≠ [] := by
            rw [(hTM rfl).1]
            intro hc
            exact depsNE_getD hDa hai (List.append_eq_nil.mp hc).1
          refine iff_of_true ?_ (Or.inl hcra)
          simp only [covState, covers_cons]
          exact Or.inr ⟨hdep, hreg⟩
        · refine iff_of_false ?_ ?_
          · simp only [covState, covers_cons]
            rintro ((h | h) | ⟨h1, _⟩)
            · refine h.2 ?_
              rw [hrcc]
              exact hreg
            · exact not_covers_of_all_rcut_le
                (fun r hr => cutLe_trans (hOK2 r hr) hlev) hreg h
            · exact h1 (hTD rfl).1
          · rintro ⟨_, h2⟩
            exact h2 hcrb
      · have hsetOld : settled ra rb s x :=
          ⟨fun _ => by simpa [aev, hab] using hreg,
           fun _ => by simpa [bev, hbb] using hstB2⟩
        have hold := hinv.hcov hNSa hNSb hDa hDb x hsetOld
        simp only [covState, hout, hab, hbb, Bool.or_true, if_true] at hold
        simp only [covState, covers_cons]
        rw [← hold]
        constructor
        · rintro ((h | h) | ⟨_, h2⟩)
          · refine Or.inr ⟨hne, ?_⟩
            have h2 := h.1
            rwa [lcut_closeAt] at h2
          · exact Or.inl h
          · exact absurd h2 hreg
        · rintro (h | ⟨hne2, h2⟩)
          · exact Or.inl (Or.inr h)
          · refine Or.inl (Or.inl ⟨?_, ?_⟩)
            · rw [lcut_closeAt]
              exact h2
            · intro hcx
              rw [hrcc] at hcx
              exact hreg hcx

theorem pstep_case8 {ra rb : List RangeWithDepend} {type : PartitionType}
    {s : PartState} (hWA : WFRanges ra) (hWB : WFRanges rb)
    (hinv : PInv ra rb type s)
    (hab : s.ab = true) (hbb : s.bb = true)
    (hac : cval ra rb s ≤ 0) (hbc : ¬ (0 : Int) ≤ cval ra rb s) :
    PInv ra rb type (partStep ra rb type s) := by
  have hai : s.ai < ra.length := hinv.habLt hab
  have hbi : s.bi < rb.length := hinv.hbbLt hbb
  have haKey : aKeyOf ra s = (ra.getD s.ai dummyRange).point1 := by
    simp [aKeyOf, hab]
  have haInc : aIncOf ra s = (ra.getD s.ai dummyRange).include1 := by
    simp [aIncOf, hab]
  have hrc : (⟨aKeyOf ra s, aIncOf ra s⟩ : Cut) =
      rcut (ra.getD s.ai dummyRange) := by
    simp [rcut, haKey, haInc]
  obtain ⟨op, rest, hout, hOK⟩ := hinv.hopen (by simp [hab])
  obtain ⟨hOK1, hOK2, hOK3, hOK4, hOK5, hOK6, hOK7, hOK8, hOK9, hOK10⟩ := hOK
  have hevA : aev ra s = rcut (ra.getD s.ai dummyRange) := by simp [aev, hab]
  have hevB : bev rb s = rcut (rb.getD s.bi dummyRange) := by simp [bev, hbb]
  have hlev : cutLe (lcut op) (rcut (ra.getD s.ai dummyRange)) := by
    have h2 := hOK3 hai
    rwa [hevA] at h2
  have hba : cutLe (rcut (ra.getD s.ai dummyRange))
      (rcut (rb.getD s.bi dummyRange)) := by
    have h2 := cval_nonpos_cutLe hai hbi hac
    rwa [hevA, hevB] at h2
  have hlfb : cutLe (lcut (rb.getD s.bi dummyRange)) (lcut op) := hOK8 hbb
  rw [pstepEq8 hab hbb hac hbc]
  rcases putRight_cases (aKeyOf ra s) (aIncOf ra s) (some (false, s.ai)) s op
      rest hout with ⟨hpr, hdrop⟩ | ⟨hpr, hne, hncol, hnemp⟩
  · -- the closing interval is dropped at the a-boundary
    obtain ⟨dep, nr, st, hS, hTM, hTD⟩ : ∃ dep nr st,
        ({ putDepend type none (some (rb.getD s.bi dummyRange))
            (putLeft (aKeyOf ra s) (!aIncOf ra s) none
              (putRight (aKeyOf ra s) (aIncOf ra s) (some (false, s.ai)) s))
          with ai := s.ai + 1, bi := s.bi, ab := false, bb := true } :
            PartState) =
        { ai := s.ai + 1, bi := s.bi, ab := false, bb := true,
          output := openAt (ra.getD s.ai dummyRange).point1
              (!(ra.getD s.ai dummyRange).include1) dep nr st :: rest,
          source := none } ∧
        (type = .kMerge → dep = (rb.getD s.bi dummyRange).dependence ∧
          nr = (rb.getD s.bi dummyRange).no_records ∧
          st = (rb.getD s.bi dummyRange).stable) ∧
        (type = .kDelete → dep = [] ∧ nr = false ∧ st = false) := by
      cases type
      · refine ⟨(rb.getD s.bi dummyRange).dependence,
          (rb.getD s.bi dummyRange).no_records,
          (rb.getD s.bi dummyRange).stable, ?_, ?_, ?_⟩
        · rw [hpr]
          simp [putLeft, putDepend, openAt, haKey, haInc]
        · exact fun _ => ⟨rfl, rfl, rfl⟩
        · intro h
          exact absurd h (by simp)
      · refine ⟨[], false, false, ?_, ?_, ?_⟩
        · rw [hpr]
          simp [putLeft, putDepend, openAt, haKey, haInc]
        · intro h
          exact absurd h (by simp)
        · exact fun _ => ⟨rfl, rfl, rfl⟩
    rw [hS]
    have hlO : lcut (openAt (ra.getD s.ai dummyRange).point1
        (!(ra.getD s.ai dummyRange).include1) dep nr st) =
        rcut (ra.getD s.ai dummyRange) := by
      simp [lcut, openAt, rcut]
    refine PInv.mk ?_ hinv.hbiLe (fun h => nomatch h) (fun _ => hbi)
      (fun h => nomatch h) ?_ ?_ (fun h => nomatch h) ?_ ?_ ?_ ?_
    · show s.ai + 1 ≤ ra.length
      omega
    · -- hinB
      intro _ hai1
      have h2 := cutLe_trans hlfb (cutLe_trans hlev (WF_step hWA hai1))
      simpa [aev] using h2
    · -- hhistA
      intro _ _ _
      simpa [bev, Nat.add_sub_cancel] using hba
    · -- hopen
      intro _
      refine ⟨_, _, rfl, ?_⟩
      refine ⟨hOK1, ?_, ?_, ?_, ?_, ?_, ?_, ?_, ?_, ?_⟩
      · intro r hr
        rw [hlO]
        exact cutLe_trans (hOK2 r hr) hlev
      · intro hai1
        rw [hlO]
        simpa [aev] using WF_step hWA hai1
      · intro _
        rw [hlO]
        simpa [bev] using hba
      · intro _ _
        simp only [Nat.add_sub_cancel, hlO]
        exact cutLe_refl _
      · intro h
        exact nomatch h
      · intro h
        exact nomatch h
      · intro _
        rw [hlO]
        exact cutLe_trans hlfb hlev
      · -- DependOK
        cases type
        · refine ⟨?_, ?_, ?_⟩
          · exact fun h _ => nomatch h
          · exact fun h _ => nomatch h
          · exact fun _ _ => ⟨(hTM rfl).1, (hTM rfl).2.1, (hTM rfl).2.2⟩
        · refine ⟨?_, ?_⟩
          · exact fun h _ => nomatch h
          · exact fun _ => (hTD rfl).1
      · -- SourceOK
        refine ⟨?_, ?_⟩
        · intro i hi
          simp at hi
        · intro j hj
          simp at hj
    · -- hclosed (vacuous)
      intro h
      simp at h
    · -- hattr
      intro o ho
      refine hinv.hattr o ?_
      have ho2 : o ∈ rest := by simpa [closedPart] using ho
      simp only [closedPart, hout, hab, Bool.true_or, if_true, List.tail_cons]
      exact ho2
    · -- hcov
      intro hNSa hNSb hDa hDb x hst
      have hstA2 : s.ai + 1 < ra.length →
          ¬ cutLE (lcut (ra.getD (s.ai + 1) dummyRange)) x := by
        intro h
        have h2 := hst.1 h
        simpa [aev] using h2
      have hstB2 : ¬ cutLE (rcut (rb.getD s.bi dummyRange)) x := by
        have h2 := hst.2 hbi
        simpa [bev] using h2
      by_cases hreg : cutLE (rcut (ra.getD s.ai dummyRange)) x
      · have hcrb : covers rb x :=
          covers_of_getD hbi
            (cutLE_mono (cutLe_trans hlfb hlev) hreg) hstB2
        cases type
        · have hdep : dep ≠ [] := by
            rw [(hTM rfl).1]
            exact depsNE_getD (hDb rfl) hbi
          refine iff_of_true ?_ (Or.inr hcrb)
          simp only [covState]
          refine Or.inr ⟨hdep, ?_⟩
          rw [hlO]
          exact hreg
        · refine iff_of_false ?_ ?_
          · simp only [covState]
            rintro (h | ⟨h1, _⟩)
            · exact not_covers_of_all_rcut_le
                (fun r hr => cutLe_trans (hOK2 r hr) hlev) hreg h
            · exact h1 (hTD rfl).1
          · rintro ⟨_, h2⟩
            exact h2 hcrb
      · have hsetOld : settled ra rb s x :=
          ⟨fun _ => by simpa [aev, hab] using hreg,
           fun _ => by simpa [bev, hbb] using hstB2⟩
        have hold := hinv.hcov hNSa hNSb hDa hDb x hsetOld
        simp only [covState, hout, hab, hbb, Bool.true_or, if_true] at hold
        simp only [covState]
        rw [← hold]
        rcases hdrop with hd | hd | hd
        · -- dropped for empty dependence
          cases type
          · exfalso
            have h9 := hOK9
            simp only [DependOK] at h9
            have he := (h9.1 hab hbb).1
            rw [he] at hd
            exact depsNE_getD hDa hai (List.append_eq_nil.mp hd).1
          · have h9 := hOK9
            simp only [DependOK] at h9
            constructor
            · rintro (h | ⟨_, h2⟩)
              · exact Or.inl h
              · exact absurd (by rw [← hlO]; exact h2) hreg
            · rintro (h | ⟨hne2, _⟩)
              · exact Or.inl h
              · exact absurd (h9.2 hbb) hne2
        · -- collapse
          have hcle := collapse_cutLe hd
          rw [hrc] at hcle
          have heq : lcut op = rcut (ra.getD s.ai dummyRange) :=
            cutLe_antisymm hlev hcle
          constructor
          · rintro (h | ⟨_, h2⟩)
            · exact Or.inl h
            · exact absurd (by rw [← hlO]; exact h2) hreg
          · rintro (h | ⟨_, h2⟩)
            · exact Or.inl h
            · exact absurd h2 (by rw [heq]; exact hreg)
        · -- sentinel drop
          exfalso
          have hseq := isEmpty_seq hd
          have h2 : seqOf (ra.getD s.ai dummyRange).point1 =
              kMaxSequenceNumber := by
            simpa [haKey] using hseq
          exact (noSentinel_getD hNSa hai).2 h2
  · -- the closing interval is kept
    rw [hpr]
    generalize hstK : (if s.source = none ∨ some (false, s.ai) = none ∨
      s.source ≠ some (false, s.ai) then false else op.stable) = stK
    obtain ⟨dep, nr, st, hS, hTM, hTD⟩ : ∃ dep nr st,
        ({ putDepend type none (some (rb.getD s.bi dummyRange))
            (putLeft (aKeyOf ra s) (!aIncOf ra s) none
              { s with output := closeAt op (aKeyOf ra s) (aIncOf ra s) stK ::
                rest })
          with ai := s.ai + 1, bi := s.bi, ab := false, bb := true } :
            PartState) =
        { ai := s.ai + 1, bi := s.bi, ab := false, bb := true,
          output := openAt (ra.getD s.ai dummyRange).point1
              (!(ra.getD s.ai dummyRange).include1) dep nr st ::
            closeAt op (aKeyOf ra s) (aIncOf ra s) stK :: rest,
          source := none } ∧
        (type = .kMerge → dep = (rb.getD s.bi dummyRange).dependence ∧
          nr = (rb.getD s.bi dummyRange).no_records ∧
          st = (rb.getD s.bi dummyRange).stable) ∧
        (type = .kDelete → dep = [] ∧ nr = false ∧ st = false) := by
      cases type
      · refine ⟨(rb.getD s.bi dummyRange).dependence,
          (rb.getD s.bi dummyRange).no_records,
          (rb.getD s.bi dummyRange).stable, ?_, ?_, ?_⟩
        · simp [putLeft, putDepend, openAt, haKey, haInc]
        · exact fun _ => ⟨rfl, rfl, rfl⟩
        · intro h
          exact absurd h (by simp)
      · refine ⟨[], false, false, ?_, ?_, ?_⟩
        · simp [putLeft, putDepend, openAt, haKey, haInc]
        · intro h
          exact absurd h (by simp)
        · exact fun _ => ⟨rfl, rfl, rfl⟩
    rw [hS]
    have hlO : lcut (openAt (ra.getD s.ai dummyRange).point1
        (!(ra.getD s.ai dummyRange).include1) dep nr st) =
        rcut (ra.getD s.ai dummyRange) := by
      simp [lcut, openAt, rcut]
    have hvop : validRange (closeAt op (aKeyOf ra s) (aIncOf ra s) stK) := by
      have h2 : cutLt (lcut op) (⟨aKeyOf ra s, aIncOf ra s⟩ : Cut) :=
        close_valid (by rw [hrc]; exact hlev) hncol
      rw [validRange, lcut_closeAt, rcut_closeAt]
      exact h2
    have hrcc : rcut (closeAt op (aKeyOf ra s) (aIncOf ra s) stK) =
        rcut (ra.getD s.ai dummyRange) := by
      rw [rcut_closeAt, hrc]
    refine PInv.mk ?_ hinv.hbiLe (fun h => nomatch h) (fun _ => hbi)
      (fun h => nomatch h) ?_ ?_ (fun h => nomatch h) ?_ ?_ ?_ ?_
    · show s.ai + 1 ≤ ra.length
      omega
    · -- hinB
      intro _ hai1
      have h2 := cutLe_trans hlfb (cutLe_trans hlev (WF_step hWA hai1))
      simpa [aev] using h2
    · -- hhistA
      intro _ _ _
      simpa [bev, Nat.add_sub_cancel] using hba
    · -- hopen
      intro _
      refine ⟨_, _, rfl, ?_⟩
      refine ⟨?_, ?_, ?_, ?_, ?_, ?_, ?_, ?_, ?_, ?_⟩
      · exact chainRev_cons hvop hOK1 (fun q hq => hOK2 q (head?_mem hq))
      · intro r hr
        rw [hlO]
        rcases List.mem_cons.mp hr with rfl | hr2
        · rw [hrcc]
          exact cutLe_refl _
        · exact cutLe_trans (hOK2 r hr2) hlev
      · intro hai1
        rw [hlO]
        simpa [aev] using WF_step hWA hai1
      · intro _
        rw [hlO]
        simpa [bev] using hba
      · intro _ _
        simp only [Nat.add_sub_cancel, hlO]
        exact cutLe_refl _
      · intro h
        exact nomatch h
      · intro h
        exact nomatch h
      · intro _
        rw [hlO]
        exact cutLe_trans hlfb hlev
      · -- DependOK
        cases type
        · refine ⟨?_, ?_, ?_⟩
          · exact fun h _ => nomatch h
          · exact fun h _ => nomatch h
          · exact fun _ _ => ⟨(hTM rfl).1, (hTM rfl).2.1, (hTM rfl).2.2⟩
        · refine ⟨?_, ?_⟩
          · exact fun h _ => nomatch h
          · exact fun _ => (hTD rfl).1
      · -- SourceOK
        refine ⟨?_, ?_⟩
        · intro i hi
          simp at hi
        · intro j hj
          simp at hj
    · -- hclosed (vacuous)
      intro h
      simp at h
    · -- hattr
      intro o ho
      have ho2 : o ∈ (closeAt op (aKeyOf ra s) (aIncOf ra s) stK :: rest) := by
        simpa [closedPart] using ho
      rcases List.mem_cons.mp ho2 with rfl | hmem
      · cases type
        · have h9 := hOK9
          simp only [DependOK] at h9
          have hstf : stK = false := by
            rw [← hstK]
            by_cases hc : s.source = none ∨ some (false, s.ai) = none ∨
                s.source ≠ some (false, s.ai)
            · rw [if_pos hc]
            · rw [if_neg hc]
              exact (h9.1 hab hbb).2
          refine Or.inl ⟨s.ai, hai, s.bi, hbi, ⟨?_, ?_⟩, ⟨?_, ?_⟩, ?_, ?_⟩
          · rw [lcut_closeAt]
            exact hOK7 hab
          · rw [hrcc]
            exact cutLe_refl _
          · rw [lcut_closeAt]
            exact hlfb
          · rw [hrcc]
            exact hba
          · rw [deps_closeAt]
            exact (h9.1 hab hbb).1
          · rw [stable_closeAt]
            exact hstf
        · trivial
      · refine hinv.hattr o ?_
        simp only [closedPart, hout, hab, Bool.true_or, if_true,
          List.tail_cons]
        exact hmem
    · -- hcov
      intro hNSa hNSb hDa hDb x hst
      have hstA2 : s.ai + 1 < ra.length →
          ¬ cutLE (lcut (ra.getD (s.ai + 1) dummyRange)) x := by
        intro h
        have h2 := hst.1 h
        simpa [aev] using h2
      have hstB2 : ¬ cutLE (rcut (rb.getD s.bi dummyRange)) x := by
        have h2 := hst.2 hbi
        simpa [bev] using h2
      by_cases hreg : cutLE (rcut (ra.getD s.ai dummyRange)) x
      · have hcrb : covers rb x :=
          covers_of_getD hbi
            (cutLE_mono (cutLe_trans hlfb hlev) hreg) hstB2
        cases type
        · have hdep : dep ≠ [] := by
            rw [(hTM rfl).1]
            exact depsNE_getD (hDb rfl) hbi
          refine iff_of_true ?_ (Or.inr hcrb)
          simp only [covState]
          refine Or.inr ⟨hdep, ?_⟩
          rw [hlO]
          exact hreg
        · refine iff_of_false ?_ ?_
          · simp only [covState, covers_cons]
            rintro ((h | h) | ⟨h1, _⟩)
            · refine h.2 ?_
              rw [hrcc]
              exact hreg
            · exact not_covers_of_all_rcut_le
                (fun r hr => cutLe_trans (hOK2 r hr) hlev) hreg h
            · exact h1 (hTD rfl).1
          · rintro ⟨_, h2⟩
            exact h2 hcrb
      · have hsetOld : settled ra rb s x :=
          ⟨fun _ => by simpa [aev, hab] using hreg,
           fun _ => by simpa [bev, hbb] using hstB2⟩
        have hold := hinv.hcov hNSa hNSb hDa hDb x hsetOld
        simp only [covState, hout, hab, hbb, Bool.true_or, if_true] at hold
        simp only [covState, covers_cons]
        rw [← hold]
        constructor
        · rintro ((h | h) | ⟨_, h2⟩)
          · refine Or.inr ⟨hne, ?_⟩
            have h3 := h.1
            rwa [lcut_closeAt] at h3
          · exact Or.inl h
          · exact absurd (by rw [← hlO]; exact h2) hreg
        · rintro (h | ⟨hne2, h2⟩)
          · exact Or.inl (Or.inr h)
          · refine Or.inl (Or.inl ⟨?_, ?_⟩)
            · rw [lcut_closeAt]
              exact h2
            · intro hcx
              rw [hrcc] at hcx
              exact hreg hcx

theorem pstep_case9 {ra rb : List RangeWithDepend} {type : PartitionType}
    {s : PartState} (hWA : WFRanges ra) (hWB : WFRanges rb)
    (hinv : PInv ra rb type s)
    (hab : s.ab = false) (hbb : s.bb = false)
    (hac : cval ra rb s ≤ 0) (hbc : (0 : Int) ≤ cval ra rb s) :
    PInv ra rb type (partStep ra rb type s) := by
  have hai : s.ai < ra.length := ai_lt_of_cval_nonpos hac
  have hbi : s.bi < rb.length := bi_lt_of_cval_nonneg (Or.inl hai) hbc
  have hz := cval_zero_eq hai hbi (le_antisymm hac hbc)
  have hfav : validRange (ra.getD s.ai dummyRange) := WF_valid hWA hai
  have hfbv : validRange (rb.getD s.bi dummyRange) := WF_valid hWB hbi
  have haKey : aKeyOf ra s = (ra.getD s.ai dummyRange).point0 := by
    simp [aKeyOf, hab]
  have haInc : aIncOf ra s = (ra.getD s.ai dummyRange).include0 := by
    simp [aIncOf, hab]
  have hbKey : bKeyOf rb s = (rb.getD s.bi dummyRange).point0 := by
    simp [bKeyOf, hbb]
  have hbInc : bIncOf rb s = (rb.getD s.bi dummyRange).include0 := by
    simp [bIncOf, hbb]
  have hfeq : (ra.getD s.ai dummyRange).point0 =
      (rb.getD s.bi dummyRange).point0 := by
    rw [← haKey, ← hbKey]
    exact hz.1
  have hieq : (ra.getD s.ai dummyRange).include0 =
      (rb.getD s.bi dummyRange).include0 := by
    rw [← haInc, ← hbInc]
    exact hz.2.2
  have hlcfb : lcut (ra.getD s.ai dummyRange) =
      lcut (rb.getD s.bi dummyRange) := by
    unfold lcut
    rw [hfeq, hieq]
  obtain ⟨dep, nr, st, hS, hTM, hTD⟩ : ∃ dep nr st,
      partStep ra rb type s =
        { ai := s.ai, bi := s.bi, ab := true, bb := true,
          output := openAt (ra.getD s.ai dummyRange).point0
              (ra.getD s.ai dummyRange).include0 dep nr st :: s.output,
          source := none } ∧
      (type = .kMerge → dep = (ra.getD s.ai dummyRange).dependence ++
        (rb.getD s.bi dummyRange).dependence ∧ nr = false ∧ st = false) ∧
      (type = .kDelete → dep = [] ∧ nr = false ∧ st = false) := by
    cases type
    · refine ⟨(ra.getD s.ai dummyRange).dependence ++
        (rb.getD s.bi dummyRange).dependence, false, false, ?_, ?_, ?_⟩
      · rw [pstepEq9 hab hbb hac hbc]
        simp [putLeft, putDepend, openAt, haKey, haInc]
      · exact fun _ => ⟨rfl, rfl, rfl⟩
      · intro h
        exact absurd h (by simp)
    · refine ⟨[], false, false, ?_, ?_, ?_⟩
      · rw [pstepEq9 hab hbb hac hbc]
        simp [putLeft, putDepend, openAt, haKey, haInc]
      · intro h
        exact absurd h (by simp)
      · exact fun _ => ⟨rfl, rfl, rfl⟩
  rw [hS]
  have hlOa : lcut (openAt (ra.getD s.ai dummyRange).point0
      (ra.getD s.ai dummyRange).include0 dep nr st) =
      lcut (ra.getD s.ai dummyRange) := by
    simp [lcut, openAt]
  have hcl := hinv.hclosed (by simp [hab, hbb])
  have hrest : ∀ r ∈ s.output,
      cutLe (rcut r) (lcut (ra.getD s.ai dummyRange)) := by
    refine chainRev_all_le hcl.1 ?_
    intro r hr
    have h2 := (hcl.2 r hr).1 hai
    simpa [aev, hab] using h2
  refine PInv.mk hinv.haiLe hinv.hbiLe (fun _ => hai) (fun _ => hbi)
    ?_ ?_ (fun h => nomatch h) (fun h => nomatch h) ?_ ?_ ?_ ?_
  · -- hinA
    intro _ _
    have h2 := cutLe_of_cutLt hfbv
    rw [← hlcfb] at h2
    simpa [bev] using h2
  · -- hinB
    intro _ _
    have h2 := cutLe_of_cutLt hfav
    rw [hlcfb] at h2
    simpa [aev] using h2
  · -- hopen
    intro _
    refine ⟨_, _, rfl, ?_⟩
    refine ⟨hcl.1, ?_, ?_, ?_, ?_, ?_, ?_, ?_, ?_, ?_⟩
    · intro r hr
      rw [hlOa]
      exact hrest r hr
    · intro _
      rw [hlOa]
      simpa [aev] using cutLe_of_cutLt hfav
    · intro _
      rw [hlOa, hlcfb]
      simpa [bev] using cutLe_of_cutLt hfbv
    · intro h
      exact nomatch h
    · intro h
      exact nomatch h
    · intro _
      rw [hlOa]
      exact cutLe_refl _
    · intro _
      rw [hlOa, hlcfb]
      exact cutLe_refl _
    · -- DependOK
      cases type
      · refine ⟨?_, ?_, ?_⟩
        · exact fun _ _ => ⟨(hTM rfl).1, (hTM rfl).2.2⟩
        · exact fun _ h => nomatch h
        · exact fun h _ => nomatch h
      · refine ⟨?_, ?_⟩
        · exact fun _ h => nomatch h
        · exact fun _ => (hTD rfl).1
    · -- SourceOK
      refine ⟨?_, ?_⟩
      · intro i hi
        simp at hi
      · intro j hj
        simp at hj
  · -- hclosed (vacuous)
    intro h
    simp at h
  · -- hattr
    intro o ho
    refine hinv.hattr o ?_
    simpa [closedPart, hab, hbb] using ho
  · -- hcov
    intro hNSa hNSb hDa hDb x hst
    have hstA2 : ¬ cutLE (rcut (ra.getD s.ai dummyRange)) x := by
      have h2 := hst.1 hai
      simpa [aev] using h2
    have hstB2 : ¬ cutLE (rcut (rb.getD s.bi dummyRange)) x := by
      have h2 := hst.2 hbi
      simpa [bev] using h2
    by_cases hreg : cutLE (lcut (ra.getD s.ai dummyRange)) x
    · have hcra : covers ra x := covers_of_getD hai hreg hstA2
      have hcrb : covers rb x := by
        refine covers_of_getD hbi ?_ hstB2
        rw [← hlcfb]
        exact hreg
      cases type
      · have hdep : dep ≠ [] := by
          rw [(hTM rfl).1]
          intro hc
          exact depsNE_getD hDa hai (List.append_eq_nil.mp hc).1
        refine iff_of_true ?_ (Or.inl hcra)
        simp only [covState]
        refine Or.inr ⟨hdep, ?_⟩
        rw [hlOa]
        exact hreg
      · refine iff_of_false ?_ ?_
        · simp only [covState]
          rintro (h | ⟨h1, _⟩)
          · exact not_covers_of_all_rcut_le hrest hreg h
          · exact h1 (hTD rfl).1
        · rintro ⟨_, h2⟩
          exact h2 hcrb
    · have hsetOld : settled ra rb s x :=
        ⟨fun _ => by simpa [aev, hab] using hreg,
         fun _ => by
          have h2 : ¬ cutLE (lcut (rb.getD s.bi dummyRange)) x := by
            rw [← hlcfb]
            exact hreg
          simpa [bev, hbb] using h2⟩
      have hold := hinv.hcov hNSa hNSb hDa hDb x hsetOld
      simp only [covState, hab, hbb, Bool.or_self] at hold
      simp only [covState]
      rw [← hold]
      constructor
      · rintro (h | ⟨_, h2⟩)
        · exact h
        · exact absurd (by rw [← hlOa]; exact h2) hreg
      · exact fun h => Or.inl h

theorem pstep_case10 {ra rb : List RangeWithDepend} {type : PartitionType}
    {s : PartState} (hWA : WFRanges ra) (hWB : WFRanges rb)
    (hinv : PInv ra rb type s)
    (hab : s.ab = true) (hbb : s.bb = true)
    (hac : cval ra rb s ≤ 0) (hbc : (0 : Int) ≤ cval ra rb s) :
    PInv ra rb type (partStep ra rb type s) := by
  have hai : s.ai < ra.length := hinv.habLt hab
  have hbi : s.bi < rb.length := hinv.hbbLt hbb
  have hz := cval_zero_eq hai hbi (le_antisymm hac hbc)
  have haKey : aKeyOf ra s = (ra.getD s.ai dummyRange).point1 := by
    simp [aKeyOf, hab]
  have haInc : aIncOf ra s = (ra.getD s.ai dummyRange).include1 := by
    simp [aIncOf, hab]
  have hbKey : bKeyOf rb s = (rb.getD s.bi dummyRange).point1 := by
    simp [bKeyOf, hbb]
  have hbInc : bIncOf rb s = (rb.getD s.bi dummyRange).include1 := by
    simp [bIncOf, hbb]
  have hfeq : (ra.getD s.ai dummyRange).point1 =
      (rb.getD s.bi dummyRange).point1 := by
    rw [← haKey, ← hbKey]
    exact hz.1
  have hieq : (ra.getD s.ai dummyRange).include1 =
      (rb.getD s.bi dummyRange).include1 := by
    rw [← haInc, ← hbInc]
    exact hz.2.2
  have hrceq : rcut (ra.getD s.ai dummyRange) =
      rcut (rb.getD s.bi dummyRange) := by
    unfold rcut
    rw [hfeq, hieq]
  have hrc : (⟨aKeyOf ra s, aIncOf ra s⟩ : Cut) =
      rcut (ra.getD s.ai dummyRange) := by
    simp [rcut, haKey, haInc]
  obtain ⟨op, rest, hout, hOK⟩ := hinv.hopen (by simp [hab])
  obtain ⟨hOK1, hOK2, hOK3, hOK4, hOK5, hOK6, hOK7, hOK8, hOK9, hOK10⟩ := hOK
  have hevA : aev ra s = rcut (ra.getD s.ai dummyRange) := by simp [aev, hab]
  have hevB : bev rb s = rcut (rb.getD s.bi dummyRange) := by simp [bev, hbb]
  have hlev : cutLe (lcut op) (rcut (ra.getD s.ai dummyRange)) := by
    have h2 := hOK3 hai
    rwa [hevA] at h2
  rw [pstepEq10 hab hbb hac hbc]
  rcases putRight_cases (aKeyOf ra s) (aIncOf ra s) none s op
      rest hout with ⟨hpr, hdrop⟩ | ⟨hpr, hne, hncol, hnemp⟩
  · -- the closing interval is dropped
    rw [hpr]
    refine PInv.mk ?_ ?_ (fun h => nomatch h) (fun h => nomatch h)
      (fun h => nomatch h) (fun h => nomatch h) ?_ ?_ (fun h => nomatch h)
      ?_ ?_ ?_
    · show s.ai + 1 ≤ ra.length
      omega
    · show s.bi + 1 ≤ rb.length
      omega
    · -- hhistA
      intro _ _ hbi1
      have h2 := WF_step hWB hbi1
      rw [← hrceq] at h2
      simpa [bev, Nat.add_sub_cancel] using h2
    · -- hhistB
      intro _ _ hai1
      have h2 := WF_step hWA hai1
      rw [hrceq] at h2
      simpa [aev, Nat.add_sub_cancel] using h2
    · -- hclosed
      intro _
      refine ⟨hOK1, ?_⟩
      intro r hr
      have hrcs : cutLe (rcut r) (rcut (ra.getD s.ai dummyRange)) :=
        cutLe_trans (hOK2 r (head?_mem hr)) hlev
      constructor
      · intro hai1
        have h3 := cutLe_trans hrcs (WF_step hWA hai1)
        simpa [aev] using h3
      · intro hbi1
        have h4 := hrcs
        rw [hrceq] at h4
        have h3 := cutLe_trans h4 (WF_step hWB hbi1)
        simpa [bev] using h3
    · -- hattr
      intro o ho
      refine hinv.hattr o ?_
      have ho2 : o ∈ rest := by simpa [closedPart] using ho
      simp only [closedPart, hout, hab, Bool.true_or, if_true, List.tail_cons]
      exact ho2
    · -- hcov
      intro hNSa hNSb hDa hDb x hst
      have hstA2 : s.ai + 1 < ra.length →
          ¬ cutLE (lcut (ra.getD (s.ai + 1) dummyRange)) x := by
        intro h
        have h2 := hst.1 h
        simpa [aev] using h2
      have hstB2 : s.bi + 1 < rb.length →
          ¬ cutLE (lcut (rb.getD (s.bi + 1) dummyRange)) x := by
        intro h
        have h2 := hst.2 h
        simpa [bev] using h2
      have hnra : cutLE (rcut (ra.getD s.ai dummyRange)) x →
          ¬ covers ra x := by
        intro hreg
        refine not_covers_slab hWA (i := s.ai + 1)
          (c := rcut (ra.getD s.ai dummyRange)) ?_ (by omega) hreg hstA2
        intro _
        simp only [Nat.add_sub_cancel]
        exact cutLe_refl _
      have hnrb : cutLE (rcut (ra.getD s.ai dummyRange)) x →
          ¬ covers rb x := by
        intro hreg
        refine not_covers_slab hWB (i := s.bi + 1)
          (c := rcut (ra.getD s.ai dummyRange)) ?_ (by omega) hreg hstB2
        intro _
        simp only [Nat.add_sub_cancel]
        rw [← hrceq]
        exact cutLe_refl _
      have hcrest : cutLE (rcut (ra.getD s.ai dummyRange)) x →
          ¬ covers rest x := fun hreg =>
        not_covers_of_all_rcut_le
          (fun r hr => cutLe_trans (hOK2 r hr) hlev) hreg
      rcases hdrop with hd | hd | hd
      · -- empty dependence
        cases type
        · exfalso
          have h9 := hOK9
          simp only [DependOK] at h9
          have he := (h9.1 hab hbb).1
          rw [he] at hd
          exact depsNE_getD hDa hai (List.append_eq_nil.mp hd).1
        · have h9 := hOK9
          simp only [DependOK] at h9
          by_cases hreg : cutLE (rcut (ra.getD s.ai dummyRange)) x
          · refine iff_of_false ?_ ?_
            · simpa [covState] using hcrest hreg
            · rintro ⟨h, _⟩
              exact hnra hreg h
          · have hsetOld : settled ra rb s x :=
              ⟨fun _ => by simpa [aev, hab] using hreg,
               fun _ => by
                have h2 : ¬ cutLE (rcut (rb.getD s.bi dummyRange)) x := by
                  rw [← hrceq]
                  exact hreg
                simpa [bev, hbb] using h2⟩
            have hold := hinv.hcov hNSa hNSb hDa hDb x hsetOld
            simp only [covState, hout, hab, hbb, Bool.true_or,
              if_true] at hold
            simp only [covState]
            rw [← hold]
            constructor
            · exact fun h => Or.inl h
            · rintro (h | ⟨hne2, _⟩)
              · exact h
              · exact absurd (h9.2 hbb) hne2
      · -- empty-interval collapse
        have hcle := collapse_cutLe hd
        rw [hrc] at hcle
        have heq : lcut op = rcut (ra.getD s.ai dummyRange) :=
          cutLe_antisymm hlev hcle
        by_cases hreg : cutLE (rcut (ra.getD s.ai dummyRange)) x
        · refine iff_of_false ?_ ?_
          · simpa [covState] using hcrest hreg
          · cases type
            · rintro (h | h)
              · exact hnra hreg h
              · exact hnrb hreg h
            · rintro ⟨h, _⟩
              exact hnra hreg h
        · have hsetOld : settled ra rb s x :=
            ⟨fun _ => by simpa [aev, hab] using hreg,
             fun _ => by
              have h2 : ¬ cutLE (rcut (rb.getD s.bi dummyRange)) x := by
                rw [← hrceq]
                exact hreg
              simpa [bev, hbb] using h2⟩
          have hold := hinv.hcov hNSa hNSb hDa hDb x hsetOld
          simp only [covState, hout, hab, hbb, Bool.true_or, if_true] at hold
          have hlx : ¬ cutLE (lcut op) x := by
            rw [heq]
            exact hreg
          simp only [covState]
          rw [← hold]
          constructor
          · exact fun h => Or.inl h
          · rintro (h | ⟨_, h2⟩)
            · exact h
            · exact absurd h2 hlx
      · -- sentinel drop
        exfalso
        have hseq := isEmpty_seq hd
        have h2 : seqOf (ra.getD s.ai dummyRange).point1 =
            kMaxSequenceNumber := by
          simpa [haKey] using hseq
        exact (noSentinel_getD hNSa hai).2 h2
  · -- the closing interval is kept
    have hstf : (if s.source = none ∨ (none : Option (Bool × Nat)) = none ∨
        s.source ≠ (none : Option (Bool × Nat)) then false
        else op.stable) = false := by simp
    rw [hstf] at hpr
    rw [hpr]
    have hvop : validRange (closeAt op (aKeyOf ra s) (aIncOf ra s) false) := by
      have h2 : cutLt (lcut op) (⟨aKeyOf ra s, aIncOf ra s⟩ : Cut) :=
        close_valid (by rw [hrc]; exact hlev) hncol
      rw [validRange, lcut_closeAt, rcut_closeAt]
      exact h2
    have hrcc : rcut (closeAt op (aKeyOf ra s) (aIncOf ra s) false) =
        rcut (ra.getD s.ai dummyRange) := by
      rw [rcut_closeAt, hrc]
    refine PInv.mk ?_ ?_ (fun h => nomatch h) (fun h => nomatch h)
      (fun h => nomatch h) (fun h => nomatch h) ?_ ?_ (fun h => nomatch h)
      ?_ ?_ ?_
    · show s.ai + 1 ≤ ra.length
      omega
    · show s.bi + 1 ≤ rb.length
      omega
    · -- hhistA
      intro _ _ hbi1
      have h2 := WF_step hWB hbi1
      rw [← hrceq] at h2
      simpa [bev, Nat.add_sub_cancel] using h2
    · -- hhistB
      intro _ _ hai1
      have h2 := WF_step hWA hai1
      rw [hrceq] at h2
      simpa [aev, Nat.add_sub_cancel] using h2
    · -- hclosed
      intro _
      constructor
      · exact chainRev_cons hvop hOK1 (fun q hq => hOK2 q (head?_mem hq))
      · intro r hr
        have hre : closeAt op (aKeyOf ra s) (aIncOf ra s) false = r := by
          simpa using hr
        subst hre
        constructor
        · intro hai1
          have h2 := WF_step hWA hai1
          rw [← hrcc] at h2
          simpa [aev] using h2
        · intro hbi1
          have h2 := WF_step hWB hbi1
          rw [← hrceq, ← hrcc] at h2
          simpa [bev] using h2
    · -- hattr
      intro o ho
      have ho2 : o ∈ (closeAt op (aKeyOf ra s) (aIncOf ra s) false :: rest) := by
        simpa [closedPart] using ho
      rcases List.mem_cons.mp ho2 with rfl | hmem
      · cases type
        · have h9 := hOK9
          simp only [DependOK] at h9
          refine Or.inl ⟨s.ai, hai, s.bi, hbi, ⟨?_, ?_⟩, ⟨?_, ?_⟩, ?_, ?_⟩
          · rw [lcut_closeAt]
            exact hOK7 hab
          · rw [hrcc]
            exact cutLe_refl _
          · rw [lcut_closeAt]
            exact hOK8 hbb
          · rw [hrcc, hrceq]
            exact cutLe_refl _
          · rw [deps_closeAt]
            exact (h9.1 hab hbb).1
          · rw [stable_closeAt]
        · trivial
      · refine hinv.hattr o ?_
        simp only [closedPart, hout, hab, Bool.true_or, if_true,
          List.tail_cons]
        exact hmem
    · -- hcov
      intro hNSa hNSb hDa hDb x hst
      have hstA2 : s.ai + 1 < ra.length →
          ¬ cutLE (lcut (ra.getD (s.ai + 1) dummyRange)) x := by
        intro h
        have h2 := hst.1 h
        simpa [aev] using h2
      have hstB2 : s.bi + 1 < rb.length →
          ¬ cutLE (lcut (rb.getD (s.bi + 1) dummyRange)) x := by
        intro h
        have h2 := hst.2 h
        simpa [bev] using h2
      have hnra : cutLE (rcut (ra.getD s.ai dummyRange)) x →
          ¬ covers ra x := by
        intro hreg
        refine not_covers_slab hWA (i := s.ai + 1)
          (c := rcut (ra.getD s.ai dummyRange)) ?_ (by omega) hreg hstA2
        intro _
        simp only [Nat.add_sub_cancel]
        exact cutLe_refl _
      have hnrb : cutLE (rcut (ra.getD s.ai dummyRange)) x →
          ¬ covers rb x := by
        intro hreg
        refine not_covers_slab hWB (i := s.bi + 1)
          (c := rcut (ra.getD s.ai dummyRange)) ?_ (by omega) hreg hstB2
        intro _
        simp only [Nat.add_sub_cancel]
        rw [← hrceq]
        exact cutLe_refl _
      have hcrest : cutLE (rcut (ra.getD s.ai dummyRange)) x →
          ¬ covers rest x := fun hreg =>
        not_covers_of_all_rcut_le
          (fun r hr => cutLe_trans (hOK2 r hr) hlev) hreg
      by_cases hreg : cutLE (rcut (ra.getD s.ai dummyRange)) x
      · refine iff_of_false ?_ ?_
        · simp only [covState, covers_cons]
          rintro (h | h)
          · refine h.2 ?_
            rw [hrcc]
            exact hreg
          · exact hcrest hreg h
        · cases type
          · rintro (h | h)
            · exact hnra hreg h
            · exact hnrb hreg h
          · rintro ⟨h, _⟩
            exact hnra hreg h
      · have hsetOld : settled ra rb s x :=
          ⟨fun _ => by simpa [aev, hab] using hreg,
           fun _ => by
            have h2 : ¬ cutLE (rcut (rb.getD s.bi dummyRange)) x := by
              rw [← hrceq]
              exact hreg
            simpa [bev, hbb] using h2⟩
        have hold := hinv.hcov hNSa hNSb hDa hDb x hsetOld
        simp only [covState, hout, hab, hbb, Bool.true_or, if_true] at hold
        simp only [covState, covers_cons]
        rw [← hold]
        constructor
        · rintro (h | h)
          · refine Or.inr ⟨hne, ?_⟩
            have h2 := h.1
            rwa [lcut_closeAt] at h2
          · exact Or.inl h
        · rintro (h | ⟨_, h2⟩)
          · exact Or.inr h
          · refine Or.inl ⟨?_, ?_⟩
            · rw [lcut_closeAt]
              exact h2
            · intro hcx
              rw [hrcc] at hcx
              exact hreg hcx

/-- One sweep iteration preserves the invariant and decreases the number of
unprocessed events. -/
theorem pstep_preserves {ra rb : List RangeWithDepend} {type : PartitionType}
    {s : PartState} (hWA : WFRanges ra) (hWB : WFRanges rb)
    (hinv : PInv ra rb type s)
    (hnd : ¬ (s.ai = ra.length ∧ s.bi = rb.length)) :
    PInv ra rb type (partStep ra rb type s) ∧
      pmeasure ra rb (partStep ra rb type s) < pmeasure ra rb s := by
  have hale := hinv.haiLe
  have hble := hinv.hbiLe
  cases hab : s.ab <;> cases hbb : s.bb <;>
    rcases Decidable.em (cval ra rb s ≤ 0) with hac | hac <;>
    rcases Decidable.em ((0 : Int) ≤ cval ra rb s) with hbc | hbc
  · -- (f, f, ≤0, ≥0): both sides enter at the same cut
    refine ⟨pstep_case9 hWA hWB hinv hab hbb hac hbc, ?_⟩
    have hai := ai_lt_of_cval_nonpos hac
    rw [pstepEq9 hab hbb hac hbc]
    simp [pmeasure, hab, hbb]
    omega
  · -- (f, f, ≤0, <0): a enters
    refine ⟨pstep_case1 hWA hWB hinv hab hbb hac hbc, ?_⟩
    have hai := ai_lt_of_cval_nonpos hac
    rw [pstepEq1 hab hbb hac hbc]
    simp [pmeasure, hab, hbb]
    omega
  · -- (f, f, >0, ≥0): b enters
    refine ⟨pstep_case3 hWA hWB hinv hnd hab hbb hac hbc, ?_⟩
    have hbi : s.bi < rb.length := by
      by_cases h : s.bi < rb.length
      · exact h
      · exfalso
        by_cases h2 : s.ai < ra.length
        · have he : cval ra rb s = -1 := by
            unfold cval
            rw [if_neg (fun hand => h hand.2), if_pos h2]
          rw [he] at hac
          exact hac (by norm_num)
        · exact hnd ⟨by omega, by omega⟩
    rw [pstepEq3 hab hbb hac hbc]
    simp [pmeasure, hab, hbb]
    omega
  · -- impossible: neither direction
    exact absurd (cval_trichotomy ra rb s) (by
      rintro (h | h)
      · exact hac h
      · exact hbc h)
  · -- (f, t, ≤0, ≥0): c = 0 with different flags is impossible
    exfalso
    have hai := ai_lt_of_cval_nonpos hac
    have hbi := bi_lt_of_cval_nonneg (Or.inl hai) hbc
    have hz := cval_zero_eq hai hbi (le_antisymm hac hbc)
    rw [hab, hbb] at hz
    exact absurd hz.2.1 (by simp)
  · -- (f, t, ≤0, <0): a begins inside b
    refine ⟨pstep_case7 hWA hWB hinv hab hbb hac hbc, ?_⟩
    have hbi := hinv.hbbLt hbb
    have hai := ai_lt_of_cval_nonpos hac
    rw [pstepEq7 hab hbb hac hbc]
    simp [pmeasure, hab, hbb]
    omega
  · -- (f, t, >0, ≥0): b leaves
    refine ⟨pstep_case4 hWA hWB hinv hab hbb hac hbc, ?_⟩
    have hbi := hinv.hbbLt hbb
    rw [pstepEq4 hab hbb hac hbc]
    simp [pmeasure, hab, hbb]
    omega
  · exact absurd (cval_trichotomy ra rb s) (by
      rintro (h | h)
      · exact hac h
      · exact hbc h)
  · -- (t, f, ≤0, ≥0): impossible
    exfalso
    have hai := ai_lt_of_cval_nonpos hac
    have hbi := bi_lt_of_cval_nonneg (Or.inl hai) hbc
    have hz := cval_zero_eq hai hbi (le_antisymm hac hbc)
    rw [hab, hbb] at hz
    exact absurd hz.2.1 (by simp)
  · -- (t, f, ≤0, <0): a leaves
    refine ⟨pstep_case2 hWA hWB hinv hab hbb hac hbc, ?_⟩
    have hai := hinv.habLt hab
    rw [pstepEq2 hab hbb hac hbc]
    simp [pmeasure, hab, hbb]
    omega
  · -- (t, f, >0, ≥0): b begins inside a
    refine ⟨pstep_case5 hWA hWB hinv hab hbb hac hbc, ?_⟩
    have hai := hinv.habLt hab
    have hbi := bi_lt_of_cval_nonneg (Or.inl hai) hbc
    rw [pstepEq5 hab hbb hac hbc]
    simp [pmeasure, hab, hbb]
    omega
  · exact absurd (cval_trichotomy ra rb s) (by
      rintro (h | h)
      · exact hac h
      · exact hbc h)
  · -- (t, t, ≤0, ≥0): both leave
    refine ⟨pstep_case10 hWA hWB hinv hab hbb hac hbc, ?_⟩
    have hai := hinv.habLt hab
    have hbi := hinv.hbbLt hbb
    rw [pstepEq10 hab hbb hac hbc]
    simp [pmeasure, hab, hbb]
    omega
  · -- (t, t, ≤0, <0): a leaves inside b
    refine ⟨pstep_case8 hWA hWB hinv hab hbb hac hbc, ?_⟩
    have hai := hinv.habLt hab
    have hbi := hinv.hbbLt hbb
    rw [pstepEq8 hab hbb hac hbc]
    simp [pmeasure, hab, hbb]
    omega
  · -- (t, t, >0, ≥0): b leaves inside a
    refine ⟨pstep_case6 hWA hWB hinv hab hbb hac hbc, ?_⟩
    have hai := hinv.habLt hab
    have hbi := hinv.hbbLt hbb
    rw [pstepEq6 hab hbb hac hbc]
    simp [pmeasure, hab, hbb]
    omega
  · exact absurd (cval_trichotomy ra rb s) (by
      rintro (h | h)
      · exact hac h
      · exact hbc h)

/-- The sweep invariant holds before the first iteration. -/
theorem partInit_inv {ra rb : List RangeWithDepend} {type : PartitionType}
    (hWA : WFRanges ra) (hWB : WFRanges rb) :
    PInv ra rb type partInit := by
  refine PInv.mk (Nat.zero_le _) (Nat.zero_le _) (fun h => nomatch h)
    (fun h => nomatch h) (fun h => nomatch h) (fun h => nomatch h)
    (fun _ h _ => absurd h (by decide)) (fun _ h _ => absurd h (by decide))
    (fun h => nomatch h) ?_ ?_ ?_
  · intro _
    refine ⟨chainRev_nil, ?_⟩
    intro r hr
    exact nomatch hr
  · intro o ho
    simp [closedPart, partInit] at ho
  · intro hNSa hNSb hDa hDb x hst
    have hnra : ¬ covers ra x := by
      refine not_covers_of_before_first hWA ?_
      intro h
      have h2 := hst.1 h
      simpa [aev, partInit] using h2
    have hnrb : ¬ covers rb x := by
      refine not_covers_of_before_first hWB ?_
      intro h
      have h2 := hst.2 h
      simpa [bev, partInit] using h2
    refine iff_of_false ?_ ?_
    · simp [covState, partInit, covers_nil]
    · cases type
      · rintro (h | h)
        · exact hnra h
        · exact hnrb h
      · rintro ⟨h, _⟩
        exact hnra h

/-- The sweep loop, run with enough fuel from an invariant state, ends in an
invariant state with both vectors exhausted and both flags down. -/
theorem partLoop_master {ra rb : List RangeWithDepend} {type : PartitionType}
    (hWA : WFRanges ra) (hWB : WFRanges rb) :
    ∀ (fuel : Nat) (s : PartState), PInv ra rb type s →
      ¬ (s.ai = ra.length ∧ s.bi = rb.length) →
      pmeasure ra rb s ≤ fuel →
      ∃ t : PartState, partLoop ra rb type fuel s = t.output ∧
        PInv ra rb type t ∧ t.ai = ra.length ∧ t.bi = rb.length ∧
        t.ab = false ∧ t.bb = false := by
  intro fuel
  induction fuel with
  | zero =>
    intro s hinv hnd hm
    exfalso
    have hale := hinv.haiLe
    have hble := hinv.hbiLe
    have h1 : (if s.ab then 1 else 0) ≤ 1 := by split <;> omega
    have h2 : (if s.bb then 1 else 0) ≤ 1 := by split <;> omega
    unfold pmeasure at hm
    omega
  | succ n ih =>
    intro s hinv hnd hm
    obtain ⟨hinv2, hdec⟩ := pstep_preserves hWA hWB hinv hnd
    by_cases hdone : (partStep ra rb type s).ai = ra.length ∧
        (partStep ra rb type s).bi = rb.length
    · refine ⟨partStep ra rb type s, ?_, hinv2, hdone.1, hdone.2, ?_, ?_⟩
      · simp only [partLoop]
        rw [if_pos hdone]
      · cases hab2 : (partStep ra rb type s).ab
        · rfl
        · exact absurd hdone.1 (Nat.ne_of_lt (hinv2.habLt hab2))
      · cases hbb2 : (partStep ra rb type s).bb
        · rfl
        · exact absurd hdone.2 (Nat.ne_of_lt (hinv2.hbbLt hbb2))
    · obtain ⟨t, ht, h3, h4, h5, h6, h7⟩ :=
        ih (partStep ra rb type s) hinv2 hdone (by omega)
      refine ⟨t, ?_, h3, h4, h5, h6, h7⟩
      simp only [partLoop]
      rw [if_neg hdone]
      exact ht

/-- `PartitionRangeWithDepend` of two non-empty well-formed vectors is the
reversal of a final sweep state's output. -/
theorem partition_master {ra rb : List RangeWithDepend} {type : PartitionType}
    (hWA : WFRanges ra) (hWB : WFRanges rb) (hne : ra ≠ [] ∨ rb ≠ []) :
    ∃ t : PartState,
      PartitionRangeWithDepend ra rb type = t.output.reverse ∧
      PInv ra rb type t ∧ t.ai = ra.length ∧ t.bi = rb.length ∧
      t.ab = false ∧ t.bb = false := by
  have hnd : ¬ (partInit.ai = ra.length ∧ partInit.bi = rb.length) := by
    rintro ⟨h1, h2⟩
    rcases hne with h | h
    · exact h (List.length_eq_zero.mp h1.symm)
    · exact h (List.length_eq_zero.mp h2.symm)
  have hm : pmeasure ra rb partInit ≤ 2 * (ra.length + rb.length) + 1 := by
    simp [pmeasure, partInit]
    omega
  obtain ⟨t, ht, h3, h4, h5, h6, h7⟩ :=
    partLoop_master hWA hWB (2 * (ra.length + rb.length) + 1) partInit
      (partInit_inv hWA hWB) hnd hm
  refine ⟨t, ?_, h3, h4, h5, h6, h7⟩
  unfold PartitionRangeWithDepend
  rw [ht]

theorem covers_reverse {l : List RangeWithDepend} {x : IKey} :
    covers l.reverse x ↔ covers l x := by
  constructor <;> rintro ⟨r, hr, hm⟩ <;>
    exact ⟨r, by simpa [List.mem_reverse] using hr, hm⟩

theorem nonOverlapIncl_of_cutLe {r r' : RangeWithDepend}
    (h : cutLe (rcut r) (lcut r')) : nonOverlapIncl r r' := by
  unfold nonOverlapIncl
  rcases h with h | ⟨h1, h2⟩
  · exact Or.inl (ikeyCmp_neg_iff.mpr h)
  · refine Or.inr ⟨ikeyCmp_zero_iff.mpr h1, ?_⟩
    rintro ⟨ha, hb⟩
    have h3 := h2 ha
    simp only [lcut] at h3
    rw [hb] at h3
    simp at h3

theorem ikeyCmp_le_of_cutLe_valid {r r' : RangeWithDepend}
    (hv : validRange r') (h : cutLe (rcut r) (lcut r')) :
    ikeyCmp r.point1 r'.point1 ≤ 0 := by
  have h2 : cutLt (rcut r) (rcut r') := cutLt_of_cutLe_of_cutLt h hv
  rcases h2 with h2 | ⟨h2, _, _⟩
  · exact le_of_lt (ikeyCmp_neg_iff.mpr h2)
  · exact le_of_eq (ikeyCmp_zero_iff.mpr h2)

/-! ### C1: pointwise coverage of the partitioner -/

/-- **C1** (counterexample): with a MERGE input interval whose upper internal
key carries the max-sequence sentinel footer, the partitioner silently drops
the interval (`IsEmptyMapSstElement`), so the output's coverage is NOT the
union of the inputs' coverages. -/
theorem C1_counterexample :
    ¬ (covers (PartitionRangeWithDepend
        [{ point0 := ⟨0, kMaxSequenceNumber * 256 + 5⟩,
           point1 := ⟨0, kMaxSequenceNumber * 256⟩,
           include0 := true, include1 := true, no_records := false,
           stable := true, dependence := [⟨1, 0⟩] }]
        [{ point0 := ⟨5, 3⟩, point1 := ⟨6, 3⟩,
           include0 := true, include1 := true, no_records := false,
           stable := true, dependence := [⟨2, 0⟩] }] .kMerge)
        ⟨0, kMaxSequenceNumber * 256⟩ ↔
      ptarget .kMerge
        [{ point0 := ⟨0, kMaxSequenceNumber * 256 + 5⟩,
           point1 := ⟨0, kMaxSequenceNumber * 256⟩,
           include0 := true, include1 := true, no_records := false,
           stable := true, dependence := [⟨1, 0⟩] }]
        [{ point0 := ⟨5, 3⟩, point1 := ⟨6, 3⟩,
           include0 := true, include1 := true, no_records := false,
           stable := true, dependence := [⟨2, 0⟩] }]
        ⟨0, kMaxSequenceNumber * 256⟩) := by
  decide

/-- **C1** (amended): for sorted, pairwise non-overlapping, non-empty input
vectors with non-empty dependence lists and no max-sequence sentinel
endpoint, `PartitionRangeWithDepend` produces a vector whose pointwise
coverage equals the union (MERGE) resp. the difference (DELETE) of the
inputs' coverages. -/
theorem C1_amended {ra rb : List RangeWithDepend} {type : PartitionType}
    (hWA : WFRanges ra) (hWB : WFRanges rb)
    (hna : ra ≠ []) (hnb : rb ≠ [])
    (hNSa : NoSentinel ra) (hNSb : NoSentinel rb)
    (hDa : DepsNE ra) (hDb : type = .kMerge → DepsNE rb) :
    ∀ x, covers (PartitionRangeWithDepend ra rb type) x ↔
      ptarget type ra rb x := by
  intro x
  obtain ⟨t, ht, hinv, h4, h5, h6, h7⟩ := partition_master hWA hWB
    (Or.inl hna)
  rw [ht, covers_reverse]
  have hset : settled ra rb t x :=
    ⟨fun h => absurd h (by omega), fun h => absurd h (by omega)⟩
  have h2 := hinv.hcov hNSa hNSb hDa hDb x hset
  simpa [covState, h6, h7] using h2

/-- Witness for C1: a concrete MERGE instance satisfying every hypothesis. -/
theorem C1_witness :
    WFRanges [{ point0 := ⟨1, 100⟩, point1 := ⟨2, 100⟩,
                include0 := true, include1 := true, no_records := false,
                stable := true, dependence := [⟨1, 0⟩] }] ∧
    WFRanges [{ point0 := ⟨5, 100⟩, point1 := ⟨6, 100⟩,
                include0 := true, include1 := true, no_records := false,
                stable := true, dependence := [⟨2, 0⟩] }] ∧
    (covers (PartitionRangeWithDepend
        [{ point0 := ⟨1, 100⟩, point1 := ⟨2, 100⟩, include0 := true,
           include1 := true, no_records := false, stable := true,
           dependence := [⟨1, 0⟩] }]
        [{ point0 := ⟨5, 100⟩, point1 := ⟨6, 100⟩, include0 := true,
           include1 := true, no_records := false, stable := true,
           dependence := [⟨2, 0⟩] }] .kMerge) ⟨1, 100⟩ ↔
      ptarget .kMerge
        [{ point0 := ⟨1, 100⟩, point1 := ⟨2, 100⟩, include0 := true,
           include1 := true, no_records := false, stable := true,
           dependence := [⟨1, 0⟩] }]
        [{ point0 := ⟨5, 100⟩, point1 := ⟨6, 100⟩, include0 := true,
           include1 := true, no_records := false, stable := true,
           dependence := [⟨2, 0⟩] }] ⟨1, 100⟩) :=
  ⟨by decide, by decide,
   C1_amended (by decide) (by decide) (by decide) (by decide) (by decide)
     (by decide) (by decide) (fun _ => by decide) ⟨1, 100⟩⟩

/-! ### C2: the output is sorted and non-overlapping -/

/-- **C2**: for sorted, pairwise non-overlapping, non-empty input vectors,
the output of `PartitionRangeWithDepend` (either mode) is pairwise
non-overlapping under the inclusive-aware comparison — touching endpoints
with complementary inclusivity allowed — and is monotonically ordered by
upper endpoint. -/
theorem C2_sorted_nonoverlap {ra rb : List RangeWithDepend}
    {type : PartitionType} (hWA : WFRanges ra) (hWB : WFRanges rb)
    (hna : ra ≠ []) (hnb : rb ≠ []) :
    (PartitionRangeWithDepend ra rb type).Chain' nonOverlapIncl ∧
    (PartitionRangeWithDepend ra rb type).Chain'
      (fun r r' => ikeyCmp r.point1 r'.point1 ≤ 0) := by
  obtain ⟨t, ht, hinv, h4, h5, h6, h7⟩ :=
    @partition_master ra rb type hWA hWB (Or.inl hna)
  have hcl := hinv.hclosed (by simp [h6, h7])
  have hchain : t.output.reverse.Chain'
      (fun r r' => cutLe (rcut r) (lcut r')) := by
    rw [List.chain'_reverse]
    exact hcl.1.2
  constructor
  · rw [ht]
    exact List.Chain'.imp (fun a b h => nonOverlapIncl_of_cutLe h) hchain
  · rw [ht]
    rw [List.chain'_iff_get]
    intro i hi
    have h2 := List.chain'_iff_get.mp hchain i hi
    have hv : validRange (t.output.reverse.get ⟨i + 1, by omega⟩) :=
      hcl.1.1 _ (List.mem_reverse.mp (List.get_mem _ _ _))
    exact ikeyCmp_le_of_cutLe_valid hv h2

/-- Witness for C2: the theorem applied at a concrete MERGE instance. -/
theorem C2_witness :
    WFRanges [{ point0 := ⟨1, 100⟩, point1 := ⟨4, 100⟩,
                include0 := true, include1 := true, no_records := false,
                stable := true, dependence := [⟨1, 0⟩] }] ∧
    WFRanges [{ point0 := ⟨2, 100⟩, point1 := ⟨6, 100⟩,
                include0 := true, include1 := true, no_records := false,
                stable := true, dependence := [⟨2, 0⟩] }] ∧
    ((PartitionRangeWithDepend
        [{ point0 := ⟨1, 100⟩, point1 := ⟨4, 100⟩, include0 := true,
           include1 := true, no_records := false, stable := true,
           dependence := [⟨1, 0⟩] }]
        [{ point0 := ⟨2, 100⟩, point1 := ⟨6, 100⟩, include0 := true,
           include1 := true, no_records := false, stable := true,
           dependence := [⟨2, 0⟩] }] .kMerge).Chain' nonOverlapIncl ∧
      (PartitionRangeWithDepend
        [{ point0 := ⟨1, 100⟩, point1 := ⟨4, 100⟩, include0 := true,
           include1 := true, no_records := false, stable := true,
           dependence := [⟨1, 0⟩] }]
        [{ point0 := ⟨2, 100⟩, point1 := ⟨6, 100⟩, include0 := true,
           include1 := true, no_records := false, stable := true,
           dependence := [⟨2, 0⟩] }] .kMerge).Chain'
        (fun r r' => ikeyCmp r.point1 r'.point1 ≤ 0)) :=
  ⟨by decide, by decide,
   C2_sorted_nonoverlap (by decide) (by decide) (by decide) (by decide)⟩

/-! ### C3: attribution of MERGE output intervals -/

/-- **C3** (counterexample): in MERGE, an output interval covered only by an
A-interval — here the piece of `[1,10]` before `B = [5,8]` begins — carries
A's link list and `no_records`, but its `stable` flag is cleared rather than
carried over (`put_left` creates the piece with `stable = false` and
`put_right` finds `source ≠ r`). -/
theorem C3_counterexample :
    ∃ o ∈ PartitionRangeWithDepend
        [{ point0 := ⟨1, 100⟩, point1 := ⟨10, 100⟩, include0 := true,
           include1 := true, no_records := false, stable := true,
           dependence := [⟨1, 0⟩] }]
        [{ point0 := ⟨5, 100⟩, point1 := ⟨8, 100⟩, include0 := true,
           include1 := true, no_records := false, stable := true,
           dependence := [⟨2, 0⟩] }] .kMerge,
      subCut o { point0 := ⟨1, 100⟩, point1 := ⟨10, 100⟩,
                 include0 := true, include1 := true, no_records := false,
                 stable := true, dependence := [⟨1, 0⟩] } ∧
      disjCut o { point0 := ⟨5, 100⟩, point1 := ⟨8, 100⟩,
                  include0 := true, include1 := true, no_records := false,
                  stable := true, dependence := [⟨2, 0⟩] } ∧
      o.dependence = [⟨1, 0⟩] ∧ o.no_records = false ∧
      o.stable = false := by
  decide

/-- **C3** (amended): in MERGE, every output interval is attributed
correctly: both-covered pieces carry `A.deps ++ B.deps` with
`stable = false`; one-side pieces lie inside that side's interval, are
disjoint from every interval of the other side, and carry that side's link
list and `no_records` — but `stable` survives only when the piece reproduces
the input interval verbatim. -/
theorem C3_amended {ra rb : List RangeWithDepend}
    (hWA : WFRanges ra) (hWB : WFRanges rb) (hna : ra ≠ []) (hnb : rb ≠ []) :
    ∀ o ∈ PartitionRangeWithDepend ra rb .kMerge, AttrOK ra rb .kMerge o := by
  obtain ⟨t, ht, hinv, h4, h5, h6, h7⟩ := partition_master hWA hWB
    (Or.inl hna)
  intro o ho
  rw [ht] at ho
  refine hinv.hattr o ?_
  simpa [closedPart, h6, h7] using List.mem_reverse.mp ho

/-- Witness for C3: the amended attribution at a concrete MERGE instance. -/
theorem C3_witness :
    WFRanges [{ point0 := ⟨1, 100⟩, point1 := ⟨4, 100⟩,
                include0 := true, include1 := true, no_records := false,
                stable := false, dependence := [⟨1, 0⟩] }] ∧
    (∀ o ∈ PartitionRangeWithDepend
        [{ point0 := ⟨1, 100⟩, point1 := ⟨4, 100⟩, include0 := true,
           include1 := true, no_records := false, stable := false,
           dependence := [⟨1, 0⟩] }]
        [{ point0 := ⟨2, 100⟩, point1 := ⟨6, 100⟩, include0 := true,
           include1 := true, no_records := false, stable := false,
           dependence := [⟨2, 0⟩] }] .kMerge,
      AttrOK [{ point0 := ⟨1, 100⟩, point1 := ⟨4, 100⟩,
                include0 := true, include1 := true, no_records := false,
                stable := false, dependence := [⟨1, 0⟩] }]
        [{ point0 := ⟨2, 100⟩, point1 := ⟨6, 100⟩, include0 := true,
           include1 := true, no_records := false, stable := false,
           dependence := [⟨2, 0⟩] }] .kMerge o) :=
  ⟨by decide,
   C3_amended (by decide) (by decide) (by decide) (by decide)⟩

/-! ### C6: link sizes and no_records in MapSstElementIterator::PrepareNext -/

theorem tw_le (p : IKey → Bool) : ∀ l : List IKey,
    (l.takeWhile p).length ≤ l.length
  | [] => Nat.le_refl 0
  | a :: t => by
    by_cases h : p a
    · simpa [List.takeWhile_cons, h] using Nat.succ_le_succ (tw_le p t)
    · simp [List.takeWhile_cons, h]

theorem tw_pred (p : IKey → Bool) : ∀ (l : List IKey) (i : Nat),
    i < (l.takeWhile p).length → p (l.getD i ⟨0, 0⟩) = true
  | [], i, h => by simp [List.takeWhile] at h
  | a :: t, i, h => by
    by_cases hp : p a
    · cases i with
      | zero => simpa using hp
      | succ m =>
        have h' : m < (t.takeWhile p).length := by
          simpa [List.takeWhile_cons, hp] using h
        simpa using tw_pred p t m h'
    · simp [List.takeWhile_cons, hp] at h

theorem tw_stop (p : IKey → Bool) : ∀ l : List IKey,
    (l.takeWhile p).length < l.length →
      p (l.getD (l.takeWhile p).length ⟨0, 0⟩) = false
  | [], h => by simp at h
  | a :: t, h => by
    by_cases hp : p a
    · have h' : (t.takeWhile p).length < t.length := by
        simpa [List.takeWhile_cons, hp] using h
      simpa [List.takeWhile_cons, hp] using tw_stop p t h'
    · simp only [List.takeWhile_cons]
      rw [if_neg hp]
      simpa using Bool.eq_false_iff.mpr hp

theorem chain_getD_lt {l : List IKey} (hs : l.Chain' keyLt) {i j : Nat}
    (hij : i < j) (hj : j < l.length) :
    keyLt (l.getD i ⟨0, 0⟩) (l.getD j ⟨0, 0⟩) := by
  have hp : l.Pairwise keyLt := List.chain'_iff_pairwise.mp hs
  have hi : i < l.length := Nat.lt_trans hij hj
  rw [List.getD_eq_getElem l _ hi, List.getD_eq_getElem l _ hj]
  exact List.pairwise_iff_get.mp hp ⟨i, hi⟩ ⟨j, hj⟩ hij

theorem chain_getD_le {l : List IKey} (hs : l.Chain' keyLt) {i j : Nat}
    (hij : i ≤ j) (hj : j < l.length) :
    ¬ keyLt (l.getD j ⟨0, 0⟩) (l.getD i ⟨0, 0⟩) := by
  rcases Nat.eq_or_lt_of_le hij with he | hlt
  · rw [he]; exact keyLt_irrefl _
  · exact keyLt_asymm (chain_getD_lt hs hlt hj)

theorem seekIdx_le (keys : List IKey) (t : IKey) :
    seekIdx keys t ≤ keys.length := tw_le _ keys

theorem seekIdx_lt_key {keys : List IKey} {t : IKey} {i : Nat}
    (h : i < seekIdx keys t) : keyLt (keys.getD i ⟨0, 0⟩) t :=
  of_decide_eq_true (tw_pred _ keys i h)

theorem seekIdx_stop {keys : List IKey} {t : IKey}
    (h : seekIdx keys t < keys.length) :
    ¬ keyLt (keys.getD (seekIdx keys t) ⟨0, 0⟩) t :=
  of_decide_eq_false (tw_stop _ keys h)

theorem seekIdx_ge_key {keys : List IKey} (hs : keys.Chain' keyLt) {t : IKey}
    {i : Nat} (h0 : seekIdx keys t ≤ i) (hi : i < keys.length) :
    ¬ keyLt (keys.getD i ⟨0, 0⟩) t := by
  have hstop := seekIdx_stop (Nat.lt_of_le_of_lt h0 hi)
  rcases Nat.eq_or_lt_of_le h0 with he | hlt
  · exact he ▸ hstop
  · exact fun hk => hstop (keyLt_trans (chain_getD_lt hs hlt hi) hk)

theorem seekPrevLen_le (keys : List IKey) (t : IKey) :
    seekPrevLen keys t ≤ keys.length := tw_le _ keys

theorem seekPrevLen_lt_key {keys : List IKey} {t : IKey} {i : Nat}
    (h : i < seekPrevLen keys t) : ¬ keyLt t (keys.getD i ⟨0, 0⟩) := by
  have := tw_pred (fun k => !decide (keyLt t k)) keys i h
  simpa using this

theorem seekPrevLen_stop {keys : List IKey} {t : IKey}
    (h : seekPrevLen keys t < keys.length) :
    keyLt t (keys.getD (seekPrevLen keys t) ⟨0, 0⟩) := by
  have := tw_stop (fun k => !decide (keyLt t k)) keys h
  simpa using this

theorem seekPrevLen_ge_key {keys : List IKey} (hs : keys.Chain' keyLt)
    {t : IKey} {i : Nat} (h0 : seekPrevLen keys t ≤ i)
    (hi : i < keys.length) : keyLt t (keys.getD i ⟨0, 0⟩) := by
  have hstop := seekPrevLen_stop (Nat.lt_of_le_of_lt h0 hi)
  rcases Nat.eq_or_lt_of_le h0 with he | hlt
  · exact he ▸ hstop
  · exact keyLt_trans hstop (chain_getD_lt hs hlt hi)

theorem cutLE_true {k x : IKey} : cutLE ⟨k, true⟩ x ↔ keyLt k x := by
  simp [cutLE]

theorem cutLE_false {k x : IKey} : cutLE ⟨k, false⟩ x ↔ ¬ keyLt x k := by
  simp [cutLE]

theorem cutLE_mono_key {c : Cut} {x y : IKey} (h : cutLE c x)
    (hxy : ¬ keyLt y x) : cutLE c y := by
  by_cases hc : c.after
  · simp only [cutLE, hc, if_true] at h ⊢
    exact keyLt_of_lt_of_le h hxy
  · simp only [cutLE, hc, if_false, Bool.false_eq_true] at h ⊢
    exact keyLe_trans h hxy

/-- Lower edge of the tightened window: `Seek(start)` plus the
`include_start` adjustment lands at or before every in-window key. -/
theorem window_lower_idx {keys : List IKey} (hs : keys.Chain' keyLt)
    {start : IKey} {is : Bool} {iw : Nat} (hiw : iw < keys.length)
    (hk : cutLE ⟨start, !is⟩ (keys.getD iw ⟨0, 0⟩)) :
    (if !is && (keys.getD (seekIdx keys start) ⟨0, 0⟩ == start)
      then seekIdx keys start + 1 else seekIdx keys start) ≤ iw := by
  have hi0 : seekIdx keys start ≤ iw := by
    by_contra hlt
    have hklt := seekIdx_lt_key (Nat.lt_of_not_le hlt)
    cases is with
    | true =>
      rw [Bool.not_true, cutLE_false] at hk
      exact hk hklt
    | false =>
      rw [Bool.not_false, cutLE_true] at hk
      exact keyLt_asymm hk hklt
  by_cases hcond : (!is && (keys.getD (seekIdx keys start) ⟨0, 0⟩ == start))
      = true
  · rw [if_pos hcond]
    rcases (Bool.and_eq_true _ _).mp hcond with ⟨hnis, hbeq⟩
    have hise : is = false := by
      cases is with
      | true => simp at hnis
      | false => rfl
    have heq : keys.getD (seekIdx keys start) ⟨0, 0⟩ = start :=
      beq_iff_eq.mp hbeq
    rcases Nat.eq_or_lt_of_le hi0 with he | hlt
    · exfalso
      subst hise
      rw [Bool.not_false, cutLE_true] at hk
      rw [← he, heq] at hk
      exact keyLt_irrefl _ hk
    · exact hlt
  · rw [if_neg hcond]; exact hi0

/-- The key the lower seek lands on is itself at or past the left edge. -/
theorem lower_edge_in {keys : List IKey} (hs : keys.Chain' keyLt)
    {start : IKey} {is : Bool}
    (h2 : (if !is && (keys.getD (seekIdx keys start) ⟨0, 0⟩ == start)
      then seekIdx keys start + 1 else seekIdx keys start) < keys.length) :
    cutLE ⟨start, !is⟩
      (keys.getD
        (if !is && (keys.getD (seekIdx keys start) ⟨0, 0⟩ == start)
          then seekIdx keys start + 1 else seekIdx keys start) ⟨0, 0⟩) := by
  by_cases hcond : (!is && (keys.getD (seekIdx keys start) ⟨0, 0⟩ == start))
      = true
  · rw [if_pos hcond] at h2 ⊢
    rcases (Bool.and_eq_true _ _).mp hcond with ⟨hnis, hbeq⟩
    have hise : is = false := by
      cases is with
      | true => simp at hnis
      | false => rfl
    subst hise
    have heq : keys.getD (seekIdx keys start) ⟨0, 0⟩ = start :=
      beq_iff_eq.mp hbeq
    rw [Bool.not_false, cutLE_true]
    have hlt : keyLt (keys.getD (seekIdx keys start) ⟨0, 0⟩)
        (keys.getD (seekIdx keys start + 1) ⟨0, 0⟩) :=
      chain_getD_lt hs (Nat.lt_succ_self _) h2
    rw [heq] at hlt
    exact hlt
  · rw [if_neg hcond] at h2 ⊢
    have hstop := seekIdx_stop h2
    cases is with
    | true =>
      rw [Bool.not_true, cutLE_false]
      exact hstop
    | false =>
      rw [Bool.not_false, cutLE_true]
      have hne : keys.getD (seekIdx keys start) ⟨0, 0⟩ ≠ start := by
        intro he
        exact hcond (by rw [he]; simp)
      exact keyLt_of_not_of_ne hstop hne

/-- Upper edge: every in-window key forces `SeekForPrev(limit)` (plus the
`include_limit` adjustment) to land at a valid index at or past it. -/
theorem window_upper_idx {keys : List IKey} (hs : keys.Chain' keyLt)
    {limit : IKey} {il : Bool} {iw : Nat} (hiw : iw < keys.length)
    (hk : ¬ cutLE ⟨limit, il⟩ (keys.getD iw ⟨0, 0⟩)) :
    seekPrevLen keys limit ≠ 0 ∧
    ∃ j, (if !il && (keys.getD (seekPrevLen keys limit - 1) ⟨0, 0⟩ == limit)
        then (if seekPrevLen keys limit - 1 = 0 then none
              else some (seekPrevLen keys limit - 1 - 1))
        else some (seekPrevLen keys limit - 1)) = some j ∧ iw ≤ j := by
  have hle : ¬ keyLt limit (keys.getD iw ⟨0, 0⟩) := by
    cases il with
    | true =>
      rw [cutLE_true] at hk
      exact hk
    | false =>
      rw [cutLE_false] at hk
      exact keyLt_asymm (Classical.not_not.mp hk)
  have hiwlt : iw < seekPrevLen keys limit := by
    by_contra hge
    exact hle (seekPrevLen_ge_key hs (Nat.le_of_not_lt hge) hiw)
  have hjne : seekPrevLen keys limit ≠ 0 := by omega
  refine ⟨hjne, ?_⟩
  by_cases hcond : (!il && (keys.getD (seekPrevLen keys limit - 1) ⟨0, 0⟩
      == limit)) = true
  · rcases (Bool.and_eq_true _ _).mp hcond with ⟨hnil, hbeq⟩
    have hile : il = false := by
      cases il with
      | true => simp at hnil
      | false => rfl
    have heq : keys.getD (seekPrevLen keys limit - 1) ⟨0, 0⟩ = limit :=
      beq_iff_eq.mp hbeq
    have hiwne : iw ≠ seekPrevLen keys limit - 1 := by
      intro he
      subst hile
      rw [cutLE_false] at hk
      have hlim : keyLt (keys.getD iw ⟨0, 0⟩) limit := Classical.not_not.mp hk
      rw [he, heq] at hlim
      exact keyLt_irrefl _ hlim
    have hj0 : seekPrevLen keys limit - 1 ≠ 0 := by omega
    refine ⟨seekPrevLen keys limit - 1 - 1, ?_, by omega⟩
    rw [if_pos hcond, if_neg hj0]
  · exact ⟨seekPrevLen keys limit - 1, by rw [if_neg hcond], by omega⟩

/-- The key the upper seek lands on is itself before the right edge. -/
theorem upper_edge_in {keys : List IKey} (hs : keys.Chain' keyLt)
    {limit : IKey} {il : Bool} {j : Nat}
    (hjne : seekPrevLen keys limit ≠ 0)
    (hj1 : (if !il && (keys.getD (seekPrevLen keys limit - 1) ⟨0, 0⟩ == limit)
        then (if seekPrevLen keys limit - 1 = 0 then none
              else some (seekPrevLen keys limit - 1 - 1))
        else some (seekPrevLen keys limit - 1)) = some j) :
    j < seekPrevLen keys limit ∧
    ¬ cutLE ⟨limit, il⟩ (keys.getD j ⟨0, 0⟩) := by
  have hjlen : seekPrevLen keys limit ≤ keys.length := seekPrevLen_le keys limit
  by_cases hcond : (!il && (keys.getD (seekPrevLen keys limit - 1) ⟨0, 0⟩
      == limit)) = true
  · rw [if_pos hcond] at hj1
    rcases (Bool.and_eq_true _ _).mp hcond with ⟨hnil, hbeq⟩
    have hile : il = false := by
      cases il with
      | true => simp at hnil
      | false => rfl
    have heq : keys.getD (seekPrevLen keys limit - 1) ⟨0, 0⟩ = limit :=
      beq_iff_eq.mp hbeq
    by_cases hj0 : seekPrevLen keys limit - 1 = 0
    · rw [if_pos hj0] at hj1; cases hj1
    · rw [if_neg hj0] at hj1
      have hje : j = seekPrevLen keys limit - 1 - 1 :=
        (Option.some.inj hj1).symm
      subst hile
      have hjlt : j < seekPrevLen keys limit := by omega
      refine ⟨hjlt, ?_⟩
      rw [cutLE_false]
      intro hnk
      have hklt : keyLt (keys.getD j ⟨0, 0⟩)
          (keys.getD (seekPrevLen keys limit - 1) ⟨0, 0⟩) :=
        chain_getD_lt hs (by omega) (by omega)
      rw [heq] at hklt
      exact hnk hklt
  · rw [if_neg hcond] at hj1
    have hje : j = seekPrevLen keys limit - 1 :=
      (Option.some.inj hj1).symm
    have hjlt : j < seekPrevLen keys limit := by omega
    refine ⟨hjlt, ?_⟩
    have hle : ¬ keyLt limit (keys.getD j ⟨0, 0⟩) := seekPrevLen_lt_key hjlt
    cases il with
    | true =>
      rw [cutLE_true]
      exact hle
    | false =>
      rw [cutLE_false]
      have hne : keys.getD j ⟨0, 0⟩ ≠ limit := by
        rw [hje]
        intro he
        exact hcond (by rw [he]; simp)
      intro hnk
      exact hnk (keyLt_of_not_of_ne hle (fun he => hne he.symm))

theorem getD_mem {l : List IKey} {i : Nat} (h : i < l.length) :
    l.getD i ⟨0, 0⟩ ∈ l := by
  rw [List.getD_eq_getElem _ _ h]
  exact List.getElem_mem _

theorem mem_getD {l : List IKey} {w : IKey} (h : w ∈ l) :
    ∃ i, ∃ hi : i < l.length, l.getD i ⟨0, 0⟩ = w := by
  obtain ⟨⟨i, hi⟩, hg⟩ := List.mem_iff_get.mp h
  refine ⟨i, hi, ?_⟩
  rw [List.getD_eq_getElem _ _ hi]
  exact hg

/-- On a strictly sorted file whose window for the element is non-empty,
`tightenLink` finds the first and last window keys and sets the link size
from their offsets, reporting the sub-range non-empty. -/
theorem tightenLink_nonempty {keys : List IKey} (hs : keys.Chain' keyLt)
    (off : IKey → Nat) {start limit : IKey} {is il : Bool} (lk : LinkTarget)
    (hne : ∃ k ∈ keys, inWindow start limit is il k) :
    ∃ s e, s ∈ keys ∧ e ∈ keys ∧
      inWindow start limit is il s ∧ inWindow start limit is il e ∧
      (∀ k ∈ keys, inWindow start limit is il k →
        ¬ keyLt k s ∧ ¬ keyLt e k) ∧
      tightenLink keys off start limit is il lk =
        ({ lk with size := (off e + 2 ^ 64 - off s) % 2 ^ 64 }, true) := by
  obtain ⟨w, hwmem, hwin⟩ := hne
  obtain ⟨iw, hiwlt, hiwD⟩ := mem_getD hwmem
  have hlow : cutLE ⟨start, !is⟩ (keys.getD iw ⟨0, 0⟩) := by
    rw [hiwD]; exact hwin.1
  have hupp : ¬ cutLE ⟨limit, il⟩ (keys.getD iw ⟨0, 0⟩) := by
    rw [hiwD]; exact hwin.2
  have hi1le := window_lower_idx hs hiwlt hlow
  obtain ⟨hjne, j, hj1, hiwj⟩ := window_upper_idx hs hiwlt hupp
  have h2 : (if !is && (keys.getD (seekIdx keys start) ⟨0, 0⟩ == start)
      then seekIdx keys start + 1 else seekIdx keys start) < keys.length :=
    Nat.lt_of_le_of_lt hi1le hiwlt
  have h01 : seekIdx keys start ≤
      (if !is && (keys.getD (seekIdx keys start) ⟨0, 0⟩ == start)
        then seekIdx keys start + 1 else seekIdx keys start) := by
    split <;> omega
  have h1 : seekIdx keys start < keys.length := Nat.lt_of_le_of_lt h01 h2
  have hjlenle := seekPrevLen_le keys limit
  have hjup := upper_edge_in hs hjne hj1
  have hjn : j < keys.length := Nat.lt_of_lt_of_le hjup.1 hjlenle
  have hi1j : (if !is && (keys.getD (seekIdx keys start) ⟨0, 0⟩ == start)
      then seekIdx keys start + 1 else seekIdx keys start) ≤ j :=
    Nat.le_trans hi1le hiwj
  have h4 : ¬ keyLt (keys.getD j ⟨0, 0⟩)
      (keys.getD
        (if !is && (keys.getD (seekIdx keys start) ⟨0, 0⟩ == start)
          then seekIdx keys start + 1 else seekIdx keys start) ⟨0, 0⟩) :=
    chain_getD_le hs hi1j hjn
  have hsin_low := lower_edge_in hs h2
  have hein_low : cutLE ⟨start, !is⟩ (keys.getD j ⟨0, 0⟩) :=
    cutLE_mono_key hsin_low h4
  have hsin_up : ¬ cutLE ⟨limit, il⟩
      (keys.getD
        (if !is && (keys.getD (seekIdx keys start) ⟨0, 0⟩ == start)
          then seekIdx keys start + 1 else seekIdx keys start) ⟨0, 0⟩) :=
    fun hc => hjup.2 (cutLE_mono_key hc h4)
  have hminmax : ∀ k ∈ keys, inWindow start limit is il k →
      ¬ keyLt k (keys.getD
        (if !is && (keys.getD (seekIdx keys start) ⟨0, 0⟩ == start)
          then seekIdx keys start + 1 else seekIdx keys start) ⟨0, 0⟩) ∧
      ¬ keyLt (keys.getD j ⟨0, 0⟩) k := by
    intro k hkmem hkwin
    obtain ⟨ik, hiklt, hikD⟩ := mem_getD hkmem
    have hklow : cutLE ⟨start, !is⟩ (keys.getD ik ⟨0, 0⟩) := by
      rw [hikD]; exact hkwin.1
    have hkup : ¬ cutLE ⟨limit, il⟩ (keys.getD ik ⟨0, 0⟩) := by
      rw [hikD]; exact hkwin.2
    have hi1ik := window_lower_idx hs hiklt hklow
    obtain ⟨-, j', hj1', hikj'⟩ := window_upper_idx hs hiklt hkup
    have hjj : j' = j := by
      rw [hj1'] at hj1
      exact Option.some.inj hj1
    subst hjj
    constructor
    · rw [← hikD]; exact chain_getD_le hs hi1ik hiklt
    · rw [← hikD]; exact chain_getD_le hs hikj' hjn
  refine ⟨keys.getD
      (if !is && (keys.getD (seekIdx keys start) ⟨0, 0⟩ == start)
        then seekIdx keys start + 1 else seekIdx keys start) ⟨0, 0⟩,
    keys.getD j ⟨0, 0⟩, getD_mem h2, getD_mem hjn,
    ⟨hsin_low, hsin_up⟩, ⟨hein_low, hjup.2⟩, hminmax, ?_⟩
  simp only [tightenLink]
  rw [if_pos h1, if_pos h2, if_neg hjne, hj1]
  simp only []
  rw [if_pos (decide_eq_true h4)]

/-- On a strictly sorted file whose window for the element is empty,
`tightenLink` reports the sub-range empty and either leaves the link
unchanged (a seek ran off the file) or zeroes its size. -/
theorem tightenLink_emptyWin {keys : List IKey} (hs : keys.Chain' keyLt)
    (off : IKey → Nat) {start limit : IKey} {is il : Bool} (lk : LinkTarget)
    (hemp : ∀ k ∈ keys, ¬ inWindow start limit is il k) :
    (tightenLink keys off start limit is il lk).2 = false ∧
    ((tightenLink keys off start limit is il lk).1 = lk ∨
      (tightenLink keys off start limit is il lk).1 =
        { lk with size := 0 }) := by
  simp only [tightenLink]
  by_cases h1 : seekIdx keys start < keys.length
  · rw [if_pos h1]
    by_cases h2 : (if !is && (keys.getD (seekIdx keys start) ⟨0, 0⟩ == start)
        then seekIdx keys start + 1 else seekIdx keys start) < keys.length
    · rw [if_pos h2]
      by_cases h3 : seekPrevLen keys limit = 0
      · rw [if_pos h3]
        exact ⟨rfl, Or.inl rfl⟩
      · rw [if_neg h3]
        rcases hopt : (if !il &&
              (keys.getD (seekPrevLen keys limit - 1) ⟨0, 0⟩ == limit)
            then (if seekPrevLen keys limit - 1 = 0 then none
                  else some (seekPrevLen keys limit - 1 - 1))
            else some (seekPrevLen keys limit - 1)) with _ | j
        · exact ⟨rfl, Or.inl rfl⟩
        · simp only []
          by_cases h4 : decide (¬ keyLt (keys.getD j ⟨0, 0⟩)
              (keys.getD
                (if !is && (keys.getD (seekIdx keys start) ⟨0, 0⟩ == start)
                  then seekIdx keys start + 1
                  else seekIdx keys start) ⟨0, 0⟩)) = true
          · exfalso
            have h4' := of_decide_eq_true h4
            have hjup := upper_edge_in hs h3 hopt
            have hsin_low := lower_edge_in hs h2
            have hsin_up : ¬ cutLE ⟨limit, il⟩
                (keys.getD
                  (if !is &&
                      (keys.getD (seekIdx keys start) ⟨0, 0⟩ == start)
                    then seekIdx keys start + 1
                    else seekIdx keys start) ⟨0, 0⟩) :=
              fun hc => hjup.2 (cutLE_mono_key hc h4')
            exact hemp _ (getD_mem h2) ⟨hsin_low, hsin_up⟩
          · rw [if_neg (by simpa using h4)]
            exact ⟨rfl, Or.inr rfl⟩
    · rw [if_neg h2]
      exact ⟨rfl, Or.inl rfl⟩
  · rw [if_neg h1]
    exact ⟨rfl, Or.inl rfl⟩

/-- With a sorted file, the cleared-`no_records` bit of one link is exactly
non-emptiness of the tightened sub-range. -/
theorem tightenLink_snd_iff {keys : List IKey} (hs : keys.Chain' keyLt)
    (off : IKey → Nat) {start limit : IKey} {is il : Bool} (lk : LinkTarget) :
    (tightenLink keys off start limit is il lk).2 = true ↔
      ∃ k ∈ keys, inWindow start limit is il k := by
  constructor
  · intro h
    by_contra hemp
    push_neg at hemp
    have hf := (tightenLink_emptyWin hs off lk hemp).1
    rw [h] at hf
    cases hf
  · intro hne
    obtain ⟨s, e, -, -, -, -, -, heq⟩ := tightenLink_nonempty hs off lk hne
    rw [heq]

/-- The link loop rewrites every link through `tightenLink`. -/
theorem prepareLinks_fst (tbl : Nat → List IKey × (IKey → Nat))
    (start limit : IKey) (is il : Bool) :
    ∀ links : List LinkTarget,
      (prepareLinks tbl start limit is il links).1 =
        links.map (fun lk => (tightenLink (tbl lk.file_number).1
          (tbl lk.file_number).2 start limit is il lk).1)
  | [] => rfl
  | lk :: rest => by
    simp only [prepareLinks, List.map_cons]
    rw [prepareLinks_fst tbl start limit is il rest]

/-- The final `no_records` flag is true iff no link cleared it. -/
theorem prepareLinks_snd (tbl : Nat → List IKey × (IKey → Nat))
    (start limit : IKey) (is il : Bool) :
    ∀ links : List LinkTarget,
      ((prepareLinks tbl start limit is il links).2 = true ↔
        ∀ lk ∈ links, (tightenLink (tbl lk.file_number).1
          (tbl lk.file_number).2 start limit is il lk).2 = false)
  | [] => by simp [prepareLinks]
  | lk :: rest => by
    simp only [prepareLinks, Bool.and_eq_true, List.mem_cons]
    rw [prepareLinks_snd tbl start limit is il rest]
    constructor
    · rintro ⟨hrest, hlk⟩ x (hx | hx)
      · subst hx
        simpa using hlk
      · exact hrest x hx
    · intro h
      refine ⟨fun x hx => h x (Or.inr hx), ?_⟩
      simpa using h lk (Or.inl rfl)

/-- **C6 (counterexample)**: a file whose only key lies entirely before the
element's window.  `Seek(start)` runs off the file, the loop `continue`s, and
the link keeps its stale size 42 instead of being set to 0, although the
tightened sub-range is empty. -/
theorem C6_counterexample :
    (∀ k ∈ ([⟨0, 1⟩] : List IKey),
      ¬ inWindow ⟨1, 1⟩ ⟨2, 1⟩ true true k) ∧
    (tightenLink [⟨0, 1⟩] (fun _ => 0) ⟨1, 1⟩ ⟨2, 1⟩ true true
      ⟨7, 42⟩).1.size = 42 := by decide

/-- **C6 (amended)**: over sorted files, the link loop of `PrepareNext`
rewrites each link through `tightenLink`; a link whose tightened sub-range is
non-empty gets `size = offset(last) - offset(first)` over the first and last
window keys; a link whose tightened sub-range is empty is reported empty and
is either left unchanged (when a seek ran off the file) or zeroed; and the
element's `no_records` flag ends up true iff every link target's tightened
sub-range is empty. -/
theorem C6_amended (tbl : Nat → List IKey × (IKey → Nat))
    (start limit : IKey) (is il : Bool) (links : List LinkTarget)
    (hs : ∀ lk ∈ links, ((tbl lk.file_number).1).Chain' keyLt) :
    ((prepareLinks tbl start limit is il links).2 = true ↔
      ∀ lk ∈ links, ∀ k ∈ (tbl lk.file_number).1,
        ¬ inWindow start limit is il k) ∧
    (prepareLinks tbl start limit is il links).1 =
      links.map (fun lk => (tightenLink (tbl lk.file_number).1
        (tbl lk.file_number).2 start limit is il lk).1) ∧
    (∀ lk ∈ links,
      ((∃ k ∈ (tbl lk.file_number).1, inWindow start limit is il k) →
        ∃ s e, s ∈ (tbl lk.file_number).1 ∧ e ∈ (tbl lk.file_number).1 ∧
          inWindow start limit is il s ∧ inWindow start limit is il e ∧
          (∀ k ∈ (tbl lk.file_number).1, inWindow start limit is il k →
            ¬ keyLt k s ∧ ¬ keyLt e k) ∧
          tightenLink (tbl lk.file_number).1 (tbl lk.file_number).2
              start limit is il lk =
            ({ lk with size := ((tbl lk.file_number).2 e + 2 ^ 64 -
                (tbl lk.file_number).2 s) % 2 ^ 64 }, true)) ∧
      ((∀ k ∈ (tbl lk.file_number).1, ¬ inWindow start limit is il k) →
        (tightenLink (tbl lk.file_number).1 (tbl lk.file_number).2
            start limit is il lk).2 = false ∧
        ((tightenLink (tbl lk.file_number).1 (tbl lk.file_number).2
            start limit is il lk).1 = lk ∨
          (tightenLink (tbl lk.file_number).1 (tbl lk.file_number).2
            start limit is il lk).1 = { lk with size := 0 }))) := by
  refine ⟨?_, prepareLinks_fst tbl start limit is il links, ?_⟩
  · rw [prepareLinks_snd]
    constructor
    · intro h lk hlk k hk hwin
      have hf := h lk hlk
      have ht := (tightenLink_snd_iff (hs lk hlk)
        (tbl lk.file_number).2 lk).mpr ⟨k, hk, hwin⟩
      rw [ht] at hf
      cases hf
    · intro h lk hlk
      have hnt : ¬ (tightenLink (tbl lk.file_number).1 (tbl lk.file_number).2
          start limit is il lk).2 = true := by
        rw [tightenLink_snd_iff (hs lk hlk)]
        rintro ⟨k, hk, hwin⟩
        exact h lk hlk k hk hwin
      exact Bool.eq_false_iff.mpr hnt
  · intro lk hlk
    exact ⟨fun hne => tightenLink_nonempty (hs lk hlk) _ lk hne,
      fun hemp => tightenLink_emptyWin (hs lk hlk) _ lk hemp⟩

/-- Witness for C6: the amended theorem applied at a concrete element whose
window contains two of the three keys of the single linked file. -/
theorem C6_witness :
    (prepareLinks
      (fun _ => (([⟨1, 300⟩, ⟨3, 300⟩, ⟨5, 300⟩] : List IKey),
        fun k : IKey => k.uk * 10))
      ⟨2, 9⟩ ⟨5, 300⟩ true true [⟨7, 0⟩]).2 = false := by
  have h := C6_amended
    (fun _ => (([⟨1, 300⟩, ⟨3, 300⟩, ⟨5, 300⟩] : List IKey),
      fun k : IKey => k.uk * 10))
    ⟨2, 9⟩ ⟨5, 300⟩ true true [⟨7, 0⟩]
    (fun _ _ => List.chain'_cons.mpr ⟨by decide,
      List.chain'_cons.mpr ⟨by decide, List.chain'_singleton _⟩⟩)
  rcases h with ⟨hiff, -, -⟩
  by_contra hne
  have htrue : (prepareLinks
      (fun _ => (([⟨1, 300⟩, ⟨3, 300⟩, ⟨5, 300⟩] : List IKey),
        fun k : IKey => k.uk * 10))
      ⟨2, 9⟩ ⟨5, 300⟩ true true [⟨7, 0⟩]).2 = true := by
    cases hb : (prepareLinks
        (fun _ => (([⟨1, 300⟩, ⟨3, 300⟩, ⟨5, 300⟩] : List IKey),
          fun k : IKey => k.uk * 10))
        ⟨2, 9⟩ ⟨5, 300⟩ true true [⟨7, 0⟩]).2
    · exact absurd hb hne
    · rfl
  exact (hiff.mp htrue ⟨7, 0⟩ (by decide) ⟨3, 300⟩ (by decide)) (by decide)

end TerarkMap
